import Mathlib

/-!
Verification of the konfetty recursive default-merging engine.

This file gives a shallow embedding of the engine in `defaults.go` and the
processing pipeline in `konfetty.go`, and proves (or refutes) the frozen
claims about them.

Embedding conventions:

* Go values reachable by the merger are modelled by the inductive type `Val`:
  records (`struct`), pointers (`ptr`, carrying the pointee type, and for a
  non-nil pointer the address used by cycle detection together with the
  pointee), string-keyed maps (`map`, `none` = nil map), slices (`slice`,
  `none` = nil slice), interface values (`iface`) and scalars.
* Struct field types and exportedness are given by a schema `SC : Nat →
  List (Bool × Ty)` mapping a struct identity to its fields' (exported, type)
  pairs, the compile-time information `reflect` reads off `dst.Type()`.
* Mutation is modelled functionally: every function returns the updated
  value.  `reflect.New` allocations draw fresh addresses from a counter
  threaded through the merge; the visited set of `applyDefaults` is a list
  of pointer identities.  As in Go, `reflect.Value.Pointer()` of a nil
  pointer is 0, so a nil pointer is tracked under identity 0.
* The traversal `applyDefaultsRecursive` is partial on adversarial
  registries (a default can keep re-growing the value), which Go resolves
  by in-place mutation of shared pointers; the embedding uses explicit fuel
  and a distinguished `fuelOut` outcome.  All claims are stated for
  sufficient fuel.
-/

/-- Runtime types (`reflect.Type`) of the values the merger handles.
Struct types are identified by a numeric identity; map keys are strings. -/
inductive Ty where
  | int : Ty
  | str : Ty
  | bool : Ty
  | struct (id : Nat) : Ty
  | ptr (elem : Ty) : Ty
  | map (elem : Ty) : Ty
  | slice (elem : Ty) : Ty
  | iface : Ty
deriving DecidableEq, Repr

/-- Go values as seen through `reflect.Value`.  A non-nil pointer carries the
address returned by `reflect.Value.Pointer()` together with its pointee; a
map or slice is `none` when nil.  An interface value holds the dynamic value
it wraps, or `none` when nil. -/
inductive Val where
  | int (n : Int) : Val
  | str (s : String) : Val
  | bool (b : Bool) : Val
  | struct (id : Nat) (fields : List Val) : Val
  | ptr (elem : Ty) (target : Option (Nat × Val)) : Val
  | map (elem : Ty) (entries : Option (List (String × Val))) : Val
  | slice (elem : Ty) (elems : Option (List Val)) : Val
  | iface (inner : Option Val) : Val
deriving Repr

/-- The runtime type of a value (`reflect.Value.Type`). -/
def tyOf : Val → Ty
  | .int _ => .int
  | .str _ => .str
  | .bool _ => .bool
  | .struct id _ => .struct id
  | .ptr t _ => .ptr t
  | .map t _ => .map t
  | .slice t _ => .slice t
  | .iface _ => .iface

/-- Map lookup, `v.MapIndex(key)`: `none` plays the role of an invalid
`reflect.Value` for an absent key. -/
def mapGet (k : String) : List (String × Val) → Option Val
  | [] => none
  | (k', v) :: rest => if k' = k then some v else mapGet k rest

/-- Map update, `v.SetMapIndex(key, val)`: replaces the entry for an existing
key, otherwise appends the new entry. -/
def mapSet (k : String) (v : Val) : List (String × Val) → List (String × Val)
  | [] => [(k, v)]
  | (k', v') :: rest => if k' = k then (k, v) :: rest else (k', v') :: mapSet k v rest

/-- Pointer identity used by `checkCircularReference`: `v.Pointer()` is the
address of a non-nil pointer and 0 for a nil pointer. -/
def ptrId : Option (Nat × Val) → Nat
  | none => 0
  | some (a, _) => a

mutual
/-- Structural zero test, `reflect.Value.IsZero`: 0, "", false for scalars,
nil for pointers, maps, slices and interfaces, and for a struct, all fields
(recursively) zero. -/
def isZero : Val → Bool
  | .int n => n == 0
  | .str s => s == ""
  | .bool b => b == false
  | .struct _ fs => isZeroL fs
  | .ptr _ t => t.isNone
  | .map _ es => es.isNone
  | .slice _ xs => xs.isNone
  | .iface x => x.isNone
def isZeroL : List Val → Bool
  | [] => true
  | v :: vs => isZero v && isZeroL vs
end

mutual
/-- Zero value of the runtime type of `v`, as built by
`reflect.New(v.Type()).Elem()`. -/
def zeroLike : Val → Val
  | .int _ => .int 0
  | .str _ => .str ""
  | .bool _ => .bool false
  | .struct id fs => .struct id (zeroLikeL fs)
  | .ptr t _ => .ptr t none
  | .map t _ => .map t none
  | .slice t _ => .slice t none
  | .iface _ => .iface none
def zeroLikeL : List Val → List Val
  | [] => []
  | v :: vs => zeroLike v :: zeroLikeL vs
end

/-- `setField` (defaults.go): assigning a default into a currently-zero
field.  For a map source with a nil destination it makes a fresh map and
copies the source's entries one key at a time (`reflect.MakeMap` followed by
`SetMapIndex` per key); in every other case it is a direct `dst.Set(src)`,
which for pointer and slice sources copies the handle itself. -/
def setFieldF (dst src : Val) : Val :=
  match src, dst with
  | .map t es?, .map _ none => .map t (some (es?.getD []))
  | _, _ => src

/-- Key-wise copy loop shared by `mergeMapField` (defaults.go): for each key
of the source map absent from the (evolving) destination, insert the
source's entry. -/
def mergeMapEntries (des ses : List (String × Val)) : List (String × Val) :=
  ses.foldl (fun acc kv => if (mapGet kv.1 acc).isSome then acc else acc ++ [kv]) des

section Engine

variable (SC : Nat → List (Bool × Ty))

/-- Exported-flags of a struct type's fields, read off the schema as
`dst.Type().Field(i).IsExported()` reads them off the Go type. -/
def exflags (id : Nat) : List Bool :=
  (SC id).map Prod.fst

mutual
/-- Field loop of `mergeDefault` (defaults.go): merge the source's fields
into the destination's fields pairwise, threading the allocation counter.
`flags` are the exportedness flags of the destination struct type. -/
def mergeFieldsF (n : Nat) (flags : List Bool) (dfs sfs : List Val) : List Val × Nat :=
  match sfs, dfs, flags with
  | s :: ss, d :: ds, ex :: exs =>
    let r₁ := mergeFieldF n ex d s
    let r₂ := mergeFieldsF r₁.2 exs ds ss
    (r₁.1 :: r₂.1, r₂.2)
  | _, ds, _ => (ds, n)

/-- `mergeField` (defaults.go).  Unexported fields are skipped; a zero
destination receives the source via `setField`; otherwise the source's kind
dispatches to `mergeDefault` (struct), `mergePtrField` (pointer) or
`mergeMapField` (map), all inlined here (together with the
`dereference`-both-sides preamble of `mergeDefault`) so that the recursion
is structural on the source value. -/
def mergeFieldF (n : Nat) (ex : Bool) (dst src : Val) : Val × Nat :=
  if ex = false then (dst, n)
  else if isZero dst then (setFieldF dst src, n)
  else
    match src, dst with
  -- case reflect.Struct: mergeDefault(dst, src), with dst dereferenced
  | .struct _ sfs, .struct id dfs =>
    let r := mergeFieldsF n (exflags SC id) dfs sfs
    (.struct id r.1, r.2)
  | .struct _ sfs, .ptr t (some (a, .struct id dfs)) =>
    let r := mergeFieldsF n (exflags SC id) dfs sfs
    (.ptr t (some (a, .struct id r.1)), r.2)
  | .struct _ _, _ => (dst, n)
  -- case reflect.Ptr: mergePtrField(dst, src)
  | .ptr _ none, _ => (dst, n)
  | .ptr _ (some (_, .struct sid sfs)), .ptr t none =>
    -- dst.Set(reflect.New(src.Elem().Type())) then mergeDefault(dst.Elem(), src.Elem())
    let r := mergeFieldsF (n + 1) (exflags SC sid) (zeroLikeL sfs) sfs
    (.ptr t (some (n, .struct sid r.1)), r.2)
  | .ptr _ (some (_, .struct _ sfs)), .ptr t (some (a, .struct id dfs)) =>
    let r := mergeFieldsF n (exflags SC id) dfs sfs
    (.ptr t (some (a, .struct id r.1)), r.2)
  | .ptr _ (some (_, .struct _ sfs)), .ptr t (some (a, .ptr t₂ (some (a₂, .struct id dfs)))) =>
    -- mergeDefault dereferences its (pointer) destination once more
    let r := mergeFieldsF n (exflags SC id) dfs sfs
    (.ptr t (some (a, .ptr t₂ (some (a₂, .struct id r.1)))), r.2)
  | .ptr _ (some _), _ => (dst, n)
  -- case reflect.Map: mergeMapField(dst, src)
  | .map _ ses?, .map t (some des) =>
    (.map t (some (mergeMapEntries des (ses?.getD []))), n)
  | .map _ _, _ => (dst, n)
  -- other kinds need no special handling
  | _, _ => (dst, n)
end

/-- `mergeDefault` (defaults.go): dereference both sides; if both are then
structs, merge field by field, only ever writing zero fields of `dst`. -/
def mergeDefaultF (n : Nat) (dst src : Val) : Val × Nat :=
  match src, dst with
  | .struct _ sfs, .struct id dfs =>
    let r := mergeFieldsF SC n (exflags SC id) dfs sfs
    (.struct id r.1, r.2)
  | .struct _ sfs, .ptr t (some (a, .struct id dfs)) =>
    let r := mergeFieldsF SC n (exflags SC id) dfs sfs
    (.ptr t (some (a, .struct id r.1)), r.2)
  | .ptr _ (some (_, .struct _ sfs)), .struct id dfs =>
    let r := mergeFieldsF SC n (exflags SC id) dfs sfs
    (.struct id r.1, r.2)
  | .ptr _ (some (_, .struct _ sfs)), .ptr t (some (a, .struct id dfs)) =>
    let r := mergeFieldsF SC n (exflags SC id) dfs sfs
    (.ptr t (some (a, .struct id r.1)), r.2)
  | _, _ => (dst, n)

/-- `applyTypeDefaults` (defaults.go): apply the registered defaults for the
node's type in reverse registration order. -/
def applyTypeDefaultsF (n : Nat) (v : Val) (tds : List Val) : Val × Nat :=
  tds.reverse.foldl (fun acc d => mergeDefaultF SC acc.2 acc.1 d) (v, n)

end Engine

/-- `applyMapDefaults` (defaults.go): for each default value registered for
the map's own type, in forward registration order, copy in the keys absent
from the live map.  A non-map default is skipped (in Go the registry key
guarantees a map). -/
def applyMapDefaultsF (es : List (String × Val)) (dvs : List Val) : List (String × Val) :=
  dvs.foldl
    (fun acc dv =>
      match dv with
      | .map _ (some des) =>
        des.foldl (fun acc2 kv => if (mapGet kv.1 acc2).isSome then acc2 else acc2 ++ [kv]) acc
      | _ => acc)
    es

/-- Errors of the engine (errors.go), plus the fuel-exhaustion marker of the
embedding. -/
inductive DErr where
  | notPointer : DErr
  | nilConfig : DErr
  | circularReference : DErr
  | fuelOut : DErr
deriving DecidableEq, Repr

/-- Traversal state: the visited set of pointer identities and the next
fresh address for `reflect.New` allocations. -/
structure St where
  vis : List Nat
  nxt : Nat
deriving DecidableEq, Repr

/-- `checkCircularReference` (defaults.go): on a pointer node, fail if its
identity was ever visited, otherwise record it.  A nil pointer has identity
0 (`reflect.Value.Pointer()` of a nil pointer). -/
def checkCircularReferenceF (v : Val) (vis : List Nat) : Except DErr (List Nat) :=
  match v with
  | .ptr _ t => if ptrId t ∈ vis then .error .circularReference else .ok (ptrId t :: vis)
  | _ => .ok vis

/-- Loop of `handleStruct` / `handleSlice` (defaults.go): recurse into each
child in order, threading state, stopping at the first error. -/
def runChildrenF (rec : Val → St → Except DErr (Val × St)) :
    List Val → St → Except DErr (List Val × St)
  | [], st => .ok ([], st)
  | v :: vs, st =>
    match rec v st with
    | .error e => .error e
    | .ok (v', st') =>
      match runChildrenF rec vs st' with
      | .error e => .error e
      | .ok (vs', st'') => .ok (v' :: vs', st'')

/-- Loop of `handleMap` (defaults.go): recurse into each entry's value and
write it back under its key, in order. -/
def runEntriesF (rec : Val → St → Except DErr (Val × St)) :
    List (String × Val) → St → Except DErr (List (String × Val) × St)
  | [], st => .ok ([], st)
  | (k, v) :: es, st =>
    match rec v st with
    | .error e => .error e
    | .ok (v', st') =>
      match runEntriesF rec es st' with
      | .error e => .error e
      | .ok (es', st'') => .ok ((k, v') :: es', st'')

/-- `applyDefaultsRecursive` (defaults.go): check the visited set, apply the
type's registered defaults most-recently-registered first, then recurse
structurally.  A nil map node is materialized as an empty map
(`reflect.MakeMap`) before its entries are processed and the key-wise map
defaults for the map's own type are applied.  The interface unwrapping the
source performs inside `handleSlice`/`handleMap` before recursing is the
identity here, because recursing on the wrapped interface value itself
reaches the inner value through `handleInterface` and type-level defaults
never merge into interface-kinded destinations.  Fuel only bounds the
recursion depth of the embedding. -/
def runRec (SC : Nat → List (Bool × Ty)) (R : Ty → List Val) :
    Nat → Val → St → Except DErr (Val × St)
  | 0, _, _ => .error .fuelOut
  | fuel + 1, v, st =>
    match checkCircularReferenceF v st.vis with
    | .error e => .error e
    | .ok vis' =>
      let m := applyTypeDefaultsF SC st.nxt v (R (tyOf v))
      let st₁ : St := ⟨vis', m.2⟩
      match m.1 with
      | .struct id fs =>
        match runChildrenF (runRec SC R fuel) fs st₁ with
        | .error e => .error e
        | .ok (fs', st₂) => .ok (.struct id fs', st₂)
      | .slice t none => .ok (.slice t none, st₁)
      | .slice t (some xs) =>
        match runChildrenF (runRec SC R fuel) xs st₁ with
        | .error e => .error e
        | .ok (xs', st₂) => .ok (.slice t (some xs'), st₂)
      | .map t es? =>
        match runEntriesF (runRec SC R fuel) (es?.getD []) st₁ with
        | .error e => .error e
        | .ok (es', st₂) => .ok (.map t (some (applyMapDefaultsF es' (R (.map t)))), st₂)
      | .ptr t none => .ok (.ptr t none, st₁)
      | .ptr t (some (a, p)) =>
        match runRec SC R fuel p st₁ with
        | .error e => .error e
        | .ok (p', st₂) => .ok (.ptr t (some (a, p')), st₂)
      | .iface none => .ok (.iface none, st₁)
      | .iface (some x) =>
        match runRec SC R fuel x st₁ with
        | .error e => .error e
        | .ok (x', st₂) => .ok (.iface (some x'), st₂)
      | w => .ok (w, st₁)

/-- `applyDefaults` (defaults.go): the entry point.  The config must be a
non-nil pointer; its pointee is then processed with a fresh visited set.
The root pointer's own identity is never recorded (the code walks
`v.Elem()` directly).  `n₀` seeds the allocator for `reflect.New`. -/
def applyDefaultsF (SC : Nat → List (Bool × Ty)) (R : Ty → List Val)
    (fuel n₀ : Nat) (config : Val) : Except DErr (Val × St) :=
  match config with
  | .ptr t (some (a, inner)) =>
    match runRec SC R fuel inner ⟨[], n₀⟩ with
    | .error e => .error e
    | .ok (w, st) => .ok (.ptr t (some (a, w)), st)
  | .ptr _ none => .error .nilConfig
  | _ => .error .notPointer

/-- Outcome of calling the `load` stage's collaborator (konfetty.go): the
collaborator's value or its own error message. -/
def CollabRes := Except String Val

/-- `dataSource` (konfetty.go): at most one of a preloaded value, a loader
function, or a provider.  Functions are modelled by the result of their
single invocation. -/
structure DataSource where
  data : Option Val
  loaderFunc : Option (Except String Val)
  provider : Option (Except String Val)

/-- Errors of the `load` stage (konfetty.go), tagged with their origin as
the `fmt.Errorf` wrapping tags them. -/
inductive LoadErr where
  | fromLoaderFunc (e : String) : LoadErr
  | fromProvider (e : String) : LoadErr
  | noDataSource : LoadErr
deriving DecidableEq, Repr

/-- Errors of `build` (konfetty.go), tagged with the stage they occurred in
as the `fmt.Errorf` wrapping tags them. -/
inductive BuildErr where
  | load (e : LoadErr) : BuildErr
  | applyDefaults (e : DErr) : BuildErr
  | validate (e : String) : BuildErr
deriving DecidableEq, Repr

/-- `Builder` (konfetty.go): the data source, the type-keyed defaults
registry filled by `WithDefaults` in registration order, and the optional
transform and validate callbacks.  The transform mutates the value
(modelled as a function on values); the validator returns an optional
error. -/
structure Builder where
  source : DataSource
  defaults : Ty → List Val
  transform : Option (Val → Val)
  validate : Option (Val → Option String)

/-- `Builder.load` (konfetty.go): take the value from the first configured
source, wrapping a collaborator failure with its origin. -/
def loadF (b : Builder) : Except LoadErr Val :=
  match b.source.data with
  | some d => .ok d
  | none =>
    match b.source.loaderFunc with
    | some (.ok v) => .ok v
    | some (.error e) => .error (.fromLoaderFunc e)
    | none =>
      match b.source.provider with
      | some (.ok v) => .ok v
      | some (.error e) => .error (.fromProvider e)
      | none => .error .noDataSource

/-- Transform stage of `build` (konfetty.go): the caller-supplied transform
is invoked on the merged value when configured, otherwise the value passes
through. -/
def transformStage (b : Builder) (v : Val) : Val :=
  match b.transform with
  | some f => f v
  | none => v

/-- Validate stage of `build` (konfetty.go): the caller-supplied validator
is invoked on the transformed value when configured; `none` means success. -/
def validateStage (b : Builder) (v : Val) : Option String :=
  match b.validate with
  | some g => g v
  | none => none

/-- `Builder.build` (konfetty.go): load, then `applyDefaults(&cfg, ...)` on
the address of the freshly loaded local (always a non-nil pointer), then
the optional transform, then the optional validator; each failure is
stage-tagged and ends the pipeline.  `fuel` and `n₀` parameterize the
embedding of `applyDefaults` as above; the local's address (1) is never
compared by the traversal since the entry point does not record the root
pointer. -/
def buildF (SC : Nat → List (Bool × Ty)) (fuel n₀ : Nat) (b : Builder) :
    Except BuildErr Val :=
  match loadF b with
  | .error e => .error (.load e)
  | .ok cfg =>
    match applyDefaultsF SC b.defaults fuel n₀ (.ptr (tyOf cfg) (some (1, cfg))) with
    | .error e => .error (.applyDefaults e)
    | .ok (w, _) =>
      let cfg₁ := match w with
        | .ptr _ (some (_, inner)) => inner
        | other => other
      let cfg₂ := transformStage b cfg₁
      match validateStage b cfg₂ with
      | some e => .error (.validate e)
      | none => .ok cfg₂

/-- Heap node for the engine instantiated at the repository's own cyclic
test type (defaults_test.go): `type Circular struct { Name string; Next
*Circular }`.  `next` is the address of the pointee, `none` for nil. -/
structure CNode where
  name : String
  next : Option Nat
deriving DecidableEq, Repr

/-- Functional heap update. -/
def cupdate (h : Nat → CNode) (a : Nat) (nd : CNode) : Nat → CNode :=
  fun x => if x = a then nd else h x

/-- `applyTypeDefaults` at a `Circular` node for registered defaults whose
`Next` pointer is nil (as in the repository's circular-reference test): in
reverse registration order a zero `Name` receives the default's name (the
write happens even when the default's name is itself empty, which leaves
the value unchanged), and `mergeField` on the `Next` field is a no-op for a
nil source pointer whether the destination is nil or not. -/
def mergeNamesC (nm : String) (ds : List String) : String :=
  ds.reverse.foldl (fun cur d => if cur = "" then d else cur) nm

/-- A `Circular` node after `applyTypeDefaults`. -/
def mergedC (nd : CNode) (ds : List String) : CNode :=
  ⟨mergeNamesC nd.name ds, nd.next⟩

/-- Result of the heap walk: the error if any, the mutated heap (mutations
persist across failure — no rollback), and the visited set. -/
structure COut where
  err : Option DErr
  heap : Nat → CNode
  vis : List Nat

/-- `applyDefaultsRecursive` instantiated at `Circular` over an explicit
heap: merge the type's defaults into the struct at `a`, recurse into the
`Name` field (a no-op) and into the `Next` field, where
`checkCircularReference` records the pointer identity — 0 for a nil `Next`
— or fails on a revisit, and `handlePointer` continues at the pointee. -/
def cwalk (ds : List String) : Nat → (Nat → CNode) → List Nat → Nat → COut
  | 0, h, vis, _ => ⟨some .fuelOut, h, vis⟩
  | fuel + 1, h, vis, a =>
    let nd' := mergedC (h a) ds
    let h' := cupdate h a nd'
    match nd'.next with
    | none =>
      if 0 ∈ vis then ⟨some .circularReference, h', vis⟩ else ⟨none, h', 0 :: vis⟩
    | some b =>
      if b ∈ vis then ⟨some .circularReference, h', vis⟩
      else cwalk ds fuel h' (b :: vis) b

/-- `applyDefaults` at a `*Circular` root over an explicit heap: a nil root
is rejected; otherwise the pointee is walked with a fresh visited set (the
root pointer's own identity is never recorded). -/
def capplyDefaultsF (ds : List String) (fuel : Nat) (h : Nat → CNode) :
    Option Nat → COut
  | none => ⟨some .nilConfig, h, []⟩
  | some r => cwalk ds fuel h [] r

/-- The value the forward first-writer-wins loop of `applyMapDefaults`
produces for a key: the entry of the earliest registered default map that
contains the key, if any. -/
def firstDefaultGet (k : String) : List Val → Option Val
  | [] => none
  | .map _ (some des) :: rest =>
    match mapGet k des with
    | some x => some x
    | none => firstDefaultGet k rest
  | _ :: rest => firstDefaultGet k rest

/-- Scalar kinds: the kinds `mergeField` neither dispatches on nor recurses
into (numbers, strings, booleans). -/
def isScalarKind : Val → Bool
  | .int _ => true
  | .str _ => true
  | .bool _ => true
  | _ => false

mutual
/-- Monotone refinement between a value and the result the engine leaves,
i.e. what a merge run may do to a value: fill currently-zero positions,
materialize nil maps, add map keys, and refine subvalues — while keeping
every non-zero scalar, the constructor, struct identities and field counts,
pointer addresses, slice lengths and map keys intact. -/
def mono : Val → Val → Bool
  | .int a, .int b => a == b || a == 0
  | .str a, .str b => a == b || a == ""
  | .bool a, .bool b => a == b || a == false
  | .struct id fs, .struct id' gs => id == id' && monoL fs gs
  | .ptr t none, .ptr t' _ => t == t'
  | .ptr t (some (a, p)), .ptr t' (some (b, q)) => t == t' && a == b && mono p q
  | .map t none, .map t' _ => t == t'
  | .map t (some es), .map t' (some fs) => t == t' && monoEs es fs
  | .slice t none, .slice t' _ => t == t'
  | .slice t (some xs), .slice t' (some ys) => t == t' && monoL xs ys
  | .iface none, .iface _ => true
  | .iface (some x), .iface (some y) => mono x y
  | _, _ => false
def monoL : List Val → List Val → Bool
  | [], [] => true
  | x :: xs, y :: ys => mono x y && monoL xs ys
  | _, _ => false
def monoEs : List (String × Val) → List (String × Val) → Bool
  | [], _ => true
  | (k, x) :: es, fs =>
    (match mapGet k fs with
     | some y => mono x y
     | none => false) && monoEs es fs
end

mutual
/-- Well-formedness of a value against the struct schema: struct fields
match their type's field list, pointees, map values and slice elements have
the element type, and map keys are distinct — the invariants Go's type
system and map semantics guarantee. -/
def wfV (SC : Nat → List (Bool × Ty)) : Val → Bool
  | .int _ => true
  | .str _ => true
  | .bool _ => true
  | .struct id fs => (fs.map tyOf == (SC id).map Prod.snd) && wfL SC fs
  | .ptr _ none => true
  | .ptr t (some (_, p)) => (tyOf p == t) && wfV SC p
  | .map _ none => true
  | .map t (some es) => decide ((es.map Prod.fst).Nodup) && wfEs SC t es
  | .slice _ none => true
  | .slice t (some xs) => wfSl SC t xs
  | .iface none => true
  | .iface (some x) => wfV SC x
def wfL (SC : Nat → List (Bool × Ty)) : List Val → Bool
  | [] => true
  | v :: vs => wfV SC v && wfL SC vs
def wfEs (SC : Nat → List (Bool × Ty)) (t : Ty) : List (String × Val) → Bool
  | [] => true
  | (_, v) :: es => (tyOf v == t) && wfV SC v && wfEs SC t es
def wfSl (SC : Nat → List (Bool × Ty)) (t : Ty) : List Val → Bool
  | [] => true
  | v :: vs => (tyOf v == t) && wfV SC v && wfSl SC t vs
end

mutual
/-- No nil map occurs anywhere in the value.  The traversal materializes
every nil map it reaches, so (absent map-type defaults) its outputs satisfy
this. -/
def nnm : Val → Bool
  | .struct _ fs => nnmL fs
  | .ptr _ (some (_, p)) => nnm p
  | .map _ none => false
  | .map _ (some es) => nnmEs es
  | .slice _ (some xs) => nnmL xs
  | .iface (some x) => nnm x
  | _ => true
def nnmL : List Val → Bool
  | [] => true
  | v :: vs => nnm v && nnmL vs
def nnmEs : List (String × Val) → Bool
  | [] => true
  | (_, v) :: es => nnm v && nnmEs es
end

mutual
/-- Pointer identities the traversal records on a value, in traversal
order: the address of every non-nil pointer node and 0 for every nil
pointer node reached. -/
def marks : Val → List Nat
  | .struct _ fs => marksL fs
  | .ptr _ none => [0]
  | .ptr _ (some (a, p)) => a :: marks p
  | .map _ none => []
  | .map _ (some es) => marksEs es
  | .slice _ (some xs) => marksL xs
  | .iface (some x) => marks x
  | _ => []
def marksL : List Val → List Nat
  | [] => []
  | v :: vs => marks v ++ marksL vs
def marksEs : List (String × Val) → List Nat
  | [] => []
  | (_, v) :: es => marks v ++ marksEs es
end

mutual
/-- A sufficient recursion-depth budget for traversing a value whose merge
phases change nothing. -/
def needFuel : Val → Nat
  | .struct _ fs => needFuelL fs + 1
  | .ptr _ (some (_, p)) => needFuel p + 1
  | .map _ (some es) => needFuelEs es + 1
  | .slice _ (some xs) => needFuelL xs + 1
  | .iface (some x) => needFuel x + 1
  | _ => 1
def needFuelL : List Val → Nat
  | [] => 0
  | v :: vs => needFuel v + needFuelL vs
def needFuelEs : List (String × Val) → Nat
  | [] => 0
  | (_, v) :: es => needFuel v + needFuelEs es
end

/-- A registry is well-formed when every registered default is well-formed
and stored under its own runtime type, as `WithDefaults` guarantees by
keying the map with `reflect.TypeOf(dv)`. -/
def regOK (SC : Nat → List (Bool × Ty)) (R : Ty → List Val) : Prop :=
  ∀ t d, d ∈ R t → wfV SC d = true ∧ tyOf d = t

/-- No defaults are registered for any map type. -/
def noMapDefaults (R : Ty → List Val) : Prop :=
  ∀ t, R (.map t) = []

/-- Key-presence of the first entry list's keys in the second: the
condition under which the absent-key insert loop of `mergeMapField` adds
nothing. -/
def covKeys : List (String × Val) → List (String × Val) → Bool
  | [], _ => true
  | (k, _) :: es, fs => (mapGet k fs).isSome && covKeys es fs

mutual
/-- `cov SC d u`: the residue a merge of the default `d` into an exported
field leaves behind in every later refinement `u` of the merged field,
strong enough that merging `d` into `u` again changes nothing.  A zero `u`
forces the corresponding part of `d` to be zero (the scalar, struct and
reference clauses), struct fields are covered pairwise at exported
positions, the struct pointee of a pointer is covered fieldwise, and every
key of a map default is already present. -/
def cov (SC : Nat → List (Bool × Ty)) : Val → Val → Bool
  | .int a, .int b => !(b == 0) || (a == 0)
  | .str a, .str b => !(b == "") || (a == "")
  | .bool a, .bool b => !(b == false) || (a == false)
  | .struct _ fs, .struct j gs =>
      covL SC (exflags SC j) fs gs && (!(isZeroL gs) || isZeroL fs)
  | .ptr _ none, .ptr _ _ => true
  | .ptr _ (some (_, .struct _ sfs)), .ptr _ (some (_, .struct dj dfs)) =>
      covL SC (exflags SC dj) sfs dfs
  | .ptr _ (some _), .ptr _ (some _) => true
  | .map _ none, .map _ _ => true
  | .map _ (some es), .map _ (some fs) => covKeys es fs
  | .slice _ none, .slice _ _ => true
  | .slice _ (some _), .slice _ (some _) => true
  | .iface none, .iface _ => true
  | .iface (some _), .iface (some _) => true
  | _, _ => false
def covL (SC : Nat → List (Bool × Ty)) : List Bool → List Val → List Val → Bool
  | ex :: exs, f :: fs, g :: gs => (!ex || cov SC f g) && covL SC exs fs gs
  | _, _, _ => true
end

/-- `covN SC d u`: merging the default `d` into the node `u` by
`mergeDefault` is a no-op.  `mergeDefault` field-merges only a struct node
or the struct pointee of a pointer node, so only those shapes carry a
condition. -/
def covN (SC : Nat → List (Bool × Ty)) (d u : Val) : Bool :=
  match d, u with
  | .struct _ dfs, .struct id fs => covL SC (exflags SC id) dfs fs
  | .ptr _ (some (_, .struct _ dsfs)), .ptr _ (some (_, .struct id pfs)) =>
      covL SC (exflags SC id) dsfs pfs
  | _, _ => true

mutual
/-- Saturation: every node of the value already absorbs every default
registered for its own runtime type, so the `applyTypeDefaults` phase of a
re-run changes nothing anywhere in the value. -/
def satV (SC : Nat → List (Bool × Ty)) (R : Ty → List Val) : Val → Prop
  | .struct id fs =>
      (∀ d ∈ R (.struct id), covN SC d (.struct id fs) = true) ∧ satL SC R fs
  | .ptr t (some (a, p)) =>
      (∀ d ∈ R (.ptr t), covN SC d (.ptr t (some (a, p))) = true) ∧ satV SC R p
  | .map _ (some es) => satEs SC R es
  | .slice _ (some xs) => satL SC R xs
  | .iface (some x) => satV SC R x
  | _ => True
def satL (SC : Nat → List (Bool × Ty)) (R : Ty → List Val) : List Val → Prop
  | [] => True
  | v :: vs => satV SC R v ∧ satL SC R vs
def satEs (SC : Nat → List (Bool × Ty)) (R : Ty → List Val) :
    List (String × Val) → Prop
  | [] => True
  | (_, v) :: es => satV SC R v ∧ satEs SC R es
end

/-- Struct schema shared by the concrete examples: 0 = container with one
`struct 1` field; 1 = inner record (Name: string, Timeout: int); 2 = record
with two pointer fields; 4 = record with one pointer field; 6 = record with
one int-valued map field; 7 = record with one `struct 1`-valued map
field. -/
def demoSC : Nat → List (Bool × Ty) := fun id =>
  if id = 0 then [(true, .struct 1)]
  else if id = 1 then [(true, .str), (true, .int)]
  else if id = 2 then [(true, .ptr (.struct 1)), (true, .ptr (.struct 1))]
  else if id = 4 then [(true, .ptr (.struct 1))]
  else if id = 6 then [(true, .map .int)]
  else if id = 7 then [(true, .map (.struct 1))]
  else []

/-- Registry of the container-then-component scenario: a default for the
container type supplying the inner record's Name and a default for the
inner type supplying its Timeout. -/
def regScenC : Ty → List Val := fun t =>
  match t with
  | .struct 0 => [.struct 0 [.struct 1 [.str "fallback", .int 0]]]
  | .struct 1 => [.struct 1 [.str "", .int 30]]
  | _ => []

/-- Registry with three defaults registered (in this order) for the inner
record type. -/
def regPriority : Ty → List Val := fun t =>
  match t with
  | .struct 1 =>
    [.struct 1 [.str "First", .int 10],
     .struct 1 [.str "Second", .int 20],
     .struct 1 [.str "Third", .int 30]]
  | _ => []

/-- Registry whose default for struct 4 holds a non-nil pointer (address
42). -/
def regAlias : Ty → List Val := fun t =>
  match t with
  | .struct 4 => [.struct 4 [.ptr (.struct 1) (some (42, .struct 1 [.str "d", .int 7]))]]
  | _ => []

/-- Registry with two defaults registered (in this order) for the int map
type; both supply the key "b". -/
def regMapDemo : Ty → List Val := fun t =>
  match t with
  | .map .int =>
    [.map .int (some [("a", .int 1), ("b", .int 2)]),
     .map .int (some [("b", .int 99), ("c", .int 3)])]
  | _ => []

/-- Registry refuting idempotence: a map-type default contributes an entry
whose Timeout is zero, and a struct default for the entry's type would fill
it — but only on a later run, because `handleMap` applies the key-wise map
defaults after recursing into the entries that existed before. -/
def regIdem : Ty → List Val := fun t =>
  match t with
  | .map (.struct 1) => [.map (.struct 1) (some [("k", .struct 1 [.str "x", .int 0])])]
  | .struct 1 => [.struct 1 [.str "", .int 30]]
  | _ => []

/-- Two mutually-referencing heap nodes: node 1 (empty name) points to node
2 and node 2 (named) points back to node 1. -/
def heapMutual : Nat → CNode := fun a =>
  if a = 1 then ⟨"", some 2⟩
  else if a = 2 then ⟨"B", some 1⟩
  else ⟨"", none⟩

/-- The chain of addresses the mutual cycle visits from node 1. -/
def chainMutual : Nat → Nat := fun k => if k % 2 = 0 then 1 else 2

/-- A builder whose loader function fails. -/
def failBuilder : Builder :=
  { source := { data := none, loaderFunc := some (.error "boom"), provider := none }
    defaults := fun _ => []
    transform := none
    validate := none }

/-- A builder with a preloaded zero inner record and the three-deep
priority registry, no transform and no validator. -/
def okBuilder : Builder :=
  { source := { data := some (.struct 1 [.str "", .int 0]), loaderFunc := none, provider := none }
    defaults := regPriority
    transform := none
    validate := none }

theorem mapGet_append (k : String) (acc : List (String × Val)) (kv : String × Val) :
    mapGet k (acc ++ [kv]) =
      match mapGet k acc with
      | some x => some x
      | none => if kv.1 = k then some kv.2 else none := by
  induction acc with
  | nil => simp [mapGet]
  | cons hd tl ih =>
    obtain ⟨k', v'⟩ := hd
    by_cases h : k' = k <;> simp [mapGet, h, ih]

theorem insertAbsent_get (k : String) (des : List (String × Val)) :
    ∀ acc : List (String × Val),
      mapGet k (des.foldl
        (fun acc kv => if (mapGet kv.1 acc).isSome then acc else acc ++ [kv]) acc) =
      match mapGet k acc with
      | some x => some x
      | none => mapGet k des := by
  induction des with
  | nil =>
    intro acc
    cases h : mapGet k acc <;> simp [mapGet, h]
  | cons hd tl ih =>
    intro acc
    obtain ⟨k₁, v₁⟩ := hd
    rw [List.foldl_cons, ih]
    by_cases hocc : (mapGet k₁ acc).isSome
    · simp only [hocc, if_true]
      by_cases hk : k₁ = k
      · subst hk
        obtain ⟨x, hx⟩ := Option.isSome_iff_exists.mp hocc
        simp [mapGet, hx]
      · cases h : mapGet k acc <;> simp [mapGet, hk, h]
    · rw [Bool.not_eq_true] at hocc
      simp only [hocc, Bool.false_eq_true, if_false]
      rw [mapGet_append]
      by_cases hk : k₁ = k
      · subst hk
        cases h : mapGet k₁ acc <;> simp [mapGet, h]
      · cases h : mapGet k acc <;> simp [mapGet, hk, h]

theorem applyMapDefaultsF_get (k : String) (ds : List Val) :
    ∀ es : List (String × Val),
      mapGet k (applyMapDefaultsF es ds) =
      match mapGet k es with
      | some x => some x
      | none => firstDefaultGet k ds := by
  induction ds with
  | nil =>
    intro es
    cases h : mapGet k es <;> simp [applyMapDefaultsF, firstDefaultGet, h]
  | cons dv rest ih =>
    intro es
    match dv with
    | .map t (some des) =>
      show mapGet k (applyMapDefaultsF
        (des.foldl (fun acc kv => if (mapGet kv.1 acc).isSome then acc else acc ++ [kv]) es)
        rest) = _
      rw [ih, insertAbsent_get]
      cases h : mapGet k es
      · cases hd : mapGet k des <;> simp [firstDefaultGet, h, hd]
      · simp [firstDefaultGet, h]
    | .map t none =>
      show mapGet k (applyMapDefaultsF es rest) = _
      rw [ih]
      cases h : mapGet k es <;> simp [firstDefaultGet, h]
    | .int n => exact ih es
    | .str s => exact ih es
    | .bool b => exact ih es
    | .struct id fs => exact ih es
    | .ptr t tp => exact ih es
    | .slice t xs => exact ih es
    | .iface x => exact ih es

theorem mergeDefaultF_map_inert (SC : Nat → List (Bool × Ty)) (n : Nat) (t : Ty)
    (es? : Option (List (String × Val))) (d : Val) :
    mergeDefaultF SC n (.map t es?) d = (.map t es?, n) := by
  cases d with
  | ptr t' tp =>
    match tp with
    | none => rfl
    | some (a, p) => cases p <;> rfl
  | _ => rfl

theorem mergeDefaultF_scalar_inert (SC : Nat → List (Bool × Ty)) (n : Nat)
    (v d : Val) (hs : isScalarKind v = true) :
    mergeDefaultF SC n v d = (v, n) := by
  cases v <;> simp [isScalarKind] at hs <;>
    cases d with
    | ptr t' tp =>
      match tp with
      | none => rfl
      | some (a, p) => cases p <;> rfl
    | _ => rfl

theorem applyTypeDefaultsF_foldl (SC : Nat → List (Bool × Ty)) (n : Nat) (v : Val)
    (tds : List Val) :
    applyTypeDefaultsF SC n v tds =
      tds.reverse.foldl (fun acc d => mergeDefaultF SC acc.2 acc.1 d) (v, n) := rfl

theorem applyTypeDefaultsF_map_inert (SC : Nat → List (Bool × Ty)) (n : Nat) (t : Ty)
    (es? : Option (List (String × Val))) (tds : List Val) :
    applyTypeDefaultsF SC n (.map t es?) tds = (.map t es?, n) := by
  rw [applyTypeDefaultsF_foldl]
  generalize tds.reverse = l
  induction l with
  | nil => rfl
  | cons d rest ih => rw [List.foldl_cons, mergeDefaultF_map_inert, ih]

theorem applyTypeDefaultsF_scalar_inert (SC : Nat → List (Bool × Ty)) (n : Nat)
    (v : Val) (hs : isScalarKind v = true) (tds : List Val) :
    applyTypeDefaultsF SC n v tds = (v, n) := by
  rw [applyTypeDefaultsF_foldl]
  generalize tds.reverse = l
  induction l with
  | nil => rfl
  | cons d rest ih => rw [List.foldl_cons, mergeDefaultF_scalar_inert SC _ _ _ hs, ih]

theorem runRec_scalar (SC : Nat → List (Bool × Ty)) (R : Ty → List Val)
    (fuel : Nat) (v : Val) (st : St) (hs : isScalarKind v = true) :
    ∀ p, runRec SC R fuel v st = .ok p → p = (v, st) := by
  intro p hp
  match fuel with
  | 0 => exact absurd hp (by simp [runRec])
  | fuel + 1 =>
    match v, hs with
    | .int m, _ =>
      rw [runRec] at hp
      simp only [checkCircularReferenceF,
        applyTypeDefaultsF_scalar_inert SC st.nxt (.int m) rfl,
        Except.ok.injEq] at hp
      exact hp.symm
    | .str s, _ =>
      rw [runRec] at hp
      simp only [checkCircularReferenceF,
        applyTypeDefaultsF_scalar_inert SC st.nxt (.str s) rfl,
        Except.ok.injEq] at hp
      exact hp.symm
    | .bool b, _ =>
      rw [runRec] at hp
      simp only [checkCircularReferenceF,
        applyTypeDefaultsF_scalar_inert SC st.nxt (.bool b) rfl,
        Except.ok.injEq] at hp
      exact hp.symm

/-- C8: a default registered for a containing type and a default registered
for a nested component type compose without conflict, each filling only the
leaves the other left zero: for the empty container record `{}` with
default `{Timeout: 30}` registered for the inner type and default
`{Inner: {Name: "fallback"}}` registered for the container's type,
`applyDefaults` produces `{Inner: {Name: "fallback", Timeout: 30}}`. -/
theorem claim_C8_container_component_composition :
    applyDefaultsF demoSC regScenC 10 50
      (.ptr (.struct 0) (some (1, .struct 0 [.struct 1 [.str "", .int 0]]))) =
    .ok (.ptr (.struct 0) (some (1, .struct 0 [.struct 1 [.str "fallback", .int 30]])),
      ⟨[], 50⟩) := rfl

/-- C5: the code violates the claim.  `checkCircularReference` tracks
`v.Pointer()`, which is 0 for every nil pointer, and never removes entries,
so a finite acyclic config containing two nil pointer fields — no reference
identity revisited at all, let alone while active on the traversal path —
is reported as a circular reference.  With a single nil pointer field the
same registry-free call succeeds, recording identity 0 once. -/
theorem claim_C5_acyclic_config_reported_circular :
    applyDefaultsF demoSC (fun _ => []) 10 50
      (.ptr (.struct 2) (some (1, .struct 2
        [.ptr (.struct 1) none, .ptr (.struct 1) none]))) =
      .error .circularReference ∧
    applyDefaultsF demoSC (fun _ => []) 10 50
      (.ptr (.struct 4) (some (1, .struct 4 [.ptr (.struct 1) none]))) =
      .ok (.ptr (.struct 4) (some (1, .struct 4 [.ptr (.struct 1) none])), ⟨[0], 50⟩) :=
  ⟨rfl, rfl⟩

/-- C2 fails as stated: the container's inner-record field is non-zero
before the merge (its Name is "x"), yet the merge changes it — the
recursive field-level merge fills its zero Timeout with 30, so the field's
value is not bit-for-bit unchanged (0 ≠ 30 at the Timeout position). -/
theorem claim_C2_counterexample :
    isZero (.struct 1 [.str "x", .int 0]) = false ∧
    applyDefaultsF demoSC regScenC 10 50
      (.ptr (.struct 0) (some (1, .struct 0 [.struct 1 [.str "x", .int 0]]))) =
      .ok (.ptr (.struct 0) (some (1, .struct 0 [.struct 1 [.str "x", .int 30]])),
        ⟨[], 50⟩) ∧
    (0 : Int) ≠ 30 :=
  ⟨rfl, rfl, by decide⟩

/-- C7 fails as stated: filling the zero pointer field of the target from
the registered default writes the default's own pointer — the result holds
the same pointer identity 42 as the registry's stored default, a shared
handle, not an independently-owned fresh instance. -/
theorem claim_C7_counterexample :
    applyDefaultsF demoSC regAlias 10 50
      (.ptr (.struct 4) (some (1, .struct 4 [.ptr (.struct 1) none]))) =
      .ok (.ptr (.struct 4) (some (1, .struct 4
        [.ptr (.struct 1) (some (42, .struct 1 [.str "d", .int 7]))])), ⟨[42], 50⟩) ∧
    regAlias (.struct 4) =
      [.struct 4 [.ptr (.struct 1) (some (42, .struct 1 [.str "d", .int 7]))]] :=
  ⟨rfl, rfl⟩

/-- C7 amended: a zero field is filled by `setField`, which for pointer and
slice sources assigns the default's own handle (the same pointer identity /
backing store is shared between the registry's stored default and the
merged target); only a map source with a nil destination gets a freshly
made map, whose top-level entries are copied from the default. -/
theorem claim_C7_amended_zero_fields_share_handles
    (SC : Nat → List (Bool × Ty)) (n : Nat) (dst src : Val)
    (hz : isZero dst = true) :
    mergeFieldF SC n true dst src = (setFieldF dst src, n) ∧
    (∀ t tp, src = .ptr t tp → setFieldF dst src = src) ∧
    (∀ t xs, src = .slice t xs → setFieldF dst src = src) ∧
    (∀ t es? dt, src = .map t es? → dst = .map dt none →
      setFieldF dst src = .map t (some (es?.getD []))) := by
  refine ⟨?_, ?_, ?_, ?_⟩
  · rw [mergeFieldF.eq_def, if_neg (by decide : ¬(true = false)), if_pos hz]
  · rintro t tp rfl
    cases dst <;> rfl
  · rintro t xs rfl
    cases dst <;> rfl
  · rintro t es? dt rfl rfl
    rfl

/-- C7 amended, witnessed at the counterexample instance: the zero pointer
field receives the registry default's pointer handle itself. -/
theorem claim_C7_amended_witness :
    mergeFieldF demoSC 50 true (.ptr (.struct 1) none)
        (.ptr (.struct 1) (some (42, .struct 1 [.str "d", .int 7]))) =
      (.ptr (.struct 1) (some (42, .struct 1 [.str "d", .int 7])), 50) ∧
    setFieldF (.ptr (.struct 1) none)
        (.ptr (.struct 1) (some (42, .struct 1 [.str "d", .int 7]))) =
      .ptr (.struct 1) (some (42, .struct 1 [.str "d", .int 7])) := by
  have h := claim_C7_amended_zero_fields_share_handles demoSC 50
    (.ptr (.struct 1) none)
    (.ptr (.struct 1) (some (42, .struct 1 [.str "d", .int 7]))) rfl
  exact ⟨h.1, h.2.1 _ _ rfl⟩

/-- C6: at a map-typed node, a nil map is materialized as a non-nil map
holding exactly the key-wise contributions of the defaults registered for
the map's own type (so an empty map when none are registered); the key-wise
map defaulting leaves every pre-existing key's entry untouched; and for a
key absent from the live map it contributes the earliest registered
default's entry for that key, nothing else. -/
theorem claim_C6_map_defaulting (SC : Nat → List (Bool × Ty)) (R : Ty → List Val)
    (fuel : Nat) (st : St) (t : Ty) :
    runRec SC R (fuel + 1) (.map t none) st =
      .ok (.map t (some (applyMapDefaultsF [] (R (.map t)))), st) ∧
    (∀ k es ds, (mapGet k es).isSome = true →
      mapGet k (applyMapDefaultsF es ds) = mapGet k es) ∧
    (∀ k es ds, mapGet k es = none →
      mapGet k (applyMapDefaultsF es ds) = firstDefaultGet k ds) := by
  refine ⟨?_, ?_, ?_⟩
  · rw [runRec]
    simp only [checkCircularReferenceF, tyOf, applyTypeDefaultsF_map_inert]
    rfl
  · intro k es ds h
    obtain ⟨x, hx⟩ := Option.isSome_iff_exists.mp h
    rw [applyMapDefaultsF_get, hx]
  · intro k es ds h
    rw [applyMapDefaultsF_get, h]

/-- C6 witnessed concretely: a nil int-map node under the two-default map
registry becomes the non-nil map of their key-wise union (earliest default
winning for "b"); a pre-existing "a" is untouched; an absent "c" receives
the registered entry. -/
theorem claim_C6_witness :
    runRec demoSC regMapDemo 1 (.map .int none) ⟨[], 50⟩ =
      .ok (.map .int (some [("a", .int 1), ("b", .int 2), ("c", .int 3)]), ⟨[], 50⟩) ∧
    mapGet "a" (applyMapDefaultsF [("a", .int 100)] (regMapDemo (.map .int))) =
      some (.int 100) ∧
    mapGet "c" (applyMapDefaultsF [("a", .int 100)] (regMapDemo (.map .int))) =
      some (.int 3) := by
  have h := claim_C6_map_defaulting demoSC regMapDemo 0 ⟨[], 50⟩ .int
  exact ⟨h.1, h.2.1 "a" [("a", .int 100)] (regMapDemo (.map .int)) rfl,
    h.2.2 "c" [("a", .int 100)] (regMapDemo (.map .int)) rfl⟩

/-- C10: when several defaults are registered for a map's own type, the
key-wise defaulting processes them in forward registration order with
first-writer-wins per key: a key absent from the live map but present in
the earliest registered default map receives that earliest default's value,
whatever later defaults supply for it — the opposite order of the
most-recently-registered-wins rule for struct fields. -/
theorem claim_C10_map_defaults_forward_first_writer (k : String)
    (es : List (String × Val)) (tA : Ty) (A : List (String × Val))
    (rest : List Val) (x : Val)
    (hes : mapGet k es = none) (hA : mapGet k A = some x) :
    mapGet k (applyMapDefaultsF es (.map tA (some A) :: rest)) = some x := by
  rw [applyMapDefaultsF_get, hes]
  simp [firstDefaultGet, hA]

/-- C10 witnessed concretely: both registered map defaults supply "b", the
live map lacks it, and the earliest registered value 2 (not the later 99)
ends up in the map. -/
theorem claim_C10_witness :
    mapGet "b" (applyMapDefaultsF [("a", .int 100)] (regMapDemo (.map .int))) =
      some (.int 2) :=
  claim_C10_map_defaults_forward_first_writer "b" [("a", .int 100)] .int
    [("a", .int 1), ("b", .int 2)] [.map .int (some [("b", .int 99), ("c", .int 3)])]
    (.int 2) rfl rfl

/-- C9: `build` runs acquire, default-merge, transform, validate in that
order; a failing stage prevents the later stages from influencing the
result, and `build` returns either the fully processed value or the first
failing stage's error tagged with its stage: a load failure is returned
as a load-tagged error whatever the rest of the builder holds; a merge
failure after a successful load is returned applyDefaults-tagged; and
after a successful merge the validator decides between a validate-tagged
error and the transformed merged value. -/
theorem claim_C9_pipeline_stage_order (SC : Nat → List (Bool × Ty))
    (fuel n₀ : Nat) (b : Builder) :
    (∀ e, loadF b = .error e → buildF SC fuel n₀ b = .error (.load e)) ∧
    (∀ cfg e, loadF b = .ok cfg →
      applyDefaultsF SC b.defaults fuel n₀ (.ptr (tyOf cfg) (some (1, cfg))) =
        .error e →
      buildF SC fuel n₀ b = .error (.applyDefaults e)) ∧
    (∀ cfg w st, loadF b = .ok cfg →
      applyDefaultsF SC b.defaults fuel n₀ (.ptr (tyOf cfg) (some (1, cfg))) =
        .ok (.ptr (tyOf cfg) (some (1, w)), st) →
      buildF SC fuel n₀ b =
        match validateStage b (transformStage b w) with
        | some e => .error (.validate e)
        | none => .ok (transformStage b w)) := by
  refine ⟨?_, ?_, ?_⟩
  · intro e he
    simp only [buildF, he]
  · intro cfg e h1 h2
    simp only [buildF, h1, h2]
  · intro cfg w st h1 h2
    simp only [buildF, h1, h2]

/-- C9 witnessed concretely: a builder with a failing loader function
returns the load-tagged error, and a builder with a preloaded zero record
and the three-deep priority registry returns the fully processed value. -/
theorem claim_C9_witness :
    buildF demoSC 10 50 failBuilder = .error (.load (.fromLoaderFunc "boom")) ∧
    buildF demoSC 10 50 okBuilder = .ok (.struct 1 [.str "Third", .int 30]) := by
  constructor
  · exact (claim_C9_pipeline_stage_order demoSC 10 50 failBuilder).1 _ rfl
  · exact (claim_C9_pipeline_stage_order demoSC 10 50 okBuilder).2.2
      (.struct 1 [.str "", .int 0]) (.struct 1 [.str "Third", .int 30]) ⟨[], 50⟩ rfl rfl

/-- C3 fails as stated: with a map-type default contributing an entry whose
Timeout is zero and a struct default that fills zero Timeouts, the first
application leaves the contributed entry's Timeout at 0 (the key-wise map
defaults run after the recursion into pre-existing entries), while a second
application fills it with 30 — applying twice does not equal applying
once (0 ≠ 30 at the Timeout position). -/
theorem claim_C3_counterexample :
    applyDefaultsF demoSC regIdem 10 50
      (.ptr (.struct 7) (some (1, .struct 7 [.map (.struct 1) none]))) =
      .ok (.ptr (.struct 7) (some (1, .struct 7
        [.map (.struct 1) (some [("k", .struct 1 [.str "x", .int 0])])])), ⟨[], 50⟩) ∧
    applyDefaultsF demoSC regIdem 10 50
      (.ptr (.struct 7) (some (1, .struct 7
        [.map (.struct 1) (some [("k", .struct 1 [.str "x", .int 0])])]))) =
      .ok (.ptr (.struct 7) (some (1, .struct 7
        [.map (.struct 1) (some [("k", .struct 1 [.str "x", .int 30])])])), ⟨[], 50⟩) ∧
    (0 : Int) ≠ 30 :=
  ⟨rfl, rfl, by decide⟩

theorem mergeFieldsF_nil (SC : Nat → List (Bool × Ty)) (n : Nat) (flags : List Bool)
    (dfs : List Val) : mergeFieldsF SC n flags dfs [] = (dfs, n) := by
  cases dfs <;> cases flags <;> rfl

theorem setFieldF_scalar (dv bv : Val) (hsc : isScalarKind bv = true) :
    setFieldF dv bv = bv := by
  match bv, hsc with
  | .int m, _ => cases dv <;> rfl
  | .str s, _ => cases dv <;> rfl
  | .bool b, _ => cases dv <;> rfl

theorem mergeFieldF_scalar_stable (SC : Nat → List (Bool × Ty)) (n : Nat) (ex : Bool)
    (dv s : Val) (hs : isScalarKind dv = true) (hnz : isZero dv = false) :
    mergeFieldF SC n ex dv s = (dv, n) := by
  rw [mergeFieldF.eq_def]
  cases ex
  · rw [if_pos rfl]
  · rw [if_neg (by decide : ¬(true = false)), if_neg (by simp [hnz])]
    match dv, hs with
    | .int m, _ =>
      cases s with
      | ptr t tp =>
        match tp with
        | none => rfl
        | some (a, p) => cases p <;> rfl
      | _ => rfl
    | .str s', _ =>
      cases s with
      | ptr t tp =>
        match tp with
        | none => rfl
        | some (a, p) => cases p <;> rfl
      | _ => rfl
    | .bool b, _ =>
      cases s with
      | ptr t tp =>
        match tp with
        | none => rfl
        | some (a, p) => cases p <;> rfl
      | _ => rfl

theorem mergeFieldsF_stable_get (SC : Nat → List (Bool × Ty)) :
    ∀ (sfs : List Val) (n : Nat) (flags : List Bool) (dfs : List Val) (i : Nat)
      (dv : Val), dfs.get? i = some dv → isScalarKind dv = true → isZero dv = false →
      (mergeFieldsF SC n flags dfs sfs).1.get? i = some dv := by
  intro sfs
  induction sfs with
  | nil =>
    intro n flags dfs i dv h _ _
    rw [mergeFieldsF_nil]
    exact h
  | cons s ss ih =>
    intro n flags dfs i dv h hs hnz
    cases dfs with
    | nil => simp at h
    | cons d ds =>
      cases flags with
      | nil => exact h
      | cons ex exs =>
        rw [mergeFieldsF]
        cases i with
        | zero =>
          simp only [List.get?_cons_zero, Option.some.injEq] at h
          simp only [List.get?_cons_zero, Option.some.injEq]
          rw [h, mergeFieldF_scalar_stable SC n ex dv s hs hnz]
        | succ j =>
          simp only [List.get?_cons_succ] at h ⊢
          exact ih _ _ _ _ _ h hs hnz

theorem mergeDefaultF_stable_get (SC : Nat → List (Bool × Ty)) (n : Nat) (id : Nat)
    (fs : List Val) (d : Val) (i : Nat) (dv : Val)
    (h : fs.get? i = some dv) (hs : isScalarKind dv = true) (hnz : isZero dv = false) :
    ∃ fs' n', mergeDefaultF SC n (.struct id fs) d = (.struct id fs', n') ∧
      fs'.get? i = some dv := by
  cases d with
  | struct sid sfs =>
    exact ⟨_, _, rfl, mergeFieldsF_stable_get SC sfs n _ fs i dv h hs hnz⟩
  | ptr t tp =>
    match tp with
    | none => exact ⟨fs, n, rfl, h⟩
    | some (a, p) =>
      cases p with
      | struct sid sfs =>
        exact ⟨_, _, rfl, mergeFieldsF_stable_get SC sfs n _ fs i dv h hs hnz⟩
      | _ => exact ⟨fs, n, rfl, h⟩
  | _ => exact ⟨fs, n, rfl, h⟩

theorem foldl_mergeDefaultF_stable_get (SC : Nat → List (Bool × Ty)) (l : List Val) :
    ∀ (n : Nat) (id : Nat) (fs : List Val) (i : Nat) (dv : Val),
      fs.get? i = some dv → isScalarKind dv = true → isZero dv = false →
      ∃ fs' n',
        l.foldl (fun acc d => mergeDefaultF SC acc.2 acc.1 d) (.struct id fs, n) =
          (.struct id fs', n') ∧ fs'.get? i = some dv := by
  induction l with
  | nil => intro n id fs i dv h _ _; exact ⟨fs, n, rfl, h⟩
  | cons d rest ih =>
    intro n id fs i dv h hs hnz
    obtain ⟨fs₁, n₁, hm, hget⟩ := mergeDefaultF_stable_get SC n id fs d i dv h hs hnz
    rw [List.foldl_cons, hm]
    exact ih n₁ id fs₁ i dv hget hs hnz

theorem mergeFieldsF_write_get (SC : Nat → List (Bool × Ty)) :
    ∀ (sfs : List Val) (n : Nat) (flags : List Bool) (dfs : List Val) (i : Nat)
      (ex : Bool) (d s : Val),
      flags.get? i = some ex → dfs.get? i = some d → sfs.get? i = some s →
      ∃ m, (mergeFieldsF SC n flags dfs sfs).1.get? i = some (mergeFieldF SC m ex d s).1 := by
  intro sfs
  induction sfs with
  | nil => intro n flags dfs i ex d s _ _ hsf; simp at hsf
  | cons s₀ ss ih =>
    intro n flags dfs i ex d s hfl hdf hsf
    cases dfs with
    | nil => simp at hdf
    | cons d₀ ds =>
      cases flags with
      | nil => simp at hfl
      | cons ex₀ exs =>
        rw [mergeFieldsF]
        cases i with
        | zero =>
          simp only [List.get?_cons_zero, Option.some.injEq] at hfl hdf hsf
          subst hfl; subst hdf; subst hsf
          exact ⟨n, rfl⟩
        | succ j =>
          simp only [List.get?_cons_succ] at hfl hdf hsf ⊢
          exact ih _ _ _ _ _ _ _ hfl hdf hsf

theorem mergeDefaultF_first_write (SC : Nat → List (Bool × Ty)) (n : Nat)
    (id : Nat) (fs : List Val) (bid : Nat) (bfs : List Val) (i : Nat) (fv bv : Val)
    (hfv : fs.get? i = some fv) (hz : isZero fv = true)
    (hex : (exflags SC id).get? i = some true)
    (hbv : bfs.get? i = some bv) (hsc : isScalarKind bv = true) :
    ∃ fs' n', mergeDefaultF SC n (.struct id fs) (.struct bid bfs) = (.struct id fs', n') ∧
      fs'.get? i = some bv := by
  obtain ⟨m, hm⟩ := mergeFieldsF_write_get SC bfs n (exflags SC id) fs i true fv bv hex hfv hbv
  refine ⟨_, _, rfl, ?_⟩
  rw [hm, mergeFieldF.eq_def, if_neg (by decide : ¬(true = false)), if_pos hz,
    setFieldF_scalar fv bv hsc]

theorem applyTypeDefaultsF_last_wins (SC : Nat → List (Bool × Ty)) (n : Nat)
    (id : Nat) (fs : List Val) (ds₀ : List Val) (bid : Nat) (bfs : List Val)
    (i : Nat) (fv bv : Val)
    (hfv : fs.get? i = some fv) (hz : isZero fv = true)
    (hex : (exflags SC id).get? i = some true)
    (hbv : bfs.get? i = some bv) (hsc : isScalarKind bv = true)
    (hnz : isZero bv = false) :
    ∃ fs₁ n₁,
      applyTypeDefaultsF SC n (.struct id fs) (ds₀ ++ [.struct bid bfs]) =
        (.struct id fs₁, n₁) ∧ fs₁.get? i = some bv := by
  rw [applyTypeDefaultsF_foldl, List.reverse_append, List.reverse_singleton,
    List.singleton_append, List.foldl_cons]
  obtain ⟨fs₁, n₁, hm, hget⟩ :=
    mergeDefaultF_first_write SC n id fs bid bfs i fv bv hfv hz hex hbv hsc
  rw [hm]
  exact foldl_mergeDefaultF_stable_get SC ds₀.reverse n₁ id fs₁ i bv hget hsc hnz

theorem runChildrenF_get (rec : Val → St → Except DErr (Val × St)) :
    ∀ (l : List Val) (st : St) (l' : List Val) (st' : St),
      runChildrenF rec l st = .ok (l', st') →
      ∀ i x, l.get? i = some x →
        ∃ s₁ s₂ y, rec x s₁ = .ok (y, s₂) ∧ l'.get? i = some y := by
  intro l
  induction l with
  | nil => intro st l' st' _ i x hx; simp at hx
  | cons v vs ih =>
    intro st l' st' h i x hx
    rw [runChildrenF] at h
    cases hv : rec v st with
    | error e =>
      simp only [hv] at h
      exact absurd h (by simp)
    | ok p =>
      obtain ⟨v', st₁⟩ := p
      simp only [hv] at h
      cases hrest : runChildrenF rec vs st₁ with
      | error e =>
        simp only [hv, hrest] at h
        exact absurd h (by simp)
      | ok q =>
        obtain ⟨vs', st₂⟩ := q
        simp only [hrest, Except.ok.injEq, Prod.mk.injEq] at h
        obtain ⟨hl', hst⟩ := h
        cases i with
        | zero =>
          simp only [List.get?_cons_zero, Option.some.injEq] at hx
          subst hx
          exact ⟨st, st₁, v', hv, by rw [← hl']; rfl⟩
        | succ j =>
          simp only [List.get?_cons_succ] at hx
          obtain ⟨s₁, s₂, y, hy, hy'⟩ := ih st₁ vs' st₂ hrest j x hx
          exact ⟨s₁, s₂, y, hy, by rw [← hl']; simpa using hy'⟩

/-- C1: when several defaults are registered for the same struct type,
`applyDefaults` applies them in reverse registration order with
first-writer-of-a-zero-field wins, so for a root whose field is zero the
most recently registered default's (non-zero, scalar-kinded) value for that
field ends up in the result: with defaults `ds₀ ++ [B]` registered for the
root's type, the result carries `B`'s value for the field, not that of any
earlier-registered default. -/
theorem claim_C1_most_recent_default_wins (SC : Nat → List (Bool × Ty))
    (R : Ty → List Val) (fuel n₀ : Nat) (t : Ty) (a id : Nat) (fs : List Val)
    (i : Nat) (fv : Val) (ds₀ : List Val) (bid : Nat) (bfs : List Val) (bv : Val)
    (w : Val) (st : St)
    (hreg : R (.struct id) = ds₀ ++ [.struct bid bfs])
    (hfv : fs.get? i = some fv) (hz : isZero fv = true)
    (hex : (exflags SC id).get? i = some true)
    (hbv : bfs.get? i = some bv) (hsc : isScalarKind bv = true)
    (hnz : isZero bv = false)
    (hrun : applyDefaultsF SC R fuel n₀ (.ptr t (some (a, .struct id fs))) =
      .ok (w, st)) :
    ∃ fs', w = .ptr t (some (a, .struct id fs')) ∧ fs'.get? i = some bv := by
  simp only [applyDefaultsF] at hrun
  cases hr : runRec SC R fuel (.struct id fs) ⟨[], n₀⟩ with
  | error e =>
    simp only [hr] at hrun
    exact absurd hrun (by simp)
  | ok p =>
    obtain ⟨w₀, st₀⟩ := p
    simp only [hr, Except.ok.injEq, Prod.mk.injEq] at hrun
    obtain ⟨hw, hst⟩ := hrun
    obtain ⟨fs₁, n₁, hm, hget⟩ :=
      applyTypeDefaultsF_last_wins SC n₀ id fs ds₀ bid bfs i fv bv hfv hz hex hbv hsc hnz
    match fuel with
    | 0 =>
      rw [runRec] at hr
      exact absurd hr (by simp)
    | fuel + 1 =>
      rw [runRec] at hr
      simp only [checkCircularReferenceF, tyOf, hreg, hm] at hr
      cases hrc : runChildrenF (runRec SC R fuel) fs₁ ⟨[], n₁⟩ with
      | error e =>
        simp only [hrc] at hr
        exact absurd hr (by simp)
      | ok q =>
        obtain ⟨fs', st₂⟩ := q
        simp only [hrc, Except.ok.injEq, Prod.mk.injEq] at hr
        obtain ⟨hw₀, hst₂⟩ := hr
        obtain ⟨s₁, s₂, y, hy, hy'⟩ :=
          runChildrenF_get (runRec SC R fuel) fs₁ ⟨[], n₁⟩ fs' st₂ hrc i bv hget
        have h2 := runRec_scalar SC R fuel bv s₁ hsc (y, s₂) hy
        have hyb : y = bv := congrArg Prod.fst h2
        refine ⟨fs', ?_, ?_⟩
        · rw [← hw, ← hw₀]
        · rw [hy', hyb]

/-- C1 witnessed at the three-deep priority registry: a zero Name field
receives the third (most recently registered) default's "Third". -/
theorem claim_C1_witness :
    ∃ fs', Val.ptr (.struct 1) (some (1, .struct 1 [.str "Third", .int 30])) =
        .ptr (.struct 1) (some (1, .struct 1 fs')) ∧ fs'.get? 0 = some (.str "Third") :=
  claim_C1_most_recent_default_wins demoSC regPriority 10 50 (.struct 1) 1 1
    [.str "", .int 0] 0 (.str "")
    [.struct 1 [.str "First", .int 10], .struct 1 [.str "Second", .int 20]]
    1 [.str "Third", .int 30] (.str "Third")
    (.ptr (.struct 1) (some (1, .struct 1 [.str "Third", .int 30]))) ⟨[], 50⟩
    rfl rfl rfl rfl rfl rfl rfl rfl

theorem foldl_name_keep (l : List String) :
    ∀ nm : String, nm ≠ "" →
      l.foldl (fun cur d => if cur = "" then d else cur) nm = nm := by
  induction l with
  | nil => intro nm _; rfl
  | cons d rest ih =>
    intro nm h
    rw [List.foldl_cons, if_neg h]
    exact ih nm h

theorem mergeNamesC_keep (nm : String) (ds : List String) (h : nm ≠ "") :
    mergeNamesC nm ds = nm :=
  foldl_name_keep ds.reverse nm h

theorem mergeNamesC_idem (nm : String) (ds : List String) :
    mergeNamesC (mergeNamesC nm ds) ds = mergeNamesC nm ds := by
  by_cases h : mergeNamesC nm ds = ""
  · have hnm : nm = "" := by
      by_contra hne
      rw [mergeNamesC_keep nm ds hne] at h
      exact hne h
    subst hnm
    rw [h]
    exact h
  · exact mergeNamesC_keep _ ds h

theorem mergedC_idem (nd : CNode) (ds : List String) :
    mergedC (mergedC nd ds) ds = mergedC nd ds := by
  simp [mergedC, mergeNamesC_idem]

theorem mergedC_next (nd : CNode) (ds : List String) :
    (mergedC nd ds).next = nd.next := rfl

theorem cwalk_step_some (ds : List String) (n : Nat) (cur : Nat → CNode)
    (vis : List Nat) (a b : Nat) (hb : (mergedC (cur a) ds).next = some b) :
    cwalk ds (n + 1) cur vis a =
      if b ∈ vis then ⟨some .circularReference, cupdate cur a (mergedC (cur a) ds), vis⟩
      else cwalk ds n (cupdate cur a (mergedC (cur a) ds)) (b :: vis) b := by
  rw [cwalk]
  simp only [hb]

theorem cwalk_cycle (ds : List String) (h : Nat → CNode) (c : Nat → Nat)
    (hnext : ∀ k, (h (c k)).next = some (c (k + 1))) :
    ∀ n t u : Nat, ∀ cur : Nat → CNode, ∀ vis : List Nat,
      t < u →
      (∃ s, 1 ≤ s ∧ s < u ∧ c s = c u) →
      n ≥ u - t →
      (∀ x, (cur x).next = (h x).next) →
      (∀ x, cur x = h x ∨ cur x = mergedC (h x) ds) →
      (∀ x, x ∈ vis ↔ ∃ s, 1 ≤ s ∧ s ≤ t ∧ c s = x) →
      (∀ x, x ∈ vis → x ≠ c t → cur x = mergedC (h x) ds) →
      (cwalk ds n cur vis (c t)).err = some DErr.circularReference ∧
      (∀ x, x ∈ (cwalk ds n cur vis (c t)).vis ∨ x = c t →
        (cwalk ds n cur vis (c t)).heap x = mergedC (h x) ds) ∧
      (∀ x, x ∉ (cwalk ds n cur vis (c t)).vis → x ≠ c t →
        (cwalk ds n cur vis (c t)).heap x = cur x) ∧
      (∀ x, x ∈ vis → x ∈ (cwalk ds n cur vis (c t)).vis) := by
  intro n
  induction n with
  | zero =>
    intro t u cur vis htu hQ hn hA hB hC hD
    exact absurd hn (by omega)
  | succ n ih =>
    intro t u cur vis htu hQ hn hA hB hC hD
    have hmerge_t : mergedC (cur (c t)) ds = mergedC (h (c t)) ds := by
      rcases hB (c t) with hb | hb
      · rw [hb]
      · rw [hb, mergedC_idem]
    have hnext' : (mergedC (cur (c t)) ds).next = some (c (t + 1)) := by
      rw [mergedC_next, hA, hnext]
    rw [cwalk_step_some ds n cur vis (c t) (c (t + 1)) hnext']
    by_cases hmem : c (t + 1) ∈ vis
    · rw [if_pos hmem]
      refine ⟨rfl, ?_, ?_, ?_⟩
      · intro x hx
        by_cases hxc : x = c t
        · simp only [cupdate]
          rw [if_pos hxc, hmerge_t, hxc]
        · rcases hx with hx | hx
          · simp only [cupdate]
            rw [if_neg hxc]
            exact hD x hx hxc
          · exact absurd hx hxc
      · intro x hx hxc
        simp only [cupdate]
        rw [if_neg hxc]
      · intro x hx
        exact hx
    · rw [if_neg hmem]
      have ht1u : t + 1 < u := by
        rcases Nat.lt_or_ge (t + 1) u with h' | h'
        · exact h'
        · have hu : u = t + 1 := by omega
          obtain ⟨s, hs1, hs2, hs3⟩ := hQ
          exact absurd ((hC (c (t + 1))).mpr ⟨s, hs1, by omega, by rw [hs3, hu]⟩) hmem
      have hA' : ∀ x, ((cupdate cur (c t) (mergedC (cur (c t)) ds)) x).next = (h x).next := by
        intro x
        simp only [cupdate]
        by_cases hxc : x = c t
        · rw [if_pos hxc, mergedC_next, hA, hxc]
        · rw [if_neg hxc]
          exact hA x
      have hB' : ∀ x, (cupdate cur (c t) (mergedC (cur (c t)) ds)) x = h x ∨
          (cupdate cur (c t) (mergedC (cur (c t)) ds)) x = mergedC (h x) ds := by
        intro x
        simp only [cupdate]
        by_cases hxc : x = c t
        · rw [if_pos hxc, hxc, hmerge_t]
          exact Or.inr rfl
        · rw [if_neg hxc]
          exact hB x
      have hC' : ∀ x, x ∈ (c (t + 1) :: vis) ↔ ∃ s, 1 ≤ s ∧ s ≤ t + 1 ∧ c s = x := by
        intro x
        constructor
        · intro hx
          rcases List.mem_cons.mp hx with hx | hx
          · exact ⟨t + 1, by omega, le_refl _, hx.symm⟩
          · obtain ⟨s, hs1, hs2, hs3⟩ := (hC x).mp hx
            exact ⟨s, hs1, by omega, hs3⟩
        · rintro ⟨s, hs1, hs2, hs3⟩
          rcases Nat.lt_or_ge s (t + 1) with hs | hs
          · exact List.mem_cons.mpr (Or.inr ((hC x).mpr ⟨s, hs1, by omega, hs3⟩))
          · have hst : s = t + 1 := by omega
            subst hst
            exact List.mem_cons.mpr (Or.inl hs3.symm)
      have hD' : ∀ x, x ∈ (c (t + 1) :: vis) → x ≠ c (t + 1) →
          (cupdate cur (c t) (mergedC (cur (c t)) ds)) x = mergedC (h x) ds := by
        intro x hx hxc
        rcases List.mem_cons.mp hx with hx | hx
        · exact absurd hx hxc
        · simp only [cupdate]
          by_cases hxt : x = c t
          · rw [if_pos hxt, hmerge_t, hxt]
          · rw [if_neg hxt]
            exact hD x hx hxt
      have IH := ih (t + 1) u (cupdate cur (c t) (mergedC (cur (c t)) ds))
        (c (t + 1) :: vis) ht1u hQ (by omega) hA' hB' hC' hD'
      obtain ⟨IH1, IH2, IH3, IH4⟩ := IH
      have hct1 : c (t + 1) ∈
          (cwalk ds n (cupdate cur (c t) (mergedC (cur (c t)) ds))
            (c (t + 1) :: vis) (c (t + 1))).vis :=
        IH4 (c (t + 1)) (List.mem_cons_self _ _)
      refine ⟨IH1, ?_, ?_, ?_⟩
      · intro x hx
        rcases hx with hx | hx
        · exact IH2 x (Or.inl hx)
        · by_cases hxin : x ∈
            (cwalk ds n (cupdate cur (c t) (mergedC (cur (c t)) ds))
              (c (t + 1) :: vis) (c (t + 1))).vis
          · exact IH2 x (Or.inl hxin)
          · have hxne : x ≠ c (t + 1) := fun hcontr => hxin (hcontr ▸ hct1)
            rw [IH3 x hxin hxne, hx]
            simp [cupdate, hmerge_t]
      · intro x hx hxc
        have hxne : x ≠ c (t + 1) := fun hcontr => hx (hcontr ▸ hct1)
        rw [IH3 x hx hxne]
        simp only [cupdate]
        rw [if_neg hxc]
      · intro x hx
        exact IH4 x (List.mem_cons_of_mem _ hx)

/-- C4: for every self- or mutually-referential root graph — a root from
which the `Next` chain `c` never ends and revisits an address —
`applyDefaults` returns `CircularReference`, and every node visited
strictly before the cycle was detected retains the defaults it already
received: the root and every address in the final visited set hold their
merged node (no rollback of partial mutation), while unvisited addresses
are untouched. -/
theorem claim_C4_cycle_rejected_without_rollback (ds : List String)
    (h : Nat → CNode) (r : Nat) (c : Nat → Nat) (fuel i j : Nat)
    (hc0 : c 0 = r)
    (hnext : ∀ k, (h (c k)).next = some (c (k + 1)))
    (hij : i < j) (hrep : c i = c j)
    (hfuel : fuel ≥ j + 2) :
    (capplyDefaultsF ds fuel h (some r)).err = some DErr.circularReference ∧
    (capplyDefaultsF ds fuel h (some r)).heap r = mergedC (h r) ds ∧
    (∀ x, x ∈ (capplyDefaultsF ds fuel h (some r)).vis →
      (capplyDefaultsF ds fuel h (some r)).heap x = mergedC (h x) ds) ∧
    (∀ x, x ∉ (capplyDefaultsF ds fuel h (some r)).vis → x ≠ r →
      (capplyDefaultsF ds fuel h (some r)).heap x = h x) := by
  classical
  have hP : ∃ u, ∃ s, 1 ≤ s ∧ s < u ∧ c s = c u := by
    rcases Nat.eq_zero_or_pos i with hi | hi
    · subst hi
      refine ⟨j + 1, 1, le_refl _, by omega, ?_⟩
      have h1 := hnext 0
      have h2 := hnext j
      rw [← hrep, h1] at h2
      exact (Option.some.injEq _ _).mp h2.symm ▸ rfl
    · exact ⟨j, i, hi, hij, hrep⟩
  have hPd : ∀ u, Decidable (∃ s, 1 ≤ s ∧ s < u ∧ c s = c u) := fun u =>
    Classical.dec _
  haveI : DecidablePred fun u => ∃ s, 1 ≤ s ∧ s < u ∧ c s = c u := hPd
  set u := Nat.find hP with hu
  have hQu : ∃ s, 1 ≤ s ∧ s < u ∧ c s = c u := Nat.find_spec hP
  have hupos : 0 < u := by
    obtain ⟨s, hs1, hs2, _⟩ := hQu
    omega
  have hule : u ≤ j + 1 := by
    rcases Nat.eq_zero_or_pos i with hi | hi
    · apply Nat.find_le
      subst hi
      refine ⟨1, le_refl _, by omega, ?_⟩
      have h1 := hnext 0
      have h2 := hnext j
      rw [← hrep, h1] at h2
      exact (Option.some.injEq _ _).mp h2.symm ▸ rfl
    · exact le_trans (Nat.find_le ⟨i, hi, hij, hrep⟩) (by omega)
  have hmain := cwalk_cycle ds h c hnext fuel 0 u h [] hupos hQu (by omega)
    (fun x => rfl) (fun x => Or.inl rfl)
    (fun x => by
      constructor
      · intro hx
        exact absurd hx (List.not_mem_nil x)
      · rintro ⟨s, hs1, hs2, _⟩
        omega)
    (fun x hx => absurd hx (List.not_mem_nil x))
  rw [hc0] at hmain
  obtain ⟨h1, h2, h3, _⟩ := hmain
  refine ⟨h1, ?_, ?_, ?_⟩
  · exact h2 r (Or.inr rfl)
  · intro x hx
    exact h2 x (Or.inl hx)
  · intro x hx hxr
    exact h3 x hx hxr

/-- C4 witnessed at the two-node mutual cycle: the call fails with
`CircularReference`, node 1 (visited first, empty name) already received
the default name "D", and node 2 keeps its own name "B" — no rollback. -/
theorem claim_C4_witness :
    (capplyDefaultsF ["D"] 10 heapMutual (some 1)).err = some DErr.circularReference ∧
    (capplyDefaultsF ["D"] 10 heapMutual (some 1)).heap 1 = ⟨"D", some 2⟩ ∧
    (capplyDefaultsF ["D"] 10 heapMutual (some 1)).heap 2 = ⟨"B", some 1⟩ := by
  have hnextM : ∀ k, (heapMutual (chainMutual k)).next = some (chainMutual (k + 1)) := by
    intro k
    rcases Nat.mod_two_eq_zero_or_one k with hk | hk
    · have hk1 : (k + 1) % 2 = 1 := by omega
      simp [chainMutual, heapMutual, hk, hk1]
    · have hk1 : (k + 1) % 2 = 0 := by omega
      simp [chainMutual, heapMutual, hk, hk1]
  have h4 := claim_C4_cycle_rejected_without_rollback ["D"] heapMutual 1 chainMutual
    10 0 2 rfl hnextM (by decide) rfl (by decide)
  refine ⟨h4.1, ?_, ?_⟩
  · rw [h4.2.1]
    rfl
  · rw [h4.2.2.1 2 (by decide)]
    rfl

theorem mapGet_mem (k : String) : ∀ es : List (String × Val), ∀ y : Val,
    mapGet k es = some y → (k, y) ∈ es := by
  intro es
  induction es with
  | nil => intro y h; simp [mapGet] at h
  | cons hd tl ih =>
    intro y h
    obtain ⟨k', v'⟩ := hd
    by_cases hk : k' = k
    · subst hk
      rw [mapGet, if_pos rfl] at h
      obtain rfl := Option.some.injEq _ _ ▸ h.symm
      exact List.mem_cons_self _ _
    · rw [mapGet, if_neg hk] at h
      exact List.mem_cons_of_mem _ (ih y h)

theorem mapGet_none_iff (k : String) : ∀ es : List (String × Val),
    mapGet k es = none ↔ k ∉ es.map Prod.fst := by
  intro es
  induction es with
  | nil => simp [mapGet]
  | cons hd tl ih =>
    obtain ⟨k', v'⟩ := hd
    by_cases hk : k' = k
    · subst hk
      simp [mapGet]
    · simp [mapGet, hk, ih, Ne.symm hk]

theorem mapGet_first_of_nodup (k : String) (x : Val) :
    ∀ es : List (String × Val), (es.map Prod.fst).Nodup → (k, x) ∈ es →
      mapGet k es = some x := by
  intro es
  induction es with
  | nil => intro _ h; simp at h
  | cons hd tl ih =>
    intro hnd hmem
    obtain ⟨k', v'⟩ := hd
    simp only [List.map_cons, List.nodup_cons] at hnd
    rcases List.mem_cons.mp hmem with heq | hmem'
    · obtain ⟨rfl, rfl⟩ := Prod.mk.injEq .. ▸ heq
      rw [mapGet, if_pos rfl]
    · have hk : k' ≠ k := by
        intro hcontr
        subst hcontr
        exact hnd.1 (List.mem_map.mpr ⟨(k', x), hmem', rfl⟩)
      rw [mapGet, if_neg hk]
      exact ih hnd.2 hmem'

theorem monoEs_intro : ∀ es fs : List (String × Val),
    (∀ p ∈ es, ∃ y, mapGet p.1 fs = some y ∧ mono p.2 y = true) →
    monoEs es fs = true := by
  intro es
  induction es with
  | nil => intro fs _; rfl
  | cons hd tl ih =>
    intro fs h
    obtain ⟨k, x⟩ := hd
    obtain ⟨y, hy, hxy⟩ := h (k, x) (List.mem_cons_self _ _)
    rw [monoEs, hy]
    exact (Bool.and_eq_true _ _).mpr ⟨hxy, ih fs (fun p hp => h p (List.mem_cons_of_mem _ hp))⟩

theorem monoEs_elim : ∀ es fs : List (String × Val), monoEs es fs = true →
    ∀ p ∈ es, ∃ y, mapGet p.1 fs = some y ∧ mono p.2 y = true := by
  intro es
  induction es with
  | nil => intro fs _ p hp; simp at hp
  | cons hd tl ih =>
    intro fs h p hp
    obtain ⟨k, x⟩ := hd
    rw [monoEs] at h
    rcases List.mem_cons.mp hp with heq | hmem
    · subst heq
      cases hy : mapGet k fs with
      | none => rw [hy] at h; simp at h
      | some y =>
        rw [hy] at h
        exact ⟨y, rfl, ((Bool.and_eq_true _ _).mp h).1⟩
    · cases hy : mapGet k fs with
      | none => rw [hy] at h; simp at h
      | some y =>
        rw [hy] at h
        exact ih fs ((Bool.and_eq_true _ _).mp h).2 p hmem

theorem mono_tyOf : ∀ x y : Val, mono x y = true → tyOf x = tyOf y := by
  intro x y h
  cases x with
  | int a => cases y <;> simp_all [mono, tyOf]
  | str a => cases y <;> simp_all [mono, tyOf]
  | bool a => cases y <;> simp_all [mono, tyOf]
  | struct id fs =>
    cases y <;> simp_all [mono, tyOf]
  | ptr t tp =>
    rcases tp with _ | ⟨a, p⟩ <;>
      (cases y with
       | ptr t' tp' =>
         rcases tp' with _ | ⟨b, q⟩ <;> simp_all [mono, tyOf]
       | _ => simp_all [mono, tyOf])
  | map t es =>
    rcases es with _ | es <;>
      (cases y with
       | map t' es' =>
         rcases es' with _ | es' <;> simp_all [mono, tyOf]
       | _ => simp_all [mono, tyOf])
  | slice t xs =>
    rcases xs with _ | xs <;>
      (cases y with
       | slice t' xs' =>
         rcases xs' with _ | xs' <;> simp_all [mono, tyOf]
       | _ => simp_all [mono, tyOf])
  | iface x? =>
    rcases x? with _ | x <;>
      (cases y with
       | iface y? => rcases y? with _ | y <;> simp_all [mono, tyOf]
       | _ => simp_all [mono, tyOf])

mutual
theorem mono_refl (SC : Nat → List (Bool × Ty)) :
    ∀ v : Val, wfV SC v = true → mono v v = true
  | .int a, _ => by simp [mono]
  | .str a, _ => by simp [mono]
  | .bool b, _ => by simp [mono]
  | .struct id fs, h => by
    rw [mono]
    simp only [beq_self_eq_true, Bool.true_and]
    rw [wfV] at h
    exact monoL_refl SC fs ((Bool.and_eq_true _ _).mp h).2
  | .ptr t none, _ => by simp [mono]
  | .ptr t (some (a, p)), h => by
    rw [mono]
    rw [wfV] at h
    simp only [beq_self_eq_true, Bool.true_and]
    exact mono_refl SC p ((Bool.and_eq_true _ _).mp h).2
  | .map t none, _ => by simp [mono]
  | .map t (some es), h => by
    rw [mono]
    rw [wfV] at h
    obtain ⟨hnd, hwf⟩ := (Bool.and_eq_true _ _).mp h
    simp only [beq_self_eq_true, Bool.true_and]
    exact monoEs_refl SC t es es hwf
      (fun p hp => mapGet_first_of_nodup p.1 p.2 es (of_decide_eq_true hnd) hp)
  | .slice t none, _ => by simp [mono]
  | .slice t (some xs), h => by
    rw [mono]
    rw [wfV] at h
    simp only [beq_self_eq_true, Bool.true_and]
    exact monoSl_refl SC t xs h
  | .iface none, _ => by simp [mono]
  | .iface (some x), h => by
    rw [mono]
    rw [wfV] at h
    exact mono_refl SC x h

theorem monoL_refl (SC : Nat → List (Bool × Ty)) :
    ∀ l : List Val, wfL SC l = true → monoL l l = true
  | [], _ => rfl
  | v :: vs, h => by
    rw [monoL]
    rw [wfL] at h
    obtain ⟨h1, h2⟩ := (Bool.and_eq_true _ _).mp h
    exact (Bool.and_eq_true _ _).mpr ⟨mono_refl SC v h1, monoL_refl SC vs h2⟩

theorem monoSl_refl (SC : Nat → List (Bool × Ty)) (t : Ty) :
    ∀ l : List Val, wfSl SC t l = true → monoL l l = true
  | [], _ => rfl
  | v :: vs, h => by
    rw [monoL]
    rw [wfSl] at h
    obtain ⟨h1, h2⟩ := (Bool.and_eq_true _ _).mp h
    exact (Bool.and_eq_true _ _).mpr
      ⟨mono_refl SC v ((Bool.and_eq_true _ _).mp h1).2, monoSl_refl SC t vs h2⟩

theorem monoEs_refl (SC : Nat → List (Bool × Ty)) (t : Ty) :
    ∀ es full : List (String × Val), wfEs SC t es = true →
      (∀ p ∈ es, mapGet p.1 full = some p.2) → monoEs es full = true
  | [], _, _, _ => rfl
  | (k, x) :: tl, full, hwf, hget => by
    rw [monoEs, hget (k, x) (List.mem_cons_self _ _)]
    rw [wfEs] at hwf
    obtain ⟨h1, h2⟩ := (Bool.and_eq_true _ _).mp hwf
    exact (Bool.and_eq_true _ _).mpr
      ⟨mono_refl SC x ((Bool.and_eq_true _ _).mp h1).2,
       monoEs_refl SC t tl full h2 (fun p hp => hget p (List.mem_cons_of_mem _ hp))⟩
end

mutual
theorem mono_trans : ∀ u v w : Val, mono u v = true → mono v w = true → mono u w = true
  | .int a, v, w, h1, h2 => by
    cases v with
    | int b =>
      cases w with
      | int c =>
        simp only [mono] at h1 h2 ⊢
        rcases (Bool.or_eq_true _ _).mp h1 with h | h <;>
          rcases (Bool.or_eq_true _ _).mp h2 with h' | h' <;>
          simp_all
      | _ => simp [mono] at h2
    | _ => simp [mono] at h1
  | .str a, v, w, h1, h2 => by
    cases v with
    | str b =>
      cases w with
      | str c =>
        simp only [mono] at h1 h2 ⊢
        rcases (Bool.or_eq_true _ _).mp h1 with h | h <;>
          rcases (Bool.or_eq_true _ _).mp h2 with h' | h' <;>
          simp_all
      | _ => simp [mono] at h2
    | _ => simp [mono] at h1
  | .bool a, v, w, h1, h2 => by
    cases v with
    | bool b =>
      cases w with
      | bool c =>
        simp only [mono] at h1 h2 ⊢
        rcases (Bool.or_eq_true _ _).mp h1 with h | h <;>
          rcases (Bool.or_eq_true _ _).mp h2 with h' | h' <;>
          simp_all
      | _ => simp [mono] at h2
    | _ => simp [mono] at h1
  | .struct id fs, v, w, h1, h2 => by
    cases v with
    | struct id' gs =>
      cases w with
      | struct id'' hs =>
        simp only [mono] at h1 h2 ⊢
        obtain ⟨hid1, hm1⟩ := (Bool.and_eq_true _ _).mp h1
        obtain ⟨hid2, hm2⟩ := (Bool.and_eq_true _ _).mp h2
        refine (Bool.and_eq_true _ _).mpr ⟨?_, monoL_trans fs gs hs hm1 hm2⟩
        simp only [beq_iff_eq] at hid1 hid2 ⊢
        omega
      | _ => simp [mono] at h2
    | _ => simp [mono] at h1
  | .ptr t none, v, w, h1, h2 => by
    cases v with
    | ptr t' tp' =>
      cases w with
      | ptr t'' tp'' =>
        rcases tp' with _ | ⟨b, q⟩ <;> rcases tp'' with _ | ⟨c, r⟩ <;>
          simp_all [mono]
      | _ => rcases tp' with _ | ⟨b, q⟩ <;> simp [mono] at h2
    | _ => simp [mono] at h1
  | .ptr t (some (a, p)), v, w, h1, h2 => by
    cases v with
    | ptr t' tp' =>
      rcases tp' with _ | ⟨b, q⟩
      · simp [mono] at h1
      · cases w with
        | ptr t'' tp'' =>
          rcases tp'' with _ | ⟨c, r⟩
          · simp [mono] at h2
          · simp only [mono] at h1 h2 ⊢
            obtain ⟨h1a, hp1⟩ := (Bool.and_eq_true _ _).mp h1
            obtain ⟨ht1, ha1⟩ := (Bool.and_eq_true _ _).mp h1a
            obtain ⟨h2a, hp2⟩ := (Bool.and_eq_true _ _).mp h2
            obtain ⟨ht2, ha2⟩ := (Bool.and_eq_true _ _).mp h2a
            refine (Bool.and_eq_true _ _).mpr
              ⟨(Bool.and_eq_true _ _).mpr ⟨?_, ?_⟩, mono_trans p q r hp1 hp2⟩
            · simp only [beq_iff_eq] at ht1 ht2 ⊢
              rw [ht1, ht2]
            · simp only [beq_iff_eq] at ha1 ha2 ⊢
              omega
        | _ => simp [mono] at h2
    | _ => simp [mono] at h1
  | .map t none, v, w, h1, h2 => by
    cases v with
    | map t' es' =>
      cases w with
      | map t'' es'' =>
        rcases es' with _ | es' <;> rcases es'' with _ | es'' <;> simp_all [mono]
      | _ => rcases es' with _ | es' <;> simp [mono] at h2
    | _ => simp [mono] at h1
  | .map t (some es), v, w, h1, h2 => by
    cases v with
    | map t' fs' =>
      rcases fs' with _ | fs
      · simp [mono] at h1
      · cases w with
        | map t'' gs' =>
          rcases gs' with _ | gs
          · simp [mono] at h2
          · simp only [mono] at h1 h2 ⊢
            obtain ⟨ht1, hm1⟩ := (Bool.and_eq_true _ _).mp h1
            obtain ⟨ht2, hm2⟩ := (Bool.and_eq_true _ _).mp h2
            refine (Bool.and_eq_true _ _).mpr ⟨?_, monoEs_trans es fs gs hm1 hm2⟩
            simp only [beq_iff_eq] at ht1 ht2 ⊢
            rw [ht1, ht2]
        | _ => simp [mono] at h2
    | _ => simp [mono] at h1
  | .slice t none, v, w, h1, h2 => by
    cases v with
    | slice t' xs' =>
      cases w with
      | slice t'' xs'' =>
        rcases xs' with _ | xs' <;> rcases xs'' with _ | xs'' <;> simp_all [mono]
      | _ => rcases xs' with _ | xs' <;> simp [mono] at h2
    | _ => simp [mono] at h1
  | .slice t (some xs), v, w, h1, h2 => by
    cases v with
    | slice t' ys' =>
      rcases ys' with _ | ys
      · simp [mono] at h1
      · cases w with
        | slice t'' zs' =>
          rcases zs' with _ | zs
          · simp [mono] at h2
          · simp only [mono] at h1 h2 ⊢
            obtain ⟨ht1, hm1⟩ := (Bool.and_eq_true _ _).mp h1
            obtain ⟨ht2, hm2⟩ := (Bool.and_eq_true _ _).mp h2
            refine (Bool.and_eq_true _ _).mpr ⟨?_, monoL_trans xs ys zs hm1 hm2⟩
            simp only [beq_iff_eq] at ht1 ht2 ⊢
            rw [ht1, ht2]
        | _ => simp [mono] at h2
    | _ => simp [mono] at h1
  | .iface none, v, w, h1, h2 => by
    cases v with
    | iface v? =>
      cases w with
      | iface w? => simp [mono]
      | _ => rcases v? with _ | v' <;> simp [mono] at h2
    | _ => simp [mono] at h1
  | .iface (some x), v, w, h1, h2 => by
    cases v with
    | iface v? =>
      rcases v? with _ | v'
      · simp [mono] at h1
      · cases w with
        | iface w? =>
          rcases w? with _ | w'
          · simp [mono] at h2
          · simp only [mono] at h1 h2 ⊢
            exact mono_trans x v' w' h1 h2
        | _ => simp [mono] at h2
    | _ => simp [mono] at h1

theorem monoL_trans : ∀ us vs ws : List Val,
    monoL us vs = true → monoL vs ws = true → monoL us ws = true
  | [], vs, ws, h1, h2 => by
    cases vs with
    | nil => cases ws with
      | nil => rfl
      | cons w ws => simp [monoL] at h2
    | cons v vs => simp [monoL] at h1
  | u :: us, vs, ws, h1, h2 => by
    cases vs with
    | nil => simp [monoL] at h1
    | cons v vs =>
      cases ws with
      | nil => simp [monoL] at h2
      | cons w ws =>
        simp only [monoL] at h1 h2 ⊢
        obtain ⟨ha1, hb1⟩ := (Bool.and_eq_true _ _).mp h1
        obtain ⟨ha2, hb2⟩ := (Bool.and_eq_true _ _).mp h2
        exact (Bool.and_eq_true _ _).mpr
          ⟨mono_trans u v w ha1 ha2, monoL_trans us vs ws hb1 hb2⟩

theorem monoEs_trans : ∀ es fs gs : List (String × Val),
    monoEs es fs = true → monoEs fs gs = true → monoEs es gs = true
  | [], _, _, _, _ => rfl
  | (k, x) :: tl, fs, gs, h1, h2 => by
    rw [monoEs] at h1 ⊢
    cases hy : mapGet k fs with
    | none => rw [hy] at h1; simp at h1
    | some y =>
      rw [hy] at h1
      obtain ⟨hxy, htl⟩ := (Bool.and_eq_true _ _).mp h1
      obtain ⟨z, hz, hyz⟩ := monoEs_elim fs gs h2 (k, y) (mapGet_mem k fs y hy)
      rw [hz]
      exact (Bool.and_eq_true _ _).mpr
        ⟨mono_trans x y z hxy hyz, monoEs_trans tl fs gs htl h2⟩
end

mutual
theorem mono_zero (SC : Nat → List (Bool × Ty)) :
    ∀ x y : Val, isZero x = true → wfV SC x = true → wfV SC y = true →
      tyOf x = tyOf y → mono x y = true
  | .int a, y, hz, _, _, hty => by
    cases y <;> simp_all [isZero, tyOf, mono]
  | .str a, y, hz, _, _, hty => by
    cases y <;> simp_all [isZero, tyOf, mono]
  | .bool a, y, hz, _, _, hty => by
    cases y <;> simp_all [isZero, tyOf, mono]
  | .struct id fs, y, hz, hwx, hwy, hty => by
    cases y with
    | struct id' gs =>
      simp only [tyOf, Ty.struct.injEq] at hty
      subst hty
      rw [isZero] at hz
      rw [wfV] at hwx hwy
      obtain ⟨htx, hwx'⟩ := (Bool.and_eq_true _ _).mp hwx
      obtain ⟨hty', hwy'⟩ := (Bool.and_eq_true _ _).mp hwy
      rw [mono]
      simp only [beq_self_eq_true, Bool.true_and]
      refine monoL_zero SC fs gs hz hwx' hwy' ?_
      simp only [beq_iff_eq] at htx hty'
      rw [htx, hty']
    | _ => simp [tyOf] at hty
  | .ptr t none, y, hz, _, _, hty => by
    cases y with
    | ptr t' tp' =>
      simp only [tyOf, Ty.ptr.injEq] at hty
      subst hty
      simp [mono]
    | _ => simp [tyOf] at hty
  | .ptr t (some (a, p)), y, hz, _, _, _ => by
    simp [isZero] at hz
  | .map t none, y, hz, _, _, hty => by
    cases y with
    | map t' es' =>
      simp only [tyOf, Ty.map.injEq] at hty
      subst hty
      cases es' <;> simp [mono]
    | _ => simp [tyOf] at hty
  | .map t (some es), y, hz, _, _, _ => by
    simp [isZero] at hz
  | .slice t none, y, hz, _, _, hty => by
    cases y with
    | slice t' xs' =>
      simp only [tyOf, Ty.slice.injEq] at hty
      subst hty
      cases xs' <;> simp [mono]
    | _ => simp [tyOf] at hty
  | .slice t (some xs), y, hz, _, _, _ => by
    simp [isZero] at hz
  | .iface none, y, hz, _, _, hty => by
    cases y with
    | iface y? => cases y? <;> simp [mono]
    | _ => simp [tyOf] at hty
  | .iface (some x), y, hz, _, _, _ => by
    simp [isZero] at hz

theorem monoL_zero (SC : Nat → List (Bool × Ty)) :
    ∀ xs ys : List Val, isZeroL xs = true → wfL SC xs = true → wfL SC ys = true →
      xs.map tyOf = ys.map tyOf → monoL xs ys = true
  | [], ys, _, _, _, hty => by
    cases ys with
    | nil => rfl
    | cons y ys => simp at hty
  | x :: xs, ys, hz, hwx, hwy, hty => by
    cases ys with
    | nil => simp at hty
    | cons y ys =>
      simp only [List.map_cons, List.cons.injEq] at hty
      rw [isZeroL] at hz
      rw [wfL] at hwx hwy
      obtain ⟨hz1, hz2⟩ := (Bool.and_eq_true _ _).mp hz
      obtain ⟨hwx1, hwx2⟩ := (Bool.and_eq_true _ _).mp hwx
      obtain ⟨hwy1, hwy2⟩ := (Bool.and_eq_true _ _).mp hwy
      rw [monoL]
      exact (Bool.and_eq_true _ _).mpr
        ⟨mono_zero SC x y hz1 hwx1 hwy1 hty.1, monoL_zero SC xs ys hz2 hwx2 hwy2 hty.2⟩
end

theorem monoL_tyOf : ∀ xs ys : List Val, monoL xs ys = true →
    xs.map tyOf = ys.map tyOf := by
  intro xs
  induction xs with
  | nil => intro ys h; cases ys with
    | nil => rfl
    | cons y ys => simp [monoL] at h
  | cons x xs ih =>
    intro ys h
    cases ys with
    | nil => simp [monoL] at h
    | cons y ys =>
      rw [monoL] at h
      obtain ⟨h1, h2⟩ := (Bool.and_eq_true _ _).mp h
      simp only [List.map_cons, List.cons.injEq]
      exact ⟨mono_tyOf x y h1, ih ys h2⟩

theorem zeroLike_tyOf : ∀ x : Val, tyOf (zeroLike x) = tyOf x := by
  intro x
  cases x <;> rfl

theorem zeroLikeL_map_tyOf : ∀ xs : List Val,
    (zeroLikeL xs).map tyOf = xs.map tyOf := by
  intro xs
  induction xs with
  | nil => rfl
  | cons x xs ih => simp [zeroLikeL, zeroLike_tyOf, ih]

theorem zeroLikeL_get (i : Nat) : ∀ xs : List Val, ∀ x : Val,
    xs.get? i = some x → (zeroLikeL xs).get? i = some (zeroLike x) := by
  induction i with
  | zero => intro xs x h; cases xs with
    | nil => simp at h
    | cons a as =>
      simp only [List.get?_cons_zero, Option.some.injEq] at h
      rw [zeroLikeL, h]
      rfl
  | succ j ih =>
    intro xs x h
    cases xs with
    | nil => simp at h
    | cons a as =>
      simp only [List.get?_cons_succ] at h
      rw [zeroLikeL]
      simpa using ih as x h

mutual
theorem zeroLike_wf (SC : Nat → List (Bool × Ty)) :
    ∀ x : Val, wfV SC x = true → wfV SC (zeroLike x) = true
  | .int _, _ => rfl
  | .str _, _ => rfl
  | .bool _, _ => rfl
  | .struct id fs, h => by
    rw [zeroLike, wfV]
    rw [wfV] at h
    obtain ⟨h1, h2⟩ := (Bool.and_eq_true _ _).mp h
    refine (Bool.and_eq_true _ _).mpr ⟨?_, zeroLikeL_wf SC fs h2⟩
    rw [show (zeroLikeL fs).map tyOf = fs.map tyOf from zeroLikeL_map_tyOf fs]
    exact h1
  | .ptr t _, _ => rfl
  | .map t _, _ => rfl
  | .slice t _, _ => rfl
  | .iface _, _ => rfl

theorem zeroLikeL_wf (SC : Nat → List (Bool × Ty)) :
    ∀ xs : List Val, wfL SC xs = true → wfL SC (zeroLikeL xs) = true
  | [], _ => rfl
  | x :: xs, h => by
    rw [zeroLikeL, wfL]
    rw [wfL] at h
    obtain ⟨h1, h2⟩ := (Bool.and_eq_true _ _).mp h
    exact (Bool.and_eq_true _ _).mpr ⟨zeroLike_wf SC x h1, zeroLikeL_wf SC xs h2⟩
end

mutual
theorem zeroLike_isZero : ∀ x : Val, isZero (zeroLike x) = true
  | .int _ => rfl
  | .str _ => rfl
  | .bool _ => rfl
  | .struct id fs => by
    rw [zeroLike, isZero]
    exact zeroLikeL_isZero fs
  | .ptr t _ => rfl
  | .map t _ => rfl
  | .slice t _ => rfl
  | .iface _ => rfl

theorem zeroLikeL_isZero : ∀ xs : List Val, isZeroL (zeroLikeL xs) = true
  | [] => rfl
  | x :: xs => by
    rw [zeroLikeL, isZeroL]
    exact (Bool.and_eq_true _ _).mpr ⟨zeroLike_isZero x, zeroLikeL_isZero xs⟩
end

theorem wfEs_mem (SC : Nat → List (Bool × Ty)) (t : Ty) :
    ∀ es : List (String × Val), wfEs SC t es = true →
      ∀ p ∈ es, tyOf p.2 = t ∧ wfV SC p.2 = true := by
  intro es
  induction es with
  | nil => intro _ p hp; simp at hp
  | cons hd tl ih =>
    intro h p hp
    obtain ⟨k, x⟩ := hd
    rw [wfEs] at h
    obtain ⟨h1, h2⟩ := (Bool.and_eq_true _ _).mp h
    obtain ⟨h1a, h1b⟩ := (Bool.and_eq_true _ _).mp h1
    rcases List.mem_cons.mp hp with heq | hmem
    · subst heq
      exact ⟨beq_iff_eq.mp h1a, h1b⟩
    · exact ih h2 p hmem

theorem wfEs_append (SC : Nat → List (Bool × Ty)) (t : Ty) :
    ∀ es fs : List (String × Val), wfEs SC t es = true → wfEs SC t fs = true →
      wfEs SC t (es ++ fs) = true := by
  intro es
  induction es with
  | nil => intro fs _ h2; exact h2
  | cons hd tl ih =>
    intro fs h1 h2
    obtain ⟨k, x⟩ := hd
    rw [List.cons_append]
    rw [wfEs] at h1 ⊢
    obtain ⟨h1a, h1b⟩ := (Bool.and_eq_true _ _).mp h1
    exact (Bool.and_eq_true _ _).mpr ⟨h1a, ih fs h1b h2⟩

theorem mergeMapEntries_get (k : String) (des ses : List (String × Val)) :
    mapGet k (mergeMapEntries des ses) =
      match mapGet k des with
      | some x => some x
      | none => mapGet k ses :=
  insertAbsent_get k ses des

theorem insertAbsent_nodup_wf (SC : Nat → List (Bool × Ty)) (t : Ty) :
    ∀ ses acc : List (String × Val),
      (acc.map Prod.fst).Nodup → wfEs SC t acc = true → wfEs SC t ses = true →
      ((ses.foldl
        (fun acc kv => if (mapGet kv.1 acc).isSome then acc else acc ++ [kv])
        acc).map Prod.fst).Nodup ∧
      wfEs SC t (ses.foldl
        (fun acc kv => if (mapGet kv.1 acc).isSome then acc else acc ++ [kv])
        acc) = true := by
  intro ses
  induction ses with
  | nil => intro acc hnd hwa _; exact ⟨hnd, hwa⟩
  | cons hd tl ih =>
    intro acc hnd hwa hws
    obtain ⟨k₁, v₁⟩ := hd
    rw [wfEs] at hws
    obtain ⟨hw1, hwtl⟩ := (Bool.and_eq_true _ _).mp hws
    rw [List.foldl_cons]
    by_cases hocc : (mapGet k₁ acc).isSome
    · simp only [hocc, if_true]
      exact ih acc hnd hwa hwtl
    · rw [Bool.not_eq_true] at hocc
      simp only [hocc, Bool.false_eq_true, if_false]
      refine ih (acc ++ [(k₁, v₁)]) ?_ ?_ hwtl
      · rw [List.map_append, List.nodup_append]
        refine ⟨hnd, List.nodup_singleton _, ?_⟩
        intro a ha hb
        simp only [List.map_cons, List.map_nil, List.mem_singleton] at hb
        subst hb
        exact (mapGet_none_iff a acc).mp
          (Option.not_isSome_iff_eq_none.mp (by simp [hocc])) ha
      · refine wfEs_append SC t acc [(k₁, v₁)] hwa ?_
        rw [wfEs]
        exact (Bool.and_eq_true _ _).mpr ⟨hw1, rfl⟩

theorem mergeMapEntries_nodup_wf (SC : Nat → List (Bool × Ty)) (t : Ty)
    (des ses : List (String × Val))
    (hnd : (des.map Prod.fst).Nodup) (hwd : wfEs SC t des = true)
    (hws : wfEs SC t ses = true) :
    ((mergeMapEntries des ses).map Prod.fst).Nodup ∧
      wfEs SC t (mergeMapEntries des ses) = true :=
  insertAbsent_nodup_wf SC t ses des hnd hwd hws

theorem mergeMapEntries_mono (SC : Nat → List (Bool × Ty)) (t : Ty)
    (des ses : List (String × Val))
    (hnd : (des.map Prod.fst).Nodup) (hwd : wfEs SC t des = true) :
    monoEs des (mergeMapEntries des ses) = true := by
  refine monoEs_intro des _ ?_
  intro p hp
  refine ⟨p.2, ?_, mono_refl SC p.2 (wfEs_mem SC t des hwd p hp).2⟩
  rw [mergeMapEntries_get]
  rw [mapGet_first_of_nodup p.1 p.2 des hnd hp]

theorem setFieldF_zero (SC : Nat → List (Bool × Ty)) :
    ∀ d s : Val,
      isZero d = true → wfV SC d = true → wfV SC s = true → tyOf d = tyOf s →
      mono d (setFieldF d s) = true ∧ wfV SC (setFieldF d s) = true := by
  intro d s hz hwd hws hty
  cases s with
  | map t es? =>
    cases d with
    | map t' des? =>
      have ht : t' = t := by simpa [tyOf] using hty
      subst ht
      cases des? with
      | none =>
        constructor
        · rw [show setFieldF (Val.map t' none) (Val.map t' es?) =
              .map t' (some (es?.getD [])) from rfl]
          simp [mono]
        · rw [show setFieldF (Val.map t' none) (Val.map t' es?) =
              .map t' (some (es?.getD [])) from rfl]
          cases es? with
          | none => rfl
          | some es => exact hws
      | some des => simp [isZero] at hz
    | int n => simp [tyOf] at hty
    | str a => simp [tyOf] at hty
    | bool b => simp [tyOf] at hty
    | struct id fs => simp [tyOf] at hty
    | ptr t' tp => simp [tyOf] at hty
    | slice t' xs => simp [tyOf] at hty
    | iface x? => simp [tyOf] at hty
  | int n =>
    have hset : setFieldF d (.int n) = .int n := by cases d <;> rfl
    rw [hset]
    exact ⟨mono_zero SC d _ hz hwd hws hty, hws⟩
  | str a =>
    have hset : setFieldF d (.str a) = .str a := by cases d <;> rfl
    rw [hset]
    exact ⟨mono_zero SC d _ hz hwd hws hty, hws⟩
  | bool b =>
    have hset : setFieldF d (.bool b) = .bool b := by cases d <;> rfl
    rw [hset]
    exact ⟨mono_zero SC d _ hz hwd hws hty, hws⟩
  | struct id fs =>
    have hset : setFieldF d (.struct id fs) = .struct id fs := by cases d <;> rfl
    rw [hset]
    exact ⟨mono_zero SC d _ hz hwd hws hty, hws⟩
  | ptr t tp =>
    have hset : setFieldF d (.ptr t tp) = .ptr t tp := by cases d <;> rfl
    rw [hset]
    exact ⟨mono_zero SC d _ hz hwd hws hty, hws⟩
  | slice t xs =>
    have hset : setFieldF d (.slice t xs) = .slice t xs := by cases d <;> rfl
    rw [hset]
    exact ⟨mono_zero SC d _ hz hwd hws hty, hws⟩
  | iface x? =>
    have hset : setFieldF d (.iface x?) = .iface x? := by cases d <;> rfl
    rw [hset]
    exact ⟨mono_zero SC d _ hz hwd hws hty, hws⟩

mutual
theorem mergeFieldsF_mono_wf (SC : Nat → List (Bool × Ty)) :
    ∀ (sfs : List Val) (n : Nat) (flags : List Bool) (dfs : List Val),
      wfL SC dfs = true → wfL SC sfs = true → dfs.map tyOf = sfs.map tyOf →
      monoL dfs (mergeFieldsF SC n flags dfs sfs).1 = true ∧
      wfL SC (mergeFieldsF SC n flags dfs sfs).1 = true
  | [], n, flags, dfs, hwd, _, _ => ⟨monoL_refl SC dfs hwd, hwd⟩
  | s :: ss, n, flags, dfs, hwd, hws, hty => by
    cases dfs with
    | nil => simp at hty
    | cons d ds =>
      cases flags with
      | nil => exact ⟨monoL_refl SC _ hwd, hwd⟩
      | cons ex exs =>
        rw [wfL] at hwd hws
        obtain ⟨hwd1, hwd2⟩ := (Bool.and_eq_true _ _).mp hwd
        obtain ⟨hws1, hws2⟩ := (Bool.and_eq_true _ _).mp hws
        simp only [List.map_cons, List.cons.injEq] at hty
        obtain ⟨hm1, hw1⟩ := mergeFieldF_mono_wf SC s n ex d hwd1 hws1 hty.1
        obtain ⟨hm2, hw2⟩ := mergeFieldsF_mono_wf SC ss (mergeFieldF SC n ex d s).2
          exs ds hwd2 hws2 hty.2
        refine ⟨?_, ?_⟩
        · show monoL (d :: ds)
            ((mergeFieldF SC n ex d s).1 ::
              (mergeFieldsF SC (mergeFieldF SC n ex d s).2 exs ds ss).1) = true
          rw [monoL]
          exact (Bool.and_eq_true _ _).mpr ⟨hm1, hm2⟩
        · show wfL SC
            ((mergeFieldF SC n ex d s).1 ::
              (mergeFieldsF SC (mergeFieldF SC n ex d s).2 exs ds ss).1) = true
          rw [wfL]
          exact (Bool.and_eq_true _ _).mpr ⟨hw1, hw2⟩

theorem mergeFieldF_mono_wf (SC : Nat → List (Bool × Ty)) :
    ∀ (s : Val) (n : Nat) (ex : Bool) (d : Val),
      wfV SC d = true → wfV SC s = true → tyOf d = tyOf s →
      mono d (mergeFieldF SC n ex d s).1 = true ∧
      wfV SC (mergeFieldF SC n ex d s).1 = true
  | .int m, n, ex, d, hwd, hws, hty => by
    rw [mergeFieldF.eq_def]
    cases ex with
    | false =>
      rw [if_pos rfl]
      exact ⟨mono_refl SC d hwd, hwd⟩
    | true =>
      rw [if_neg (by decide : ¬(true = false))]
      by_cases hz : isZero d = true
      · rw [if_pos hz]
        exact setFieldF_zero SC d _ hz hwd hws hty
      · rw [if_neg hz]
        exact ⟨mono_refl SC d hwd, hwd⟩
  | .str a, n, ex, d, hwd, hws, hty => by
    rw [mergeFieldF.eq_def]
    cases ex with
    | false =>
      rw [if_pos rfl]
      exact ⟨mono_refl SC d hwd, hwd⟩
    | true =>
      rw [if_neg (by decide : ¬(true = false))]
      by_cases hz : isZero d = true
      · rw [if_pos hz]
        exact setFieldF_zero SC d _ hz hwd hws hty
      · rw [if_neg hz]
        exact ⟨mono_refl SC d hwd, hwd⟩
  | .bool b, n, ex, d, hwd, hws, hty => by
    rw [mergeFieldF.eq_def]
    cases ex with
    | false =>
      rw [if_pos rfl]
      exact ⟨mono_refl SC d hwd, hwd⟩
    | true =>
      rw [if_neg (by decide : ¬(true = false))]
      by_cases hz : isZero d = true
      · rw [if_pos hz]
        exact setFieldF_zero SC d _ hz hwd hws hty
      · rw [if_neg hz]
        exact ⟨mono_refl SC d hwd, hwd⟩
  | .slice t xs?, n, ex, d, hwd, hws, hty => by
    rw [mergeFieldF.eq_def]
    cases ex with
    | false =>
      rw [if_pos rfl]
      exact ⟨mono_refl SC d hwd, hwd⟩
    | true =>
      rw [if_neg (by decide : ¬(true = false))]
      by_cases hz : isZero d = true
      · rw [if_pos hz]
        exact setFieldF_zero SC d _ hz hwd hws hty
      · rw [if_neg hz]
        exact ⟨mono_refl SC d hwd, hwd⟩
  | .iface x?, n, ex, d, hwd, hws, hty => by
    rw [mergeFieldF.eq_def]
    cases ex with
    | false =>
      rw [if_pos rfl]
      exact ⟨mono_refl SC d hwd, hwd⟩
    | true =>
      rw [if_neg (by decide : ¬(true = false))]
      by_cases hz : isZero d = true
      · rw [if_pos hz]
        exact setFieldF_zero SC d _ hz hwd hws hty
      · rw [if_neg hz]
        exact ⟨mono_refl SC d hwd, hwd⟩
  | .struct sid sfs, n, ex, d, hwd, hws, hty => by
    rw [mergeFieldF.eq_def]
    cases ex with
    | false =>
      rw [if_pos rfl]
      exact ⟨mono_refl SC d hwd, hwd⟩
    | true =>
      rw [if_neg (by decide : ¬(true = false))]
      by_cases hz : isZero d = true
      · rw [if_pos hz]
        exact setFieldF_zero SC d _ hz hwd hws hty
      · rw [if_neg hz]
        cases d with
        | struct id dfs =>
          simp only [tyOf, Ty.struct.injEq] at hty
          subst hty
          rw [wfV] at hwd hws
          obtain ⟨hd1, hd2⟩ := (Bool.and_eq_true _ _).mp hwd
          obtain ⟨hs1, hs2⟩ := (Bool.and_eq_true _ _).mp hws
          have hmaps : dfs.map tyOf = sfs.map tyOf := by
            rw [beq_iff_eq.mp hd1, beq_iff_eq.mp hs1]
          obtain ⟨hm, hw⟩ := mergeFieldsF_mono_wf SC sfs n (exflags SC id) dfs
            hd2 hs2 hmaps
          refine ⟨?_, ?_⟩
          · show mono (Val.struct id dfs)
              (Val.struct id (mergeFieldsF SC n (exflags SC id) dfs sfs).1) = true
            rw [mono]
            simp only [beq_self_eq_true, Bool.true_and]
            exact hm
          · show wfV SC
              (Val.struct id (mergeFieldsF SC n (exflags SC id) dfs sfs).1) = true
            rw [wfV]
            refine (Bool.and_eq_true _ _).mpr ⟨?_, hw⟩
            rw [show (mergeFieldsF SC n (exflags SC id) dfs sfs).1.map tyOf =
              dfs.map tyOf from (monoL_tyOf _ _ hm).symm]
            exact hd1
        | int k => simp [tyOf] at hty
        | str a => simp [tyOf] at hty
        | bool b => simp [tyOf] at hty
        | ptr t tp => simp [tyOf] at hty
        | map t es? => simp [tyOf] at hty
        | slice t ys? => simp [tyOf] at hty
        | iface y? => simp [tyOf] at hty
  | .ptr st stp, n, ex, d, hwd, hws, hty => by
    rw [mergeFieldF.eq_def]
    cases ex with
    | false =>
      rw [if_pos rfl]
      exact ⟨mono_refl SC d hwd, hwd⟩
    | true =>
      rw [if_neg (by decide : ¬(true = false))]
      by_cases hz : isZero d = true
      · rw [if_pos hz]
        exact setFieldF_zero SC d _ hz hwd hws hty
      · rw [if_neg hz]
        cases d with
        | ptr t dtp =>
          simp only [tyOf, Ty.ptr.injEq] at hty
          subst hty
          cases stp with
          | none => exact ⟨mono_refl SC _ hwd, hwd⟩
          | some sp' =>
            obtain ⟨sa, sp⟩ := sp'
            cases sp with
            | struct ssid ssfs =>
              rw [wfV] at hws
              obtain ⟨hs1, hs2⟩ := (Bool.and_eq_true _ _).mp hws
              have hst : t = Ty.struct ssid := (beq_iff_eq.mp hs1).symm
              cases dtp with
              | none => exact absurd rfl hz
              | some dp' =>
                obtain ⟨da, dp⟩ := dp'
                rw [wfV] at hwd
                obtain ⟨hd1, hd2⟩ := (Bool.and_eq_true _ _).mp hwd
                have hdty : tyOf dp = Ty.struct ssid := by
                  rw [beq_iff_eq.mp hd1, hst]
                cases dp with
                | struct did dfs =>
                  simp only [tyOf, Ty.struct.injEq] at hdty
                  subst hdty
                  rw [wfV] at hs2 hd2
                  obtain ⟨hs2a, hs2b⟩ := (Bool.and_eq_true _ _).mp hs2
                  obtain ⟨hd2a, hd2b⟩ := (Bool.and_eq_true _ _).mp hd2
                  have hmaps : dfs.map tyOf = ssfs.map tyOf := by
                    rw [beq_iff_eq.mp hd2a, beq_iff_eq.mp hs2a]
                  obtain ⟨hm, hw⟩ := mergeFieldsF_mono_wf SC ssfs n
                    (exflags SC did) dfs hd2b hs2b hmaps
                  refine ⟨?_, ?_⟩
                  · show mono (Val.ptr t (some (da, Val.struct did dfs)))
                      (Val.ptr t (some (da, Val.struct did
                        (mergeFieldsF SC n (exflags SC did) dfs ssfs).1))) = true
                    rw [mono]
                    simp only [beq_self_eq_true, Bool.true_and]
                    rw [mono]
                    simp only [beq_self_eq_true, Bool.true_and]
                    exact hm
                  · show wfV SC (Val.ptr t (some (da, Val.struct did
                        (mergeFieldsF SC n (exflags SC did) dfs ssfs).1))) = true
                    rw [wfV]
                    refine (Bool.and_eq_true _ _).mpr ⟨?_, ?_⟩
                    · rw [show tyOf (Val.struct did
                        (mergeFieldsF SC n (exflags SC did) dfs ssfs).1) =
                        Ty.struct did from rfl, hst]
                      exact beq_self_eq_true _
                    · rw [wfV]
                      refine (Bool.and_eq_true _ _).mpr ⟨?_, hw⟩
                      rw [show (mergeFieldsF SC n (exflags SC did) dfs ssfs).1.map tyOf =
                        dfs.map tyOf from (monoL_tyOf _ _ hm).symm]
                      exact hd2a
                | int k => simp [tyOf] at hdty
                | str a => simp [tyOf] at hdty
                | bool b => simp [tyOf] at hdty
                | ptr t₂ dtp₂ => simp [tyOf] at hdty
                | map t₂ es₂ => simp [tyOf] at hdty
                | slice t₂ ys₂ => simp [tyOf] at hdty
                | iface y₂ => simp [tyOf] at hdty
            | int k => exact ⟨mono_refl SC _ hwd, hwd⟩
            | str a => exact ⟨mono_refl SC _ hwd, hwd⟩
            | bool b => exact ⟨mono_refl SC _ hwd, hwd⟩
            | ptr t₂ tp₂ => exact ⟨mono_refl SC _ hwd, hwd⟩
            | map t₂ es₂ => exact ⟨mono_refl SC _ hwd, hwd⟩
            | slice t₂ ys₂ => exact ⟨mono_refl SC _ hwd, hwd⟩
            | iface y₂ => exact ⟨mono_refl SC _ hwd, hwd⟩
        | int k => simp [tyOf] at hty
        | str a => simp [tyOf] at hty
        | bool b => simp [tyOf] at hty
        | struct id dfs => simp [tyOf] at hty
        | map t es? => simp [tyOf] at hty
        | slice t ys? => simp [tyOf] at hty
        | iface y? => simp [tyOf] at hty
  | .map mt ses?, n, ex, d, hwd, hws, hty => by
    rw [mergeFieldF.eq_def]
    cases ex with
    | false =>
      rw [if_pos rfl]
      exact ⟨mono_refl SC d hwd, hwd⟩
    | true =>
      rw [if_neg (by decide : ¬(true = false))]
      by_cases hz : isZero d = true
      · rw [if_pos hz]
        exact setFieldF_zero SC d _ hz hwd hws hty
      · rw [if_neg hz]
        cases d with
        | map t des? =>
          simp only [tyOf, Ty.map.injEq] at hty
          subst hty
          cases des? with
          | none => exact absurd rfl hz
          | some des =>
            rw [wfV] at hwd
            obtain ⟨hnd, hwdEs⟩ := (Bool.and_eq_true _ _).mp hwd
            have hndp : (des.map Prod.fst).Nodup := of_decide_eq_true hnd
            have hwsEs : wfEs SC t (ses?.getD []) = true := by
              cases ses? with
              | none => rfl
              | some ses =>
                rw [wfV] at hws
                exact ((Bool.and_eq_true _ _).mp hws).2
            refine ⟨?_, ?_⟩
            · show mono (Val.map t (some des))
                (Val.map t (some (mergeMapEntries des (ses?.getD [])))) = true
              rw [mono]
              simp only [beq_self_eq_true, Bool.true_and]
              exact mergeMapEntries_mono SC t des _ hndp hwdEs
            · show wfV SC
                (Val.map t (some (mergeMapEntries des (ses?.getD [])))) = true
              rw [wfV]
              obtain ⟨hnd', hwf'⟩ :=
                mergeMapEntries_nodup_wf SC t des (ses?.getD []) hndp hwdEs hwsEs
              exact (Bool.and_eq_true _ _).mpr ⟨decide_eq_true hnd', hwf'⟩
        | int k => simp [tyOf] at hty
        | str a => simp [tyOf] at hty
        | bool b => simp [tyOf] at hty
        | struct id dfs => simp [tyOf] at hty
        | ptr t tp => simp [tyOf] at hty
        | slice t ys? => simp [tyOf] at hty
        | iface y? => simp [tyOf] at hty
end

theorem mergeDefaultF_mono_wf (SC : Nat → List (Bool × Ty)) (n : Nat)
    (dst src : Val) (hwd : wfV SC dst = true) (hws : wfV SC src = true)
    (hty : tyOf dst = tyOf src) :
    mono dst (mergeDefaultF SC n dst src).1 = true ∧
    wfV SC (mergeDefaultF SC n dst src).1 = true := by
  cases src with
  | struct sid sfs =>
    cases dst with
    | struct id dfs =>
      simp only [tyOf, Ty.struct.injEq] at hty
      subst hty
      rw [wfV] at hwd hws
      obtain ⟨hd1, hd2⟩ := (Bool.and_eq_true _ _).mp hwd
      obtain ⟨hs1, hs2⟩ := (Bool.and_eq_true _ _).mp hws
      have hmaps : dfs.map tyOf = sfs.map tyOf := by
        rw [beq_iff_eq.mp hd1, beq_iff_eq.mp hs1]
      obtain ⟨hm, hw⟩ := mergeFieldsF_mono_wf SC sfs n (exflags SC id) dfs
        hd2 hs2 hmaps
      refine ⟨?_, ?_⟩
      · show mono (Val.struct id dfs)
          (Val.struct id (mergeFieldsF SC n (exflags SC id) dfs sfs).1) = true
        rw [mono]
        simp only [beq_self_eq_true, Bool.true_and]
        exact hm
      · show wfV SC
          (Val.struct id (mergeFieldsF SC n (exflags SC id) dfs sfs).1) = true
        rw [wfV]
        refine (Bool.and_eq_true _ _).mpr ⟨?_, hw⟩
        rw [show (mergeFieldsF SC n (exflags SC id) dfs sfs).1.map tyOf =
          dfs.map tyOf from (monoL_tyOf _ _ hm).symm]
        exact hd1
    | int k => simp [tyOf] at hty
    | str a => simp [tyOf] at hty
    | bool b => simp [tyOf] at hty
    | ptr t tp => simp [tyOf] at hty
    | map t es? => simp [tyOf] at hty
    | slice t ys? => simp [tyOf] at hty
    | iface y? => simp [tyOf] at hty
  | ptr st stp =>
    cases dst with
    | ptr t dtp =>
      simp only [tyOf, Ty.ptr.injEq] at hty
      subst hty
      cases stp with
      | none => exact ⟨mono_refl SC _ hwd, hwd⟩
      | some sp' =>
        obtain ⟨sa, sp⟩ := sp'
        cases sp with
        | struct ssid ssfs =>
          rw [wfV] at hws
          obtain ⟨hs1, hs2⟩ := (Bool.and_eq_true _ _).mp hws
          have hst : t = Ty.struct ssid := (beq_iff_eq.mp hs1).symm
          cases dtp with
          | none => exact ⟨mono_refl SC _ hwd, hwd⟩
          | some dp' =>
            obtain ⟨da, dp⟩ := dp'
            rw [wfV] at hwd
            obtain ⟨hd1, hd2⟩ := (Bool.and_eq_true _ _).mp hwd
            have hdty : tyOf dp = Ty.struct ssid := by
              rw [beq_iff_eq.mp hd1, hst]
            cases dp with
            | struct did dfs =>
              simp only [tyOf, Ty.struct.injEq] at hdty
              subst hdty
              rw [wfV] at hs2 hd2
              obtain ⟨hs2a, hs2b⟩ := (Bool.and_eq_true _ _).mp hs2
              obtain ⟨hd2a, hd2b⟩ := (Bool.and_eq_true _ _).mp hd2
              have hmaps : dfs.map tyOf = ssfs.map tyOf := by
                rw [beq_iff_eq.mp hd2a, beq_iff_eq.mp hs2a]
              obtain ⟨hm, hw⟩ := mergeFieldsF_mono_wf SC ssfs n
                (exflags SC did) dfs hd2b hs2b hmaps
              refine ⟨?_, ?_⟩
              · show mono (Val.ptr t (some (da, Val.struct did dfs)))
                  (Val.ptr t (some (da, Val.struct did
                    (mergeFieldsF SC n (exflags SC did) dfs ssfs).1))) = true
                rw [mono]
                simp only [beq_self_eq_true, Bool.true_and]
                rw [mono]
                simp only [beq_self_eq_true, Bool.true_and]
                exact hm
              · show wfV SC (Val.ptr t (some (da, Val.struct did
                    (mergeFieldsF SC n (exflags SC did) dfs ssfs).1))) = true
                rw [wfV]
                refine (Bool.and_eq_true _ _).mpr ⟨?_, ?_⟩
                · rw [show tyOf (Val.struct did
                    (mergeFieldsF SC n (exflags SC did) dfs ssfs).1) =
                    Ty.struct did from rfl, hst]
                  exact beq_self_eq_true _
                · rw [wfV]
                  refine (Bool.and_eq_true _ _).mpr ⟨?_, hw⟩
                  rw [show (mergeFieldsF SC n (exflags SC did) dfs ssfs).1.map tyOf =
                    dfs.map tyOf from (monoL_tyOf _ _ hm).symm]
                  exact hd2a
            | int k => simp [tyOf] at hdty
            | str a => simp [tyOf] at hdty
            | bool b => simp [tyOf] at hdty
            | ptr t₂ dtp₂ => simp [tyOf] at hdty
            | map t₂ es₂ => simp [tyOf] at hdty
            | slice t₂ ys₂ => simp [tyOf] at hdty
            | iface y₂ => simp [tyOf] at hdty
        | int k => exact ⟨mono_refl SC _ hwd, hwd⟩
        | str a => exact ⟨mono_refl SC _ hwd, hwd⟩
        | bool b => exact ⟨mono_refl SC _ hwd, hwd⟩
        | ptr t₂ tp₂ => exact ⟨mono_refl SC _ hwd, hwd⟩
        | map t₂ es₂ => exact ⟨mono_refl SC _ hwd, hwd⟩
        | slice t₂ ys₂ => exact ⟨mono_refl SC _ hwd, hwd⟩
        | iface y₂ => exact ⟨mono_refl SC _ hwd, hwd⟩
    | int k => simp [tyOf] at hty
    | str a => simp [tyOf] at hty
    | bool b => simp [tyOf] at hty
    | struct id dfs => simp [tyOf] at hty
    | map t es? => simp [tyOf] at hty
    | slice t ys? => simp [tyOf] at hty
    | iface y? => simp [tyOf] at hty
  | int m => exact ⟨mono_refl SC _ hwd, hwd⟩
  | str a => exact ⟨mono_refl SC _ hwd, hwd⟩
  | bool b => exact ⟨mono_refl SC _ hwd, hwd⟩
  | map t es? => exact ⟨mono_refl SC _ hwd, hwd⟩
  | slice t ys? => exact ⟨mono_refl SC _ hwd, hwd⟩
  | iface y? => exact ⟨mono_refl SC _ hwd, hwd⟩

theorem foldl_mergeDefaultF_mono_wf (SC : Nat → List (Bool × Ty)) :
    ∀ (ds : List Val) (p : Val × Nat), wfV SC p.1 = true →
      (∀ d ∈ ds, wfV SC d = true ∧ tyOf d = tyOf p.1) →
      mono p.1 (ds.foldl (fun acc d => mergeDefaultF SC acc.2 acc.1 d) p).1 = true ∧
      wfV SC (ds.foldl (fun acc d => mergeDefaultF SC acc.2 acc.1 d) p).1 = true := by
  intro ds
  induction ds with
  | nil => intro p hwp _; exact ⟨mono_refl SC p.1 hwp, hwp⟩
  | cons d rest ih =>
    intro p hwp hds
    obtain ⟨hwd, htyd⟩ := hds d (List.mem_cons_self _ _)
    obtain ⟨hm1, hw1⟩ := mergeDefaultF_mono_wf SC p.2 p.1 d hwp hwd htyd.symm
    rw [List.foldl_cons]
    have hrest : ∀ d' ∈ rest, wfV SC d' = true ∧
        tyOf d' = tyOf (mergeDefaultF SC p.2 p.1 d).1 := by
      intro d' hd'
      obtain ⟨hwd', htyd'⟩ := hds d' (List.mem_cons_of_mem _ hd')
      exact ⟨hwd', htyd'.trans (mono_tyOf _ _ hm1)⟩
    obtain ⟨hm2, hw2⟩ := ih (mergeDefaultF SC p.2 p.1 d) hw1 hrest
    exact ⟨mono_trans _ _ _ hm1 hm2, hw2⟩

theorem applyTypeDefaultsF_mono_wf (SC : Nat → List (Bool × Ty))
    (n : Nat) (v : Val) (tds : List Val) (hwv : wfV SC v = true)
    (htds : ∀ d ∈ tds, wfV SC d = true ∧ tyOf d = tyOf v) :
    mono v (applyTypeDefaultsF SC n v tds).1 = true ∧
    wfV SC (applyTypeDefaultsF SC n v tds).1 = true := by
  rw [applyTypeDefaultsF]
  exact foldl_mergeDefaultF_mono_wf SC tds.reverse (v, n) hwv
    (fun d hd => htds d (List.mem_reverse.mp hd))

theorem monoEs_cons_absent (k : String) (x' : Val) :
    ∀ es fs : List (String × Val), monoEs es fs = true → k ∉ es.map Prod.fst →
      monoEs es ((k, x') :: fs) = true := by
  intro es fs h hk
  refine monoEs_intro es _ ?_
  intro p hp
  obtain ⟨y, hy, hxy⟩ := monoEs_elim es fs h p hp
  refine ⟨y, ?_, hxy⟩
  rw [mapGet, if_neg ?_]
  · exact hy
  · intro he
    exact hk (he ▸ List.mem_map.mpr ⟨p, hp, rfl⟩)

theorem runChildrenF_mono (SC : Nat → List (Bool × Ty))
    (rec : Val → St → Except DErr (Val × St))
    (hrec : ∀ v st w st', wfV SC v = true → rec v st = .ok (w, st') →
      mono v w = true ∧ wfV SC w = true) :
    ∀ vs st vs' st', wfL SC vs = true →
      runChildrenF rec vs st = .ok (vs', st') →
      monoL vs vs' = true ∧ wfL SC vs' = true := by
  intro vs
  induction vs with
  | nil =>
    intro st vs' st' _ h
    rw [runChildrenF] at h
    simp only [Except.ok.injEq, Prod.mk.injEq] at h
    rw [← h.1]
    exact ⟨rfl, rfl⟩
  | cons v vs ih =>
    intro st vs' st' hwf h
    rw [wfL] at hwf
    obtain ⟨hw1, hwtl⟩ := (Bool.and_eq_true _ _).mp hwf
    rw [runChildrenF] at h
    cases h1 : rec v st with
    | error e => simp only [h1] at h; exact absurd h (by simp)
    | ok r1 =>
      obtain ⟨v', st₁⟩ := r1
      simp only [h1] at h
      cases h2 : runChildrenF rec vs st₁ with
      | error e => simp only [h2] at h; exact absurd h (by simp)
      | ok r2 =>
        obtain ⟨vs'', st₂⟩ := r2
        simp only [h2] at h
        simp only [Except.ok.injEq, Prod.mk.injEq] at h
        obtain ⟨hv, _⟩ := h
        rw [← hv]
        obtain ⟨hm1, hwv'⟩ := hrec v st v' st₁ hw1 h1
        obtain ⟨hm2, hwl'⟩ := ih st₁ vs'' st₂ hwtl h2
        constructor
        · rw [monoL]
          exact (Bool.and_eq_true _ _).mpr ⟨hm1, hm2⟩
        · rw [wfL]
          exact (Bool.and_eq_true _ _).mpr ⟨hwv', hwl'⟩

theorem runChildrenF_monoSl (SC : Nat → List (Bool × Ty)) (t : Ty)
    (rec : Val → St → Except DErr (Val × St))
    (hrec : ∀ v st w st', wfV SC v = true → rec v st = .ok (w, st') →
      mono v w = true ∧ wfV SC w = true) :
    ∀ vs st vs' st', wfSl SC t vs = true →
      runChildrenF rec vs st = .ok (vs', st') →
      monoL vs vs' = true ∧ wfSl SC t vs' = true := by
  intro vs
  induction vs with
  | nil =>
    intro st vs' st' _ h
    rw [runChildrenF] at h
    simp only [Except.ok.injEq, Prod.mk.injEq] at h
    rw [← h.1]
    exact ⟨rfl, rfl⟩
  | cons v vs ih =>
    intro st vs' st' hwf h
    rw [wfSl] at hwf
    obtain ⟨hw1, hwtl⟩ := (Bool.and_eq_true _ _).mp hwf
    obtain ⟨hty1, hwv⟩ := (Bool.and_eq_true _ _).mp hw1
    rw [runChildrenF] at h
    cases h1 : rec v st with
    | error e => simp only [h1] at h; exact absurd h (by simp)
    | ok r1 =>
      obtain ⟨v', st₁⟩ := r1
      simp only [h1] at h
      cases h2 : runChildrenF rec vs st₁ with
      | error e => simp only [h2] at h; exact absurd h (by simp)
      | ok r2 =>
        obtain ⟨vs'', st₂⟩ := r2
        simp only [h2] at h
        simp only [Except.ok.injEq, Prod.mk.injEq] at h
        obtain ⟨hv, _⟩ := h
        rw [← hv]
        obtain ⟨hm1, hwv'⟩ := hrec v st v' st₁ hwv h1
        obtain ⟨hm2, hwl'⟩ := ih st₁ vs'' st₂ hwtl h2
        constructor
        · rw [monoL]
          exact (Bool.and_eq_true _ _).mpr ⟨hm1, hm2⟩
        · rw [wfSl]
          refine (Bool.and_eq_true _ _).mpr ⟨?_, hwl'⟩
          refine (Bool.and_eq_true _ _).mpr ⟨?_, hwv'⟩
          rw [show tyOf v' = tyOf v from (mono_tyOf _ _ hm1).symm]
          exact hty1

theorem runEntriesF_mono (SC : Nat → List (Bool × Ty)) (t : Ty)
    (rec : Val → St → Except DErr (Val × St))
    (hrec : ∀ v st w st', wfV SC v = true → rec v st = .ok (w, st') →
      mono v w = true ∧ wfV SC w = true) :
    ∀ es st es' st', (es.map Prod.fst).Nodup → wfEs SC t es = true →
      runEntriesF rec es st = .ok (es', st') →
      es'.map Prod.fst = es.map Prod.fst ∧ monoEs es es' = true ∧
      wfEs SC t es' = true := by
  intro es
  induction es with
  | nil =>
    intro st es' st' _ _ h
    rw [runEntriesF] at h
    simp only [Except.ok.injEq, Prod.mk.injEq] at h
    rw [← h.1]
    exact ⟨rfl, rfl, rfl⟩
  | cons hd tl ih =>
    intro st es' st' hnd hwf h
    obtain ⟨k, x⟩ := hd
    simp only [List.map_cons, List.nodup_cons] at hnd
    rw [wfEs] at hwf
    obtain ⟨hw1, hwtl⟩ := (Bool.and_eq_true _ _).mp hwf
    obtain ⟨hty1, hwx⟩ := (Bool.and_eq_true _ _).mp hw1
    rw [runEntriesF] at h
    cases h1 : rec x st with
    | error e => simp only [h1] at h; exact absurd h (by simp)
    | ok r1 =>
      obtain ⟨x', st₁⟩ := r1
      simp only [h1] at h
      cases h2 : runEntriesF rec tl st₁ with
      | error e => simp only [h2] at h; exact absurd h (by simp)
      | ok r2 =>
        obtain ⟨tl', st₂⟩ := r2
        simp only [h2] at h
        simp only [Except.ok.injEq, Prod.mk.injEq] at h
        obtain ⟨hes, _⟩ := h
        rw [← hes]
        obtain ⟨hmx, hwx'⟩ := hrec x st x' st₁ hwx h1
        obtain ⟨hkeys, hmtl, hwtl'⟩ := ih st₁ tl' st₂ hnd.2 hwtl h2
        refine ⟨?_, ?_, ?_⟩
        · simp only [List.map_cons, hkeys]
        · rw [monoEs, mapGet, if_pos rfl]
          refine (Bool.and_eq_true _ _).mpr ⟨hmx, ?_⟩
          exact monoEs_cons_absent k x' tl tl' hmtl hnd.1
        · rw [wfEs]
          refine (Bool.and_eq_true _ _).mpr ⟨?_, hwtl'⟩
          refine (Bool.and_eq_true _ _).mpr ⟨?_, hwx'⟩
          rw [show tyOf x' = tyOf x from (mono_tyOf _ _ hmx).symm]
          exact hty1

theorem applyMapDefaultsF_mono (SC : Nat → List (Bool × Ty)) (t : Ty)
    (es : List (String × Val)) (ds : List Val)
    (hnd : (es.map Prod.fst).Nodup) (hwf : wfEs SC t es = true) :
    monoEs es (applyMapDefaultsF es ds) = true := by
  refine monoEs_intro es _ ?_
  intro p hp
  refine ⟨p.2, ?_, mono_refl SC p.2 (wfEs_mem SC t es hwf p hp).2⟩
  rw [applyMapDefaultsF_get p.1 ds es]
  rw [mapGet_first_of_nodup p.1 p.2 es hnd hp]

theorem applyMapDefaultsF_nodup_wf (SC : Nat → List (Bool × Ty)) (t : Ty) :
    ∀ (ds : List Val) (es : List (String × Val)),
      (es.map Prod.fst).Nodup → wfEs SC t es = true →
      (∀ d ∈ ds, wfV SC d = true ∧ tyOf d = Ty.map t) →
      ((applyMapDefaultsF es ds).map Prod.fst).Nodup ∧
      wfEs SC t (applyMapDefaultsF es ds) = true := by
  intro ds
  induction ds with
  | nil => intro es hnd hwf _; exact ⟨hnd, hwf⟩
  | cons d rest ih =>
    intro es hnd hwf hds
    obtain ⟨hwd, htyd⟩ := hds d (List.mem_cons_self _ _)
    have hrest : ∀ d' ∈ rest, wfV SC d' = true ∧ tyOf d' = Ty.map t :=
      fun d' hd' => hds d' (List.mem_cons_of_mem _ hd')
    cases d with
    | map t' des? =>
      have ht : t' = t := by simpa [tyOf] using htyd
      subst ht
      cases des? with
      | none =>
        rw [show applyMapDefaultsF es (Val.map t' none :: rest) =
          applyMapDefaultsF es rest from rfl]
        exact ih es hnd hwf hrest
      | some des =>
        rw [show applyMapDefaultsF es (Val.map t' (some des) :: rest) =
          applyMapDefaultsF (des.foldl
            (fun acc2 kv => if (mapGet kv.1 acc2).isSome then acc2 else acc2 ++ [kv])
            es) rest from rfl]
        rw [wfV] at hwd
        obtain ⟨_, hwdes⟩ := (Bool.and_eq_true _ _).mp hwd
        obtain ⟨hnd', hwf'⟩ := insertAbsent_nodup_wf SC t' des es hnd hwf hwdes
        exact ih _ hnd' hwf' hrest
    | int k => simp [tyOf] at htyd
    | str a => simp [tyOf] at htyd
    | bool b => simp [tyOf] at htyd
    | struct id dfs => simp [tyOf] at htyd
    | ptr t' tp => simp [tyOf] at htyd
    | slice t' ys? => simp [tyOf] at htyd
    | iface y? => simp [tyOf] at htyd

theorem runRec_mono (SC : Nat → List (Bool × Ty)) (R : Ty → List Val)
    (hreg : regOK SC R) :
    ∀ (fuel : Nat) (v : Val) (st : St) (w : Val) (st' : St),
      wfV SC v = true → runRec SC R fuel v st = .ok (w, st') →
      mono v w = true ∧ wfV SC w = true := by
  intro fuel
  induction fuel with
  | zero =>
    intro v st w st' _ h
    rw [runRec] at h
    exact absurd h (by simp)
  | succ f ih =>
    intro v st w st' hwv hrun
    rw [runRec] at hrun
    cases hcc : checkCircularReferenceF v st.vis with
    | error e =>
      simp only [hcc] at hrun
      exact absurd hrun (by simp)
    | ok vis' =>
      obtain ⟨hmono, hmwf⟩ := applyTypeDefaultsF_mono_wf SC st.nxt v (R (tyOf v))
        hwv (fun d hd => hreg (tyOf v) d hd)
      cases hM : applyTypeDefaultsF SC st.nxt v (R (tyOf v)) with
      | mk mv mn =>
        simp only [hM] at hmono hmwf
        cases mv with
        | int m =>
          simp only [hcc, hM] at hrun
          simp only [Except.ok.injEq, Prod.mk.injEq] at hrun
          rw [← hrun.1]
          exact ⟨hmono, hmwf⟩
        | str a =>
          simp only [hcc, hM] at hrun
          simp only [Except.ok.injEq, Prod.mk.injEq] at hrun
          rw [← hrun.1]
          exact ⟨hmono, hmwf⟩
        | bool b =>
          simp only [hcc, hM] at hrun
          simp only [Except.ok.injEq, Prod.mk.injEq] at hrun
          rw [← hrun.1]
          exact ⟨hmono, hmwf⟩
        | struct id fs =>
          simp only [hcc, hM] at hrun
          rw [wfV] at hmwf
          obtain ⟨hsch, hwfl⟩ := (Bool.and_eq_true _ _).mp hmwf
          cases hrc : runChildrenF (runRec SC R f) fs ⟨vis', mn⟩ with
          | error e => simp only [hrc] at hrun; exact absurd hrun (by simp)
          | ok r =>
            obtain ⟨fs', st₂⟩ := r
            simp only [hrc, Except.ok.injEq, Prod.mk.injEq] at hrun
            rw [← hrun.1]
            obtain ⟨hml, hwl'⟩ := runChildrenF_mono SC (runRec SC R f) ih
              fs ⟨vis', mn⟩ fs' st₂ hwfl hrc
            refine ⟨mono_trans _ _ _ hmono ?_, ?_⟩
            · rw [mono]
              simp only [beq_self_eq_true, Bool.true_and]
              exact hml
            · rw [wfV]
              refine (Bool.and_eq_true _ _).mpr ⟨?_, hwl'⟩
              rw [show fs'.map tyOf = fs.map tyOf from (monoL_tyOf _ _ hml).symm]
              exact hsch
        | slice t xs? =>
          cases xs? with
          | none =>
            simp only [hcc, hM] at hrun
            simp only [Except.ok.injEq, Prod.mk.injEq] at hrun
            rw [← hrun.1]
            exact ⟨hmono, hmwf⟩
          | some xs =>
            simp only [hcc, hM] at hrun
            rw [wfV] at hmwf
            cases hrc : runChildrenF (runRec SC R f) xs ⟨vis', mn⟩ with
            | error e => simp only [hrc] at hrun; exact absurd hrun (by simp)
            | ok r =>
              obtain ⟨xs', st₂⟩ := r
              simp only [hrc, Except.ok.injEq, Prod.mk.injEq] at hrun
              rw [← hrun.1]
              obtain ⟨hml, hwl'⟩ := runChildrenF_monoSl SC t (runRec SC R f) ih
                xs ⟨vis', mn⟩ xs' st₂ hmwf hrc
              refine ⟨mono_trans _ _ _ hmono ?_, ?_⟩
              · rw [mono]
                simp only [beq_self_eq_true, Bool.true_and]
                exact hml
              · rw [wfV]
                exact hwl'
        | map t es? =>
          simp only [hcc, hM] at hrun
          have hprops : ((es?.getD []).map Prod.fst).Nodup ∧
              wfEs SC t (es?.getD []) = true := by
            cases es? with
            | none => exact ⟨List.nodup_nil, rfl⟩
            | some es =>
              rw [wfV] at hmwf
              obtain ⟨h1, h2⟩ := (Bool.and_eq_true _ _).mp hmwf
              exact ⟨of_decide_eq_true h1, h2⟩
          cases hre : runEntriesF (runRec SC R f) (es?.getD []) ⟨vis', mn⟩ with
          | error e => simp only [hre] at hrun; exact absurd hrun (by simp)
          | ok r =>
            obtain ⟨es', st₂⟩ := r
            simp only [hre, Except.ok.injEq, Prod.mk.injEq] at hrun
            rw [← hrun.1]
            obtain ⟨hkeys, hmes, hwes⟩ := runEntriesF_mono SC t (runRec SC R f) ih
              (es?.getD []) ⟨vis', mn⟩ es' st₂ hprops.1 hprops.2 hre
            have hnd' : (es'.map Prod.fst).Nodup := by rw [hkeys]; exact hprops.1
            have hds : ∀ d ∈ R (Ty.map t), wfV SC d = true ∧ tyOf d = Ty.map t :=
              fun d hd => hreg (Ty.map t) d hd
            obtain ⟨hndA, hwfA⟩ :=
              applyMapDefaultsF_nodup_wf SC t (R (Ty.map t)) es' hnd' hwes hds
            have hmesA := applyMapDefaultsF_mono SC t es' (R (Ty.map t)) hnd' hwes
            refine ⟨mono_trans _ _ _ hmono ?_, ?_⟩
            · cases es? with
              | none =>
                rw [mono]
                exact beq_self_eq_true t
              | some es =>
                rw [mono]
                simp only [beq_self_eq_true, Bool.true_and]
                exact monoEs_trans es es' _ hmes hmesA
            · rw [wfV]
              exact (Bool.and_eq_true _ _).mpr ⟨decide_eq_true hndA, hwfA⟩
        | ptr t tp =>
          cases tp with
          | none =>
            simp only [hcc, hM] at hrun
            simp only [Except.ok.injEq, Prod.mk.injEq] at hrun
            rw [← hrun.1]
            exact ⟨hmono, hmwf⟩
          | some ap =>
            obtain ⟨a, p⟩ := ap
            simp only [hcc, hM] at hrun
            rw [wfV] at hmwf
            obtain ⟨hp1, hp2⟩ := (Bool.and_eq_true _ _).mp hmwf
            cases hrp : runRec SC R f p ⟨vis', mn⟩ with
            | error e => simp only [hrp] at hrun; exact absurd hrun (by simp)
            | ok r =>
              obtain ⟨p', st₂⟩ := r
              simp only [hrp, Except.ok.injEq, Prod.mk.injEq] at hrun
              rw [← hrun.1]
              obtain ⟨hmp, hwp'⟩ := ih p ⟨vis', mn⟩ p' st₂ hp2 hrp
              refine ⟨mono_trans _ _ _ hmono ?_, ?_⟩
              · rw [mono]
                simp only [beq_self_eq_true, Bool.true_and]
                exact hmp
              · rw [wfV]
                refine (Bool.and_eq_true _ _).mpr ⟨?_, hwp'⟩
                rw [show tyOf p' = tyOf p from (mono_tyOf _ _ hmp).symm]
                exact hp1
        | iface x? =>
          cases x? with
          | none =>
            simp only [hcc, hM] at hrun
            simp only [Except.ok.injEq, Prod.mk.injEq] at hrun
            rw [← hrun.1]
            exact ⟨hmono, hmwf⟩
          | some x =>
            simp only [hcc, hM] at hrun
            rw [wfV] at hmwf
            cases hrx : runRec SC R f x ⟨vis', mn⟩ with
            | error e => simp only [hrx] at hrun; exact absurd hrun (by simp)
            | ok r =>
              obtain ⟨x', st₂⟩ := r
              simp only [hrx, Except.ok.injEq, Prod.mk.injEq] at hrun
              rw [← hrun.1]
              obtain ⟨hmx, hwx'⟩ := ih x ⟨vis', mn⟩ x' st₂ hmwf hrx
              refine ⟨mono_trans _ _ _ hmono ?_, ?_⟩
              · rw [mono]
                exact hmx
              · rw [wfV]
                exact hwx'

/-- C2 (amended): the claim as stated fails (see the counterexample: a
non-zero composite field is recursed into and its zero subparts are
filled), but the following frame property holds.  For every well-typed
registry and every well-formed config on which `applyDefaults` succeeds,
the result is a monotone refinement of the input: every position that was
non-zero before the merge keeps its constructor, every non-zero scalar is
bit-for-bit unchanged, pointer addresses, struct identities and field
counts, slice lengths and existing map keys are all preserved — the merge
only fills zero positions, materializes nil maps and adds absent map keys —
and the result is again well-formed. -/
theorem claim_C2_amended_monotone_refinement
    (SC : Nat → List (Bool × Ty)) (R : Ty → List Val) (fuel n₀ : Nat)
    (cfg w : Val) (st : St)
    (hreg : regOK SC R) (hwf : wfV SC cfg = true)
    (hrun : applyDefaultsF SC R fuel n₀ cfg = .ok (w, st)) :
    mono cfg w = true ∧ wfV SC w = true := by
  cases cfg with
  | ptr t tp =>
    cases tp with
    | none =>
      exact absurd (show (Except.error DErr.nilConfig : Except DErr (Val × St)) =
        .ok (w, st) from hrun) (by simp)
    | some ip =>
      obtain ⟨a, inner⟩ := ip
      simp only [applyDefaultsF] at hrun
      cases hr : runRec SC R fuel inner ⟨[], n₀⟩ with
      | error e =>
        simp only [hr] at hrun
        exact absurd hrun (by simp)
      | ok r =>
        obtain ⟨w', st₂⟩ := r
        simp only [hr, Except.ok.injEq, Prod.mk.injEq] at hrun
        rw [← hrun.1]
        rw [wfV] at hwf
        obtain ⟨h1, h2⟩ := (Bool.and_eq_true _ _).mp hwf
        obtain ⟨hm, hw'⟩ := runRec_mono SC R hreg fuel inner ⟨[], n₀⟩ w' st₂ h2 hr
        refine ⟨?_, ?_⟩
        · rw [mono]
          simp only [beq_self_eq_true, Bool.true_and]
          exact hm
        · rw [wfV]
          refine (Bool.and_eq_true _ _).mpr ⟨?_, hw'⟩
          rw [show tyOf w' = tyOf inner from (mono_tyOf _ _ hm).symm]
          exact h1
  | int m =>
    exact absurd (show (Except.error DErr.notPointer : Except DErr (Val × St)) =
      .ok (w, st) from hrun) (by simp)
  | str a =>
    exact absurd (show (Except.error DErr.notPointer : Except DErr (Val × St)) =
      .ok (w, st) from hrun) (by simp)
  | bool b =>
    exact absurd (show (Except.error DErr.notPointer : Except DErr (Val × St)) =
      .ok (w, st) from hrun) (by simp)
  | struct id fs =>
    exact absurd (show (Except.error DErr.notPointer : Except DErr (Val × St)) =
      .ok (w, st) from hrun) (by simp)
  | map t es? =>
    exact absurd (show (Except.error DErr.notPointer : Except DErr (Val × St)) =
      .ok (w, st) from hrun) (by simp)
  | slice t xs? =>
    exact absurd (show (Except.error DErr.notPointer : Except DErr (Val × St)) =
      .ok (w, st) from hrun) (by simp)
  | iface x? =>
    exact absurd (show (Except.error DErr.notPointer : Except DErr (Val × St)) =
      .ok (w, st) from hrun) (by simp)

/-- C2 (amended) witnessed: a config with zero Name and Timeout and a
registered default for its type — the merged result refines the input
monotonically and is well-formed. -/
theorem claim_C2_amended_witness :
    mono (.ptr (.struct 1) (some (1, .struct 1 [.str "", .int 0])))
        (.ptr (.struct 1) (some (1, .struct 1 [.str "d", .int 3]))) = true ∧
    wfV (fun id => if id = 1 then [(true, Ty.str), (true, Ty.int)] else [])
        (.ptr (.struct 1) (some (1, .struct 1 [.str "d", .int 3]))) = true :=
  claim_C2_amended_monotone_refinement
    (fun id => if id = 1 then [(true, Ty.str), (true, Ty.int)] else [])
    (fun t => match t with
      | Ty.struct 1 => [Val.struct 1 [.str "d", .int 3]]
      | _ => [])
    4 50
    (.ptr (.struct 1) (some (1, .struct 1 [.str "", .int 0])))
    (.ptr (.struct 1) (some (1, .struct 1 [.str "d", .int 3])))
    ⟨[], 50⟩
    (by
      intro t d hd
      cases t with
      | int => exact absurd hd (List.not_mem_nil d)
      | str => exact absurd hd (List.not_mem_nil d)
      | bool => exact absurd hd (List.not_mem_nil d)
      | ptr t' => exact absurd hd (List.not_mem_nil d)
      | map t' => exact absurd hd (List.not_mem_nil d)
      | slice t' => exact absurd hd (List.not_mem_nil d)
      | iface => exact absurd hd (List.not_mem_nil d)
      | struct id =>
        match id, hd with
        | 0, hd => exact absurd hd (List.not_mem_nil d)
        | 1, hd =>
          rw [List.mem_singleton] at hd
          subst hd
          exact ⟨by decide, rfl⟩
        | n + 2, hd => exact absurd hd (List.not_mem_nil d))
    (by decide)
    rfl

theorem mergeDefaultF_ptrnone_inert (SC : Nat → List (Bool × Ty)) (n : Nat)
    (t : Ty) (d : Val) :
    mergeDefaultF SC n (.ptr t none) d = (.ptr t none, n) := by
  cases d with
  | ptr t' tp =>
    match tp with
    | none => rfl
    | some (a, p) => cases p <;> rfl
  | _ => rfl

theorem mergeDefaultF_slice_inert (SC : Nat → List (Bool × Ty)) (n : Nat)
    (t : Ty) (xs? : Option (List Val)) (d : Val) :
    mergeDefaultF SC n (.slice t xs?) d = (.slice t xs?, n) := by
  cases d with
  | ptr t' tp =>
    match tp with
    | none => rfl
    | some (a, p) => cases p <;> rfl
  | _ => rfl

theorem mergeDefaultF_iface_inert (SC : Nat → List (Bool × Ty)) (n : Nat)
    (x? : Option Val) (d : Val) :
    mergeDefaultF SC n (.iface x?) d = (.iface x?, n) := by
  cases d with
  | ptr t' tp =>
    match tp with
    | none => rfl
    | some (a, p) => cases p <;> rfl
  | _ => rfl

mutual
theorem mono_isZero_rev : ∀ x y : Val, mono x y = true → isZero y = true →
    isZero x = true
  | .int a, y, hm, hz => by
    cases y with
    | int b =>
      rw [mono] at hm
      rw [isZero] at hz ⊢
      rcases (Bool.or_eq_true _ _).mp hm with h | h
      · rw [beq_iff_eq.mp h]; exact hz
      · exact h
    | _ => simp [mono] at hm
  | .str a, y, hm, hz => by
    cases y with
    | str b =>
      rw [mono] at hm
      rw [isZero] at hz ⊢
      rcases (Bool.or_eq_true _ _).mp hm with h | h
      · rw [beq_iff_eq.mp h]; exact hz
      · exact h
    | _ => simp [mono] at hm
  | .bool a, y, hm, hz => by
    cases y with
    | bool b =>
      rw [mono] at hm
      rw [isZero] at hz ⊢
      rcases (Bool.or_eq_true _ _).mp hm with h | h
      · rw [beq_iff_eq.mp h]; exact hz
      · exact h
    | _ => simp [mono] at hm
  | .struct i fs, y, hm, hz => by
    cases y with
    | struct j gs =>
      rw [mono] at hm
      obtain ⟨_, hml⟩ := (Bool.and_eq_true _ _).mp hm
      rw [isZero] at hz ⊢
      exact monoL_isZero_rev fs gs hml hz
    | _ => simp [mono] at hm
  | .ptr t none, _, _, _ => rfl
  | .ptr t (some p), y, hm, hz => by
    cases y with
    | ptr t' tp' =>
      cases tp' with
      | none => obtain ⟨a, pp⟩ := p; simp [mono] at hm
      | some q => simp [isZero] at hz
    | _ => obtain ⟨a, pp⟩ := p; simp [mono] at hm
  | .map t none, _, _, _ => rfl
  | .map t (some es), y, hm, hz => by
    cases y with
    | map t' es? =>
      cases es? with
      | none => simp [mono] at hm
      | some fs => simp [isZero] at hz
    | _ => simp [mono] at hm
  | .slice t none, _, _, _ => rfl
  | .slice t (some xs), y, hm, hz => by
    cases y with
    | slice t' xs? =>
      cases xs? with
      | none => simp [mono] at hm
      | some ys => simp [isZero] at hz
    | _ => simp [mono] at hm
  | .iface none, _, _, _ => rfl
  | .iface (some x), y, hm, hz => by
    cases y with
    | iface x? =>
      cases x? with
      | none => simp [mono] at hm
      | some y' => simp [isZero] at hz
    | _ => simp [mono] at hm

theorem monoL_isZero_rev : ∀ xs ys : List Val, monoL xs ys = true →
    isZeroL ys = true → isZeroL xs = true
  | [], _, _, _ => rfl
  | x :: xs, ys, hm, hz => by
    cases ys with
    | nil => simp [monoL] at hm
    | cons y ys =>
      rw [monoL] at hm
      obtain ⟨h1, h2⟩ := (Bool.and_eq_true _ _).mp hm
      rw [isZeroL] at hz ⊢
      obtain ⟨hz1, hz2⟩ := (Bool.and_eq_true _ _).mp hz
      exact (Bool.and_eq_true _ _).mpr
        ⟨mono_isZero_rev x y h1 hz1, monoL_isZero_rev xs ys h2 hz2⟩
end

mutual
theorem zero_nnm_unique (SC : Nat → List (Bool × Ty)) :
    ∀ w d : Val, isZero w = true → nnm w = true → isZero d = true →
      wfV SC w = true → wfV SC d = true → tyOf w = tyOf d → d = w
  | .int b, d, hz, _, hzd, _, _, hty => by
    cases d with
    | int a =>
      rw [isZero] at hz hzd
      rw [beq_iff_eq.mp hz, beq_iff_eq.mp hzd]
    | _ => simp [tyOf] at hty
  | .str b, d, hz, _, hzd, _, _, hty => by
    cases d with
    | str a =>
      rw [isZero] at hz hzd
      rw [beq_iff_eq.mp hz, beq_iff_eq.mp hzd]
    | _ => simp [tyOf] at hty
  | .bool b, d, hz, _, hzd, _, _, hty => by
    cases d with
    | bool a =>
      rw [isZero] at hz hzd
      rw [beq_iff_eq.mp hz, beq_iff_eq.mp hzd]
    | _ => simp [tyOf] at hty
  | .struct id gs, d, hz, hnm, hzd, hww, hwd, hty => by
    cases d with
    | struct i fs =>
      simp only [tyOf, Ty.struct.injEq] at hty
      subst hty
      rw [isZero] at hz hzd
      rw [nnm] at hnm
      rw [wfV] at hww hwd
      obtain ⟨hw1, hw2⟩ := (Bool.and_eq_true _ _).mp hww
      obtain ⟨hd1, hd2⟩ := (Bool.and_eq_true _ _).mp hwd
      have hmaps : gs.map tyOf = fs.map tyOf := by
        rw [beq_iff_eq.mp hw1, beq_iff_eq.mp hd1]
      rw [zeroL_nnm_unique SC gs fs hz hnm hzd hw2 hd2 hmaps]
    | _ => simp [tyOf] at hty
  | .ptr t tp, d, hz, _, hzd, _, _, hty => by
    cases d with
    | ptr t' tp' =>
      simp only [tyOf, Ty.ptr.injEq] at hty
      subst hty
      cases tp with
      | none =>
        cases tp' with
        | none => rfl
        | some q => simp [isZero] at hzd
      | some p => simp [isZero] at hz
    | _ => simp [tyOf] at hty
  | .map t es?, d, hz, hnm, _, _, _, _ => by
    cases es? with
    | none => simp [nnm] at hnm
    | some es => simp [isZero] at hz
  | .slice t xs?, d, hz, _, hzd, _, _, hty => by
    cases d with
    | slice t' ys? =>
      simp only [tyOf, Ty.slice.injEq] at hty
      subst hty
      cases xs? with
      | none =>
        cases ys? with
        | none => rfl
        | some ys => simp [isZero] at hzd
      | some xs => simp [isZero] at hz
    | _ => simp [tyOf] at hty
  | .iface x?, d, hz, _, hzd, _, _, hty => by
    cases d with
    | iface y? =>
      cases x? with
      | none =>
        cases y? with
        | none => rfl
        | some y => simp [isZero] at hzd
      | some x => simp [isZero] at hz
    | _ => simp [tyOf] at hty

theorem zeroL_nnm_unique (SC : Nat → List (Bool × Ty)) :
    ∀ ws ds : List Val, isZeroL ws = true → nnmL ws = true → isZeroL ds = true →
      wfL SC ws = true → wfL SC ds = true → ws.map tyOf = ds.map tyOf → ds = ws
  | [], ds, _, _, _, _, _, hty => by
    cases ds with
    | nil => rfl
    | cons d ds => simp at hty
  | w :: ws, ds, hz, hnm, hzd, hww, hwd, hty => by
    cases ds with
    | nil => simp at hty
    | cons d ds =>
      rw [isZeroL] at hz hzd
      rw [nnmL] at hnm
      rw [wfL] at hww hwd
      obtain ⟨hz1, hz2⟩ := (Bool.and_eq_true _ _).mp hz
      obtain ⟨hzd1, hzd2⟩ := (Bool.and_eq_true _ _).mp hzd
      obtain ⟨hnm1, hnm2⟩ := (Bool.and_eq_true _ _).mp hnm
      obtain ⟨hww1, hww2⟩ := (Bool.and_eq_true _ _).mp hww
      obtain ⟨hwd1, hwd2⟩ := (Bool.and_eq_true _ _).mp hwd
      simp only [List.map_cons, List.cons.injEq] at hty
      rw [zero_nnm_unique SC w d hz1 hnm1 hzd1 hww1 hwd1 hty.1,
        zeroL_nnm_unique SC ws ds hz2 hnm2 hzd2 hww2 hwd2 hty.2]
end

theorem mapGet_isSome_of_mem (k : String) (x : Val) :
    ∀ es : List (String × Val), (k, x) ∈ es → (mapGet k es).isSome = true := by
  intro es
  induction es with
  | nil => intro h; simp at h
  | cons hd tl ih =>
    intro h
    obtain ⟨k', v'⟩ := hd
    by_cases hk : k' = k
    · subst hk; rw [mapGet, if_pos rfl]; rfl
    · rw [mapGet, if_neg hk]
      rcases List.mem_cons.mp h with heq | hmem
      · exact absurd (congrArg Prod.fst heq).symm hk
      · exact ih hmem

theorem covKeys_intro : ∀ es fs : List (String × Val),
    (∀ p ∈ es, (mapGet p.1 fs).isSome = true) → covKeys es fs = true := by
  intro es
  induction es with
  | nil => intro fs _; rfl
  | cons hd tl ih =>
    intro fs h
    obtain ⟨k, x⟩ := hd
    rw [covKeys]
    exact (Bool.and_eq_true _ _).mpr
      ⟨h (k, x) (List.mem_cons_self _ _),
       ih fs (fun p hp => h p (List.mem_cons_of_mem _ hp))⟩

theorem covKeys_elim : ∀ es fs : List (String × Val), covKeys es fs = true →
    ∀ p ∈ es, (mapGet p.1 fs).isSome = true := by
  intro es
  induction es with
  | nil => intro fs _ p hp; simp at hp
  | cons hd tl ih =>
    intro fs h p hp
    obtain ⟨k, x⟩ := hd
    rw [covKeys] at h
    obtain ⟨h1, h2⟩ := (Bool.and_eq_true _ _).mp h
    rcases List.mem_cons.mp hp with heq | hmem
    · subst heq; exact h1
    · exact ih fs h2 p hmem

theorem covKeys_refl (es : List (String × Val)) : covKeys es es = true :=
  covKeys_intro es es (fun p hp => mapGet_isSome_of_mem p.1 p.2 es hp)

theorem covKeys_monoEs : ∀ es fs gs : List (String × Val),
    covKeys es fs = true → monoEs fs gs = true → covKeys es gs = true := by
  intro es fs gs hc hm
  refine covKeys_intro es gs ?_
  intro p hp
  obtain ⟨y, hy⟩ := Option.isSome_iff_exists.mp (covKeys_elim es fs hc p hp)
  obtain ⟨z, hz, _⟩ := monoEs_elim fs gs hm (p.1, y) (mapGet_mem p.1 fs y hy)
  rw [hz]
  rfl

mutual
theorem cov_refl (SC : Nat → List (Bool × Ty)) : ∀ v : Val, cov SC v v = true
  | .int a => by
    show (!(a == 0) || (a == 0)) = true
    exact Bool.not_or_self _
  | .str a => by
    show (!(a == "") || (a == "")) = true
    exact Bool.not_or_self _
  | .bool a => by
    show (!(a == false) || (a == false)) = true
    exact Bool.not_or_self _
  | .struct id fs => by
    show (covL SC (exflags SC id) fs fs && (!(isZeroL fs) || isZeroL fs)) = true
    exact (Bool.and_eq_true _ _).mpr ⟨covL_refl SC (exflags SC id) fs, Bool.not_or_self _⟩
  | .ptr t none => rfl
  | .ptr t (some (a, p)) => by
    cases p with
    | struct id pfs =>
      show covL SC (exflags SC id) pfs pfs = true
      exact covL_refl SC (exflags SC id) pfs
    | int m => rfl
    | str s => rfl
    | bool b => rfl
    | ptr t' tp => rfl
    | map t' es? => rfl
    | slice t' xs? => rfl
    | iface x? => rfl
  | .map t none => rfl
  | .map t (some es) => by
    show covKeys es es = true
    exact covKeys_refl es
  | .slice t none => rfl
  | .slice t (some xs) => rfl
  | .iface none => rfl
  | .iface (some x) => rfl

theorem covL_refl (SC : Nat → List (Bool × Ty)) :
    ∀ (flags : List Bool) (fs : List Val), covL SC flags fs fs = true
  | [], [] => rfl
  | [], f :: fs => rfl
  | ex :: exs, [] => rfl
  | ex :: exs, f :: fs => by
    rw [covL]
    refine (Bool.and_eq_true _ _).mpr ⟨?_, covL_refl SC exs fs⟩
    cases ex with
    | false => rfl
    | true =>
      show (!true || cov SC f f) = true
      rw [Bool.not_true, Bool.false_or]
      exact cov_refl SC f
end

theorem mergeMapEntries_covered : ∀ ses ges : List (String × Val),
    covKeys ses ges = true → mergeMapEntries ges ses = ges := by
  intro ses
  induction ses with
  | nil => intro ges _; rfl
  | cons hd tl ih =>
    intro ges hc
    obtain ⟨k, x⟩ := hd
    rw [covKeys] at hc
    obtain ⟨h1, h2⟩ := (Bool.and_eq_true _ _).mp hc
    rw [show mergeMapEntries ges ((k, x) :: tl) =
      tl.foldl (fun acc kv => if (mapGet kv.1 acc).isSome then acc else acc ++ [kv])
        (if (mapGet k ges).isSome then ges else ges ++ [(k, x)]) from rfl]
    rw [if_pos h1]
    exact ih ges h2

mutual
theorem cov_mono (SC : Nat → List (Bool × Ty)) :
    ∀ x y z : Val, cov SC x y = true → mono y z = true → cov SC x z = true
  | .int a, y, z, hc, hm => by
    cases y <;> try exact Bool.noConfusion hc
    rename_i b
    cases z <;> try exact Bool.noConfusion hm
    rename_i c
    rw [mono] at hm
    show (!(c == 0) || (a == 0)) = true
    have hc' : (!(b == 0) || (a == 0)) = true := hc
    rcases (Bool.or_eq_true _ _).mp hm with h | h
    · rw [← beq_iff_eq.mp h]
      exact hc'
    · rw [beq_iff_eq.mp h] at hc'
      simp only [beq_self_eq_true, Bool.not_true, Bool.false_or] at hc'
      simp [hc']
  | .str a, y, z, hc, hm => by
    cases y <;> try exact Bool.noConfusion hc
    rename_i b
    cases z <;> try exact Bool.noConfusion hm
    rename_i c
    rw [mono] at hm
    show (!(c == "") || (a == "")) = true
    have hc' : (!(b == "") || (a == "")) = true := hc
    rcases (Bool.or_eq_true _ _).mp hm with h | h
    · rw [← beq_iff_eq.mp h]
      exact hc'
    · rw [beq_iff_eq.mp h] at hc'
      simp only [beq_self_eq_true, Bool.not_true, Bool.false_or] at hc'
      simp [hc']
  | .bool a, y, z, hc, hm => by
    cases y <;> try exact Bool.noConfusion hc
    rename_i b
    cases z <;> try exact Bool.noConfusion hm
    rename_i c
    rw [mono] at hm
    show (!(c == false) || (a == false)) = true
    have hc' : (!(b == false) || (a == false)) = true := hc
    rcases (Bool.or_eq_true _ _).mp hm with h | h
    · rw [← beq_iff_eq.mp h]
      exact hc'
    · rw [beq_iff_eq.mp h] at hc'
      simp only [beq_self_eq_true, Bool.not_true, Bool.false_or] at hc'
      simp [hc']
  | .struct i fs, y, z, hc, hm => by
    cases y <;> try exact Bool.noConfusion hc
    rename_i j gs
    cases z <;> try exact Bool.noConfusion hm
    rename_i k hs
    rw [mono] at hm
    obtain ⟨hjk, hml⟩ := (Bool.and_eq_true _ _).mp hm
    have hc' : (covL SC (exflags SC j) fs gs && (!(isZeroL gs) || isZeroL fs)) = true := hc
    obtain ⟨hcl, hcz⟩ := (Bool.and_eq_true _ _).mp hc'
    rw [← beq_iff_eq.mp hjk]
    show (covL SC (exflags SC j) fs hs && (!(isZeroL hs) || isZeroL fs)) = true
    refine (Bool.and_eq_true _ _).mpr
      ⟨covL_mono SC (exflags SC j) fs gs hs hcl hml, ?_⟩
    by_cases hzh : isZeroL hs = true
    · rw [hzh]
      have hzg : isZeroL gs = true := monoL_isZero_rev gs hs hml hzh
      rw [hzg] at hcz
      simp only [Bool.not_true, Bool.false_or] at hcz
      simp [hcz]
    · rw [Bool.not_eq_true] at hzh
      rw [hzh]
      rfl
  | .ptr tx none, y, z, hc, hm => by
    cases y <;> try exact Bool.noConfusion hc
    rename_i ty tpy
    cases tpy with
    | none =>
      cases z <;> try exact Bool.noConfusion hm
      rfl
    | some py' =>
      obtain ⟨ya, yp⟩ := py'
      cases z <;> try exact Bool.noConfusion hm
      rfl
  | .ptr tx (some (xa, .struct si sfs)), y, z, hc, hm => by
    cases y <;> try exact Bool.noConfusion hc
    rename_i ty tpy
    cases tpy with
    | none => exact Bool.noConfusion hc
    | some py' =>
      obtain ⟨ya, yp⟩ := py'
      cases z <;> try exact Bool.noConfusion hm
      rename_i tz tpz
      cases tpz with
      | none => exact Bool.noConfusion hm
      | some pz' =>
        obtain ⟨za, zp⟩ := pz'
        rw [mono] at hm
        obtain ⟨_, hmp⟩ := (Bool.and_eq_true _ _).mp hm
        cases yp with
        | struct dj dfs =>
          have hc' : covL SC (exflags SC dj) sfs dfs = true := hc
          cases zp <;> try exact Bool.noConfusion hmp
          rename_i dk dgs
          rw [mono] at hmp
          obtain ⟨hdjk, hmpl⟩ := (Bool.and_eq_true _ _).mp hmp
          rw [← beq_iff_eq.mp hdjk]
          show covL SC (exflags SC dj) sfs dgs = true
          exact covL_mono SC (exflags SC dj) sfs dfs dgs hc' hmpl
        | int m => cases zp <;> first | rfl | exact absurd (mono_tyOf _ _ hmp) (by simp [tyOf])
        | str s => cases zp <;> first | rfl | exact absurd (mono_tyOf _ _ hmp) (by simp [tyOf])
        | bool b => cases zp <;> first | rfl | exact absurd (mono_tyOf _ _ hmp) (by simp [tyOf])
        | ptr t₂ tp₂ => cases zp <;> first | rfl | exact absurd (mono_tyOf _ _ hmp) (by simp [tyOf])
        | map t₂ es₂ => cases zp <;> first | rfl | exact absurd (mono_tyOf _ _ hmp) (by simp [tyOf])
        | slice t₂ ys₂ => cases zp <;> first | rfl | exact absurd (mono_tyOf _ _ hmp) (by simp [tyOf])
        | iface y₂ => cases zp <;> first | rfl | exact absurd (mono_tyOf _ _ hmp) (by simp [tyOf])
  | .ptr tx (some (xa, .int m)), y, z, hc, hm => by
    cases y <;> try exact Bool.noConfusion hc
    rename_i ty tpy
    cases tpy with
    | none => exact Bool.noConfusion hc
    | some py' =>
      obtain ⟨ya, yp⟩ := py'
      cases z <;> try exact Bool.noConfusion hm
      rename_i tz tpz
      cases tpz with
      | none => exact Bool.noConfusion hm
      | some pz' => rfl
  | .ptr tx (some (xa, .str s)), y, z, hc, hm => by
    cases y <;> try exact Bool.noConfusion hc
    rename_i ty tpy
    cases tpy with
    | none => exact Bool.noConfusion hc
    | some py' =>
      obtain ⟨ya, yp⟩ := py'
      cases z <;> try exact Bool.noConfusion hm
      rename_i tz tpz
      cases tpz with
      | none => exact Bool.noConfusion hm
      | some pz' => rfl
  | .ptr tx (some (xa, .bool b)), y, z, hc, hm => by
    cases y <;> try exact Bool.noConfusion hc
    rename_i ty tpy
    cases tpy with
    | none => exact Bool.noConfusion hc
    | some py' =>
      obtain ⟨ya, yp⟩ := py'
      cases z <;> try exact Bool.noConfusion hm
      rename_i tz tpz
      cases tpz with
      | none => exact Bool.noConfusion hm
      | some pz' => rfl
  | .ptr tx (some (xa, .ptr t₂ tp₂)), y, z, hc, hm => by
    cases y <;> try exact Bool.noConfusion hc
    rename_i ty tpy
    cases tpy with
    | none => exact Bool.noConfusion hc
    | some py' =>
      obtain ⟨ya, yp⟩ := py'
      cases z <;> try exact Bool.noConfusion hm
      rename_i tz tpz
      cases tpz with
      | none => exact Bool.noConfusion hm
      | some pz' => rfl
  | .ptr tx (some (xa, .map t₂ es₂)), y, z, hc, hm => by
    cases y <;> try exact Bool.noConfusion hc
    rename_i ty tpy
    cases tpy with
    | none => exact Bool.noConfusion hc
    | some py' =>
      obtain ⟨ya, yp⟩ := py'
      cases z <;> try exact Bool.noConfusion hm
      rename_i tz tpz
      cases tpz with
      | none => exact Bool.noConfusion hm
      | some pz' => rfl
  | .ptr tx (some (xa, .slice t₂ ys₂)), y, z, hc, hm => by
    cases y <;> try exact Bool.noConfusion hc
    rename_i ty tpy
    cases tpy with
    | none => exact Bool.noConfusion hc
    | some py' =>
      obtain ⟨ya, yp⟩ := py'
      cases z <;> try exact Bool.noConfusion hm
      rename_i tz tpz
      cases tpz with
      | none => exact Bool.noConfusion hm
      | some pz' => rfl
  | .ptr tx (some (xa, .iface y₂)), y, z, hc, hm => by
    cases y <;> try exact Bool.noConfusion hc
    rename_i ty tpy
    cases tpy with
    | none => exact Bool.noConfusion hc
    | some py' =>
      obtain ⟨ya, yp⟩ := py'
      cases z <;> try exact Bool.noConfusion hm
      rename_i tz tpz
      cases tpz with
      | none => exact Bool.noConfusion hm
      | some pz' => rfl
  | .map tx none, y, z, hc, hm => by
    cases y <;> try exact Bool.noConfusion hc
    rename_i ty esy
    cases esy with
    | none =>
      cases z <;> try exact Bool.noConfusion hm
      rfl
    | some fs =>
      cases z <;> try exact Bool.noConfusion hm
      rfl
  | .map tx (some es), y, z, hc, hm => by
    cases y <;> try exact Bool.noConfusion hc
    rename_i ty esy
    cases esy with
    | none => exact Bool.noConfusion hc
    | some fs =>
      cases z <;> try exact Bool.noConfusion hm
      rename_i tz esz
      cases esz with
      | none => exact Bool.noConfusion hm
      | some gs =>
        rw [mono] at hm
        obtain ⟨_, hmes⟩ := (Bool.and_eq_true _ _).mp hm
        show covKeys es gs = true
        exact covKeys_monoEs es fs gs hc hmes
  | .slice tx none, y, z, hc, hm => by
    cases y <;> try exact Bool.noConfusion hc
    rename_i ty ysy
    cases ysy with
    | none =>
      cases z <;> try exact Bool.noConfusion hm
      rfl
    | some ys =>
      cases z <;> try exact Bool.noConfusion hm
      rfl
  | .slice tx (some xs), y, z, hc, hm => by
    cases y <;> try exact Bool.noConfusion hc
    rename_i ty ysy
    cases ysy with
    | none => exact Bool.noConfusion hc
    | some ys =>
      cases z <;> try exact Bool.noConfusion hm
      rename_i tz zsz
      cases zsz with
      | none => exact Bool.noConfusion hm
      | some zs => rfl
  | .iface none, y, z, hc, hm => by
    cases y <;> try exact Bool.noConfusion hc
    rename_i ym
    cases ym with
    | none =>
      cases z <;> try exact Bool.noConfusion hm
      rfl
    | some u =>
      cases z <;> try exact Bool.noConfusion hm
      rfl
  | .iface (some x), y, z, hc, hm => by
    cases y <;> try exact Bool.noConfusion hc
    rename_i ym
    cases ym with
    | none => exact Bool.noConfusion hc
    | some u =>
      cases z <;> try exact Bool.noConfusion hm
      rename_i zm
      cases zm with
      | none => exact Bool.noConfusion hm
      | some w => rfl

theorem covL_mono (SC : Nat → List (Bool × Ty)) :
    ∀ (flags : List Bool) (xs ys zs : List Val),
      covL SC flags xs ys = true → monoL ys zs = true →
      covL SC flags xs zs = true
  | [], xs, ys, zs, _, _ => by cases xs <;> cases zs <;> rfl
  | ex :: exs, [], ys, zs, _, _ => by cases zs <;> rfl
  | ex :: exs, x :: xs, ys, zs, hc, hm => by
    cases ys with
    | nil =>
      cases zs with
      | nil => rfl
      | cons z zs => simp [monoL] at hm
    | cons y ys =>
      cases zs with
      | nil => simp [monoL] at hm
      | cons z zs =>
        rw [covL] at hc ⊢
        rw [monoL] at hm
        obtain ⟨hc1, hc2⟩ := (Bool.and_eq_true _ _).mp hc
        obtain ⟨hm1, hm2⟩ := (Bool.and_eq_true _ _).mp hm
        refine (Bool.and_eq_true _ _).mpr ⟨?_, covL_mono SC exs xs ys zs hc2 hm2⟩
        cases ex with
        | false => rfl
        | true =>
          rw [Bool.not_true, Bool.false_or] at hc1 ⊢
          exact cov_mono SC x y z hc1 hm1
end

mutual
theorem mergeFieldsF_covered (SC : Nat → List (Bool × Ty)) :
    ∀ (sfs : List Val) (n : Nat) (flags : List Bool) (gfs : List Val),
      wfL SC gfs = true → wfL SC sfs = true → gfs.map tyOf = sfs.map tyOf →
      covL SC flags sfs gfs = true → nnmL gfs = true →
      mergeFieldsF SC n flags gfs sfs = (gfs, n)
  | [], n, flags, gfs, _, _, _, _, _ => rfl
  | s :: ss, n, flags, gfs, hwg, hws, hty, hcv, hnm => by
    cases gfs with
    | nil => simp at hty
    | cons gf gs =>
      cases flags with
      | nil => rfl
      | cons ex exs =>
        rw [wfL] at hwg hws
        obtain ⟨hwg1, hwg2⟩ := (Bool.and_eq_true _ _).mp hwg
        obtain ⟨hws1, hws2⟩ := (Bool.and_eq_true _ _).mp hws
        simp only [List.map_cons, List.cons.injEq] at hty
        rw [covL] at hcv
        obtain ⟨hcv1, hcv2⟩ := (Bool.and_eq_true _ _).mp hcv
        rw [nnmL] at hnm
        obtain ⟨hnm1, hnm2⟩ := (Bool.and_eq_true _ _).mp hnm
        have h1 : mergeFieldF SC n ex gf s = (gf, n) := by
          refine mergeFieldF_covered SC s n ex gf hwg1 hws1 hty.1 ?_ hnm1
          intro hex
          rw [hex, Bool.not_true, Bool.false_or] at hcv1
          exact hcv1
        have h2 : mergeFieldsF SC n exs gs ss = (gs, n) :=
          mergeFieldsF_covered SC ss n exs gs hwg2 hws2 hty.2 hcv2 hnm2
        have hstep : mergeFieldsF SC n (ex :: exs) (gf :: gs) (s :: ss) =
            ((mergeFieldF SC n ex gf s).1 ::
              (mergeFieldsF SC (mergeFieldF SC n ex gf s).2 exs gs ss).1,
             (mergeFieldsF SC (mergeFieldF SC n ex gf s).2 exs gs ss).2) := rfl
        rw [hstep, h1]
        show (gf :: (mergeFieldsF SC n exs gs ss).1,
          (mergeFieldsF SC n exs gs ss).2) = (gf :: gs, n)
        rw [h2]

theorem mergeFieldF_covered (SC : Nat → List (Bool × Ty)) :
    ∀ (df : Val) (n : Nat) (ex : Bool) (gf : Val),
      wfV SC gf = true → wfV SC df = true → tyOf gf = tyOf df →
      (ex = true → cov SC df gf = true) → nnm gf = true →
      mergeFieldF SC n ex gf df = (gf, n)
  | .int m, n, ex, gf, hwg, hwd, hty, hcov, hnm => by
    rw [mergeFieldF.eq_def]
    cases ex with
    | false => rw [if_pos rfl]
    | true =>
      rw [if_neg (by decide : ¬(true = false))]
      have hc := hcov rfl
      cases gf <;> try exact Ty.noConfusion hty
      rename_i b
      by_cases hz : isZero (Val.int b) = true
      · rw [if_pos hz]
        rw [isZero] at hz
        rw [beq_iff_eq.mp hz] at hc ⊢
        have hc' : (!((0 : Int) == 0) || (m == 0)) = true := hc
        simp only [beq_self_eq_true, Bool.not_true, Bool.false_or] at hc'
        rw [beq_iff_eq.mp hc']
        rfl
      · rw [if_neg hz]
  | .str s, n, ex, gf, hwg, hwd, hty, hcov, hnm => by
    rw [mergeFieldF.eq_def]
    cases ex with
    | false => rw [if_pos rfl]
    | true =>
      rw [if_neg (by decide : ¬(true = false))]
      have hc := hcov rfl
      cases gf <;> try exact Ty.noConfusion hty
      rename_i b
      by_cases hz : isZero (Val.str b) = true
      · rw [if_pos hz]
        rw [isZero] at hz
        rw [beq_iff_eq.mp hz] at hc ⊢
        have hc' : (!("" == "") || (s == "")) = true := hc
        simp only [beq_self_eq_true, Bool.not_true, Bool.false_or] at hc'
        rw [beq_iff_eq.mp hc']
        rfl
      · rw [if_neg hz]
  | .bool c, n, ex, gf, hwg, hwd, hty, hcov, hnm => by
    rw [mergeFieldF.eq_def]
    cases ex with
    | false => rw [if_pos rfl]
    | true =>
      rw [if_neg (by decide : ¬(true = false))]
      have hc := hcov rfl
      cases gf <;> try exact Ty.noConfusion hty
      rename_i b
      by_cases hz : isZero (Val.bool b) = true
      · rw [if_pos hz]
        rw [isZero] at hz
        rw [beq_iff_eq.mp hz] at hc ⊢
        have hc' : (!(false == false) || (c == false)) = true := hc
        simp only [beq_self_eq_true, Bool.not_true, Bool.false_or] at hc'
        rw [beq_iff_eq.mp hc']
        rfl
      · rw [if_neg hz]
  | .struct sid dsfs, n, ex, gf, hwg, hwd, hty, hcov, hnm => by
    rw [mergeFieldF.eq_def]
    cases ex with
    | false => rw [if_pos rfl]
    | true =>
      rw [if_neg (by decide : ¬(true = false))]
      have hc := hcov rfl
      cases gf <;> try exact Ty.noConfusion hty
      rename_i gid gfs
      have hc' : (covL SC (exflags SC gid) dsfs gfs &&
          (!(isZeroL gfs) || isZeroL dsfs)) = true := hc
      obtain ⟨hcl, hcz⟩ := (Bool.and_eq_true _ _).mp hc'
      rw [wfV] at hwg hwd
      obtain ⟨hwg1, hwg2⟩ := (Bool.and_eq_true _ _).mp hwg
      obtain ⟨hwd1, hwd2⟩ := (Bool.and_eq_true _ _).mp hwd
      simp only [tyOf, Ty.struct.injEq] at hty
      subst hty
      have hmaps : gfs.map tyOf = dsfs.map tyOf := by
        rw [beq_iff_eq.mp hwg1, beq_iff_eq.mp hwd1]
      rw [nnm] at hnm
      by_cases hz : isZero (Val.struct gid gfs) = true
      · rw [if_pos hz]
        rw [isZero] at hz
        rw [hz] at hcz
        simp only [Bool.not_true, Bool.false_or] at hcz
        have huniq : Val.struct gid dsfs = Val.struct gid gfs := by
          refine zero_nnm_unique SC (Val.struct gid gfs) (Val.struct gid dsfs)
            ?_ ?_ ?_ ?_ ?_ rfl
          · rw [isZero]; exact hz
          · rw [nnm]; exact hnm
          · rw [isZero]; exact hcz
          · rw [wfV]
            exact (Bool.and_eq_true _ _).mpr ⟨hwg1, hwg2⟩
          · rw [wfV]
            exact (Bool.and_eq_true _ _).mpr ⟨hwd1, hwd2⟩
        have hset : setFieldF (Val.struct gid gfs) (Val.struct gid dsfs) =
            Val.struct gid dsfs := rfl
        rw [hset, huniq]
      · rw [if_neg hz]
        have hr : mergeFieldsF SC n (exflags SC gid) gfs dsfs = (gfs, n) :=
          mergeFieldsF_covered SC dsfs n (exflags SC gid) gfs hwg2 hwd2 hmaps hcl hnm
        show (Val.struct gid (mergeFieldsF SC n (exflags SC gid) gfs dsfs).1,
          (mergeFieldsF SC n (exflags SC gid) gfs dsfs).2) = (Val.struct gid gfs, n)
        rw [hr]
  | .ptr st stp, n, ex, gf, hwg, hwd, hty, hcov, hnm => by
    rw [mergeFieldF.eq_def]
    cases ex with
    | false => rw [if_pos rfl]
    | true =>
      rw [if_neg (by decide : ¬(true = false))]
      have hc := hcov rfl
      cases gf <;> try exact Ty.noConfusion hty
      rename_i gt gtp
      simp only [tyOf, Ty.ptr.injEq] at hty
      subst hty
      cases stp with
      | none =>
        by_cases hz : isZero (Val.ptr gt gtp) = true
        · rw [if_pos hz]
          rw [isZero] at hz
          cases gtp with
          | none => rfl
          | some gp' => simp at hz
        · rw [if_neg hz]
      | some sp' =>
        obtain ⟨sa, sp⟩ := sp'
        cases gtp with
        | none =>
          rw [if_pos (by rfl : isZero (Val.ptr gt none) = true)]
          cases sp <;> exact Bool.noConfusion hc
        | some gp' =>
          obtain ⟨ga, gp⟩ := gp'
          rw [if_neg (by simp [isZero] : ¬(isZero (Val.ptr gt (some (ga, gp))) = true))]
          cases sp with
          | struct ssid ssfs =>
            rw [wfV] at hwg hwd
            obtain ⟨hwg1, hwg2⟩ := (Bool.and_eq_true _ _).mp hwg
            obtain ⟨hwd1, hwd2⟩ := (Bool.and_eq_true _ _).mp hwd
            have hgpt : tyOf gp = Ty.struct ssid := by
              rw [beq_iff_eq.mp hwg1, ← beq_iff_eq.mp hwd1]
              rfl
            cases gp <;> try exact Ty.noConfusion hgpt
            rename_i gpid gpfs
            simp only [tyOf, Ty.struct.injEq] at hgpt
            subst hgpt
            have hc' : covL SC (exflags SC gpid) ssfs gpfs = true := hc
            rw [wfV] at hwg2 hwd2
            obtain ⟨hwg2a, hwg2b⟩ := (Bool.and_eq_true _ _).mp hwg2
            obtain ⟨hwd2a, hwd2b⟩ := (Bool.and_eq_true _ _).mp hwd2
            have hmaps : gpfs.map tyOf = ssfs.map tyOf := by
              rw [beq_iff_eq.mp hwg2a, beq_iff_eq.mp hwd2a]
            rw [nnm] at hnm
            rw [nnm] at hnm
            have hr : mergeFieldsF SC n (exflags SC gpid) gpfs ssfs = (gpfs, n) :=
              mergeFieldsF_covered SC ssfs n (exflags SC gpid) gpfs hwg2b hwd2b
                hmaps hc' hnm
            show (Val.ptr gt (some (ga, Val.struct gpid
                (mergeFieldsF SC n (exflags SC gpid) gpfs ssfs).1)),
              (mergeFieldsF SC n (exflags SC gpid) gpfs ssfs).2) =
              (Val.ptr gt (some (ga, Val.struct gpid gpfs)), n)
            rw [hr]
          | int m => rfl
          | str s => rfl
          | bool b => rfl
          | ptr t₂ tp₂ => rfl
          | map t₂ es₂ => rfl
          | slice t₂ ys₂ => rfl
          | iface y₂ => rfl
  | .map mt ses?, n, ex, gf, hwg, hwd, hty, hcov, hnm => by
    rw [mergeFieldF.eq_def]
    cases ex with
    | false => rw [if_pos rfl]
    | true =>
      rw [if_neg (by decide : ¬(true = false))]
      have hc := hcov rfl
      cases gf <;> try exact Ty.noConfusion hty
      rename_i gt ges?
      cases ges? with
      | none =>
        rw [nnm] at hnm
        exact Bool.noConfusion hnm
      | some ges =>
        rw [if_neg (by simp [isZero] : ¬(isZero (Val.map gt (some ges)) = true))]
        have hck : covKeys (ses?.getD []) ges = true := by
          cases ses? with
          | none => rfl
          | some ses => exact hc
        show (Val.map gt (some (mergeMapEntries ges (ses?.getD []))), n) =
          (Val.map gt (some ges), n)
        rw [mergeMapEntries_covered (ses?.getD []) ges hck]
  | .slice st sxs?, n, ex, gf, hwg, hwd, hty, hcov, hnm => by
    rw [mergeFieldF.eq_def]
    cases ex with
    | false => rw [if_pos rfl]
    | true =>
      rw [if_neg (by decide : ¬(true = false))]
      have hc := hcov rfl
      cases gf <;> try exact Ty.noConfusion hty
      rename_i gt gxs?
      simp only [tyOf, Ty.slice.injEq] at hty
      subst hty
      by_cases hz : isZero (Val.slice gt gxs?) = true
      · rw [if_pos hz]
        rw [isZero] at hz
        cases gxs? with
        | none =>
          cases sxs? with
          | none => rfl
          | some sxs => exact Bool.noConfusion hc
        | some gxs => simp at hz
      · rw [if_neg hz]
  | .iface sx?, n, ex, gf, hwg, hwd, hty, hcov, hnm => by
    rw [mergeFieldF.eq_def]
    cases ex with
    | false => rw [if_pos rfl]
    | true =>
      rw [if_neg (by decide : ¬(true = false))]
      have hc := hcov rfl
      cases gf <;> try exact Ty.noConfusion hty
      rename_i gx?
      by_cases hz : isZero (Val.iface gx?) = true
      · rw [if_pos hz]
        rw [isZero] at hz
        cases gx? with
        | none =>
          cases sx? with
          | none => rfl
          | some sx => exact Bool.noConfusion hc
        | some gx => simp at hz
      · rw [if_neg hz]
end

mutual
theorem mergeFieldsF_establishes (SC : Nat → List (Bool × Ty)) :
    ∀ (sfs : List Val) (n : Nat) (flags : List Bool) (xfs : List Val),
      wfL SC xfs = true → wfL SC sfs = true → xfs.map tyOf = sfs.map tyOf →
      covL SC flags sfs (mergeFieldsF SC n flags xfs sfs).1 = true
  | [], n, flags, xfs, _, _, _ => by
    cases flags with
    | nil => rfl
    | cons ex exs => rfl
  | s :: ss, n, flags, xfs, hwx, hws, hty => by
    cases xfs with
    | nil => simp at hty
    | cons xf xs =>
      cases flags with
      | nil => rfl
      | cons ex exs =>
        rw [wfL] at hwx hws
        obtain ⟨hwx1, hwx2⟩ := (Bool.and_eq_true _ _).mp hwx
        obtain ⟨hws1, hws2⟩ := (Bool.and_eq_true _ _).mp hws
        simp only [List.map_cons, List.cons.injEq] at hty
        have hstep : (mergeFieldsF SC n (ex :: exs) (xf :: xs) (s :: ss)).1 =
            (mergeFieldF SC n ex xf s).1 ::
            (mergeFieldsF SC (mergeFieldF SC n ex xf s).2 exs xs ss).1 := rfl
        rw [hstep, covL]
        refine (Bool.and_eq_true _ _).mpr
          ⟨?_, mergeFieldsF_establishes SC ss (mergeFieldF SC n ex xf s).2 exs xs
            hwx2 hws2 hty.2⟩
        cases ex with
        | false => rfl
        | true =>
          rw [Bool.not_true, Bool.false_or]
          exact mergeFieldF_establishes SC s n xf hwx1 hws1 hty.1

theorem mergeFieldF_establishes (SC : Nat → List (Bool × Ty)) :
    ∀ (df : Val) (n : Nat) (xf : Val),
      wfV SC xf = true → wfV SC df = true → tyOf xf = tyOf df →
      cov SC df (mergeFieldF SC n true xf df).1 = true
  | .int m, n, xf, hwx, hwd, hty => by
    rw [mergeFieldF.eq_def, if_neg (by decide : ¬(true = false))]
    cases xf <;> try exact Ty.noConfusion hty
    rename_i b
    by_cases hz : isZero (Val.int b) = true
    · rw [if_pos hz]
      show cov SC (Val.int m) (Val.int m) = true
      exact cov_refl SC (Val.int m)
    · rw [if_neg hz]
      rw [Bool.not_eq_true, isZero] at hz
      show (!(b == 0) || (m == 0)) = true
      rw [hz]
      rfl
  | .str s, n, xf, hwx, hwd, hty => by
    rw [mergeFieldF.eq_def, if_neg (by decide : ¬(true = false))]
    cases xf <;> try exact Ty.noConfusion hty
    rename_i b
    by_cases hz : isZero (Val.str b) = true
    · rw [if_pos hz]
      show cov SC (Val.str s) (Val.str s) = true
      exact cov_refl SC (Val.str s)
    · rw [if_neg hz]
      rw [Bool.not_eq_true, isZero] at hz
      show (!(b == "") || (s == "")) = true
      rw [hz]
      rfl
  | .bool c, n, xf, hwx, hwd, hty => by
    rw [mergeFieldF.eq_def, if_neg (by decide : ¬(true = false))]
    cases xf <;> try exact Ty.noConfusion hty
    rename_i b
    by_cases hz : isZero (Val.bool b) = true
    · rw [if_pos hz]
      show cov SC (Val.bool c) (Val.bool c) = true
      exact cov_refl SC (Val.bool c)
    · rw [if_neg hz]
      rw [Bool.not_eq_true, isZero] at hz
      show (!(b == false) || (c == false)) = true
      rw [hz]
      rfl
  | .struct sid sfs, n, xf, hwx, hwd, hty => by
    rw [mergeFieldF.eq_def, if_neg (by decide : ¬(true = false))]
    cases xf <;> try exact Ty.noConfusion hty
    rename_i xid xfs
    simp only [tyOf, Ty.struct.injEq] at hty
    subst hty
    by_cases hz : isZero (Val.struct xid xfs) = true
    · rw [if_pos hz]
      show cov SC (Val.struct xid sfs) (Val.struct xid sfs) = true
      exact cov_refl SC (Val.struct xid sfs)
    · rw [if_neg hz]
      rw [wfV] at hwx hwd
      obtain ⟨hwx1, hwx2⟩ := (Bool.and_eq_true _ _).mp hwx
      obtain ⟨hwd1, hwd2⟩ := (Bool.and_eq_true _ _).mp hwd
      have hmaps : xfs.map tyOf = sfs.map tyOf := by
        rw [beq_iff_eq.mp hwx1, beq_iff_eq.mp hwd1]
      show (covL SC (exflags SC xid) sfs
          (mergeFieldsF SC n (exflags SC xid) xfs sfs).1 &&
        (!(isZeroL (mergeFieldsF SC n (exflags SC xid) xfs sfs).1) ||
          isZeroL sfs)) = true
      refine (Bool.and_eq_true _ _).mpr
        ⟨mergeFieldsF_establishes SC sfs n (exflags SC xid) xfs hwx2 hwd2 hmaps, ?_⟩
      by_cases hzr : isZeroL (mergeFieldsF SC n (exflags SC xid) xfs sfs).1 = true
      · obtain ⟨hml, _⟩ := mergeFieldsF_mono_wf SC sfs n (exflags SC xid) xfs
          hwx2 hwd2 hmaps
        have : isZeroL xfs = true := monoL_isZero_rev xfs _ hml hzr
        rw [isZero] at hz
        exact absurd this hz
      · rw [Bool.not_eq_true] at hzr
        rw [hzr]
        rfl
  | .ptr st stp, n, xf, hwx, hwd, hty => by
    rw [mergeFieldF.eq_def, if_neg (by decide : ¬(true = false))]
    cases xf <;> try exact Ty.noConfusion hty
    rename_i xt xtp
    simp only [tyOf, Ty.ptr.injEq] at hty
    subst hty
    cases stp with
    | none =>
      by_cases hz : isZero (Val.ptr xt xtp) = true
      · rw [if_pos hz]
        show cov SC (Val.ptr xt none) (Val.ptr xt none) = true
        rfl
      · rw [if_neg hz]
        rfl
    | some sp' =>
      obtain ⟨sa, sp⟩ := sp'
      cases xtp with
      | none =>
        rw [if_pos (by rfl : isZero (Val.ptr xt none) = true)]
        show cov SC (Val.ptr xt (some (sa, sp))) (Val.ptr xt (some (sa, sp))) = true
        exact cov_refl SC (Val.ptr xt (some (sa, sp)))
      | some xp' =>
        obtain ⟨xa, xp⟩ := xp'
        rw [if_neg (by simp [isZero] : ¬(isZero (Val.ptr xt (some (xa, xp))) = true))]
        cases sp with
        | struct ssid ssfs =>
          rw [wfV] at hwx hwd
          obtain ⟨hwx1, hwx2⟩ := (Bool.and_eq_true _ _).mp hwx
          obtain ⟨hwd1, hwd2⟩ := (Bool.and_eq_true _ _).mp hwd
          have hxpt : tyOf xp = Ty.struct ssid := by
            rw [beq_iff_eq.mp hwx1, ← beq_iff_eq.mp hwd1]
            rfl
          cases xp <;> try exact Ty.noConfusion hxpt
          rename_i xpid xpfs
          simp only [tyOf, Ty.struct.injEq] at hxpt
          subst hxpt
          rw [wfV] at hwx2 hwd2
          obtain ⟨hwx2a, hwx2b⟩ := (Bool.and_eq_true _ _).mp hwx2
          obtain ⟨hwd2a, hwd2b⟩ := (Bool.and_eq_true _ _).mp hwd2
          have hmaps : xpfs.map tyOf = ssfs.map tyOf := by
            rw [beq_iff_eq.mp hwx2a, beq_iff_eq.mp hwd2a]
          show covL SC (exflags SC xpid) ssfs
            (mergeFieldsF SC n (exflags SC xpid) xpfs ssfs).1 = true
          exact mergeFieldsF_establishes SC ssfs n (exflags SC xpid) xpfs
            hwx2b hwd2b hmaps
        | int m => rfl
        | str s => rfl
        | bool b => rfl
        | ptr t₂ tp₂ => rfl
        | map t₂ es₂ => rfl
        | slice t₂ ys₂ => rfl
        | iface y₂ => rfl
  | .map mt ses?, n, xf, hwx, hwd, hty => by
    rw [mergeFieldF.eq_def, if_neg (by decide : ¬(true = false))]
    cases xf <;> try exact Ty.noConfusion hty
    rename_i xt xes?
    simp only [tyOf, Ty.map.injEq] at hty
    subst hty
    cases xes? with
    | none =>
      rw [if_pos (by rfl : isZero (Val.map xt none) = true)]
      cases ses? with
      | none => rfl
      | some ses =>
        show covKeys ses (((some ses).getD []) : List (String × Val)) = true
        exact covKeys_refl ses
    | some xes =>
      rw [if_neg (by simp [isZero] : ¬(isZero (Val.map xt (some xes)) = true))]
      cases ses? with
      | none => rfl
      | some ses =>
        show covKeys ses (mergeMapEntries xes ses) = true
        refine covKeys_intro ses _ ?_
        intro p hp
        rw [mergeMapEntries_get]
        cases hx : mapGet p.1 xes with
        | some y => rfl
        | none => exact mapGet_isSome_of_mem p.1 p.2 ses hp
  | .slice st sxs?, n, xf, hwx, hwd, hty => by
    rw [mergeFieldF.eq_def, if_neg (by decide : ¬(true = false))]
    cases xf <;> try exact Ty.noConfusion hty
    rename_i xt xxs?
    simp only [tyOf, Ty.slice.injEq] at hty
    subst hty
    cases xxs? with
    | none =>
      rw [if_pos (by rfl : isZero (Val.slice xt none) = true)]
      show cov SC (Val.slice xt sxs?) (Val.slice xt sxs?) = true
      exact cov_refl SC (Val.slice xt sxs?)
    | some xxs =>
      rw [if_neg (by simp [isZero] : ¬(isZero (Val.slice xt (some xxs)) = true))]
      cases sxs? with
      | none => rfl
      | some sxs => rfl
  | .iface sx?, n, xf, hwx, hwd, hty => by
    rw [mergeFieldF.eq_def, if_neg (by decide : ¬(true = false))]
    cases xf <;> try exact Ty.noConfusion hty
    rename_i xx?
    cases xx? with
    | none =>
      rw [if_pos (by rfl : isZero (Val.iface none) = true)]
      show cov SC (Val.iface sx?) (Val.iface sx?) = true
      exact cov_refl SC (Val.iface sx?)
    | some xx =>
      rw [if_neg (by simp [isZero] : ¬(isZero (Val.iface (some xx)) = true))]
      cases sx? with
      | none => rfl
      | some sx => rfl
end

theorem mergeDefaultF_covered (SC : Nat → List (Bool × Ty)) :
    ∀ (d : Val) (n : Nat) (u : Val),
      wfV SC u = true → wfV SC d = true → tyOf u = tyOf d →
      covN SC d u = true → nnm u = true →
      mergeDefaultF SC n u d = (u, n)
  | .struct sid dfs, n, u, hwu, hwd, hty, hcv, hnm => by
    cases u <;> try exact Ty.noConfusion hty
    rename_i uid ufs
    simp only [tyOf, Ty.struct.injEq] at hty
    subst hty
    have hc' : covL SC (exflags SC uid) dfs ufs = true := hcv
    rw [wfV] at hwu hwd
    obtain ⟨hwu1, hwu2⟩ := (Bool.and_eq_true _ _).mp hwu
    obtain ⟨hwd1, hwd2⟩ := (Bool.and_eq_true _ _).mp hwd
    have hmaps : ufs.map tyOf = dfs.map tyOf := by
      rw [beq_iff_eq.mp hwu1, beq_iff_eq.mp hwd1]
    rw [nnm] at hnm
    have hr : mergeFieldsF SC n (exflags SC uid) ufs dfs = (ufs, n) :=
      mergeFieldsF_covered SC dfs n (exflags SC uid) ufs hwu2 hwd2 hmaps hc' hnm
    show (Val.struct uid (mergeFieldsF SC n (exflags SC uid) ufs dfs).1,
      (mergeFieldsF SC n (exflags SC uid) ufs dfs).2) = (Val.struct uid ufs, n)
    rw [hr]
  | .ptr st stp, n, u, hwu, hwd, hty, hcv, hnm => by
    cases u <;> try exact Ty.noConfusion hty
    rename_i ut utp
    simp only [tyOf, Ty.ptr.injEq] at hty
    subst hty
    cases stp with
    | none => rfl
    | some dp' =>
      obtain ⟨da, dp⟩ := dp'
      cases dp with
      | struct dsid dsfs =>
        cases utp with
        | none => rfl
        | some up' =>
          obtain ⟨ua, up⟩ := up'
          rw [wfV] at hwu hwd
          obtain ⟨hwu1, hwu2⟩ := (Bool.and_eq_true _ _).mp hwu
          obtain ⟨hwd1, hwd2⟩ := (Bool.and_eq_true _ _).mp hwd
          have hupt : tyOf up = Ty.struct dsid := by
            rw [beq_iff_eq.mp hwu1, ← beq_iff_eq.mp hwd1]
            rfl
          cases up <;> try exact Ty.noConfusion hupt
          rename_i upid upfs
          simp only [tyOf, Ty.struct.injEq] at hupt
          subst hupt
          have hc' : covL SC (exflags SC upid) dsfs upfs = true := hcv
          rw [wfV] at hwu2 hwd2
          obtain ⟨hwu2a, hwu2b⟩ := (Bool.and_eq_true _ _).mp hwu2
          obtain ⟨hwd2a, hwd2b⟩ := (Bool.and_eq_true _ _).mp hwd2
          have hmaps : upfs.map tyOf = dsfs.map tyOf := by
            rw [beq_iff_eq.mp hwu2a, beq_iff_eq.mp hwd2a]
          rw [nnm] at hnm
          rw [nnm] at hnm
          have hr : mergeFieldsF SC n (exflags SC upid) upfs dsfs = (upfs, n) :=
            mergeFieldsF_covered SC dsfs n (exflags SC upid) upfs hwu2b hwd2b
              hmaps hc' hnm
          show (Val.ptr ut (some (ua, Val.struct upid
              (mergeFieldsF SC n (exflags SC upid) upfs dsfs).1)),
            (mergeFieldsF SC n (exflags SC upid) upfs dsfs).2) =
            (Val.ptr ut (some (ua, Val.struct upid upfs)), n)
          rw [hr]
      | int m =>
        cases utp with
        | none => rfl
        | some up' => rfl
      | str s =>
        cases utp with
        | none => rfl
        | some up' => rfl
      | bool b =>
        cases utp with
        | none => rfl
        | some up' => rfl
      | ptr t₂ tp₂ =>
        cases utp with
        | none => rfl
        | some up' => rfl
      | map t₂ es₂ =>
        cases utp with
        | none => rfl
        | some up' => rfl
      | slice t₂ ys₂ =>
        cases utp with
        | none => rfl
        | some up' => rfl
      | iface y₂ =>
        cases utp with
        | none => rfl
        | some up' => rfl
  | .int m, n, u, _, _, _, _, _ => by cases u <;> rfl
  | .str s, n, u, _, _, _, _, _ => by cases u <;> rfl
  | .bool b, n, u, _, _, _, _, _ => by cases u <;> rfl
  | .map t es?, n, u, _, _, _, _, _ => by cases u <;> rfl
  | .slice t ys?, n, u, _, _, _, _, _ => by cases u <;> rfl
  | .iface y?, n, u, _, _, _, _, _ => by cases u <;> rfl

theorem applyTypeDefaultsF_covered (SC : Nat → List (Bool × Ty)) (u : Val)
    (tds : List Val) (hwu : wfV SC u = true) (hnm : nnm u = true)
    (htds : ∀ d ∈ tds, wfV SC d = true ∧ tyOf d = tyOf u ∧ covN SC d u = true)
    (n : Nat) : applyTypeDefaultsF SC n u tds = (u, n) := by
  rw [applyTypeDefaultsF]
  have h : ∀ ds : List Val,
      (∀ d ∈ ds, wfV SC d = true ∧ tyOf d = tyOf u ∧ covN SC d u = true) →
      ds.foldl (fun acc d => mergeDefaultF SC acc.2 acc.1 d) (u, n) = (u, n) := by
    intro ds
    induction ds with
    | nil => intro _; rfl
    | cons d rest ih =>
      intro hds
      obtain ⟨hwd, htyd, hcvd⟩ := hds d (List.mem_cons_self _ _)
      rw [List.foldl_cons]
      show List.foldl (fun acc d => mergeDefaultF SC acc.2 acc.1 d)
        (mergeDefaultF SC n u d) rest = (u, n)
      rw [mergeDefaultF_covered SC d n u hwu hwd htyd.symm hcvd hnm]
      exact ih (fun d' hd' => hds d' (List.mem_cons_of_mem _ hd'))
  exact h tds.reverse (fun d hd => htds d (List.mem_reverse.mp hd))

theorem mergeDefaultF_establishes (SC : Nat → List (Bool × Ty)) :
    ∀ (d : Val) (n : Nat) (x : Val),
      wfV SC x = true → wfV SC d = true → tyOf x = tyOf d →
      covN SC d (mergeDefaultF SC n x d).1 = true
  | .struct sid dfs, n, x, hwx, hwd, hty => by
    cases x <;> try exact Ty.noConfusion hty
    rename_i xid xfs
    simp only [tyOf, Ty.struct.injEq] at hty
    subst hty
    rw [wfV] at hwx hwd
    obtain ⟨hwx1, hwx2⟩ := (Bool.and_eq_true _ _).mp hwx
    obtain ⟨hwd1, hwd2⟩ := (Bool.and_eq_true _ _).mp hwd
    have hmaps : xfs.map tyOf = dfs.map tyOf := by
      rw [beq_iff_eq.mp hwx1, beq_iff_eq.mp hwd1]
    show covL SC (exflags SC xid) dfs
      (mergeFieldsF SC n (exflags SC xid) xfs dfs).1 = true
    exact mergeFieldsF_establishes SC dfs n (exflags SC xid) xfs hwx2 hwd2 hmaps
  | .ptr st stp, n, x, hwx, hwd, hty => by
    cases x <;> try exact Ty.noConfusion hty
    rename_i xt xtp
    simp only [tyOf, Ty.ptr.injEq] at hty
    subst hty
    cases stp with
    | none =>
      cases xtp with
      | none => rfl
      | some xp' => rfl
    | some dp' =>
      obtain ⟨da, dp⟩ := dp'
      cases dp with
      | struct dsid dsfs =>
        cases xtp with
        | none => rfl
        | some xp' =>
          obtain ⟨xa, xp⟩ := xp'
          rw [wfV] at hwx hwd
          obtain ⟨hwx1, hwx2⟩ := (Bool.and_eq_true _ _).mp hwx
          obtain ⟨hwd1, hwd2⟩ := (Bool.and_eq_true _ _).mp hwd
          have hxpt : tyOf xp = Ty.struct dsid := by
            rw [beq_iff_eq.mp hwx1, ← beq_iff_eq.mp hwd1]
            rfl
          cases xp <;> try exact Ty.noConfusion hxpt
          rename_i xpid xpfs
          simp only [tyOf, Ty.struct.injEq] at hxpt
          subst hxpt
          rw [wfV] at hwx2 hwd2
          obtain ⟨hwx2a, hwx2b⟩ := (Bool.and_eq_true _ _).mp hwx2
          obtain ⟨hwd2a, hwd2b⟩ := (Bool.and_eq_true _ _).mp hwd2
          have hmaps : xpfs.map tyOf = dsfs.map tyOf := by
            rw [beq_iff_eq.mp hwx2a, beq_iff_eq.mp hwd2a]
          show covL SC (exflags SC xpid) dsfs
            (mergeFieldsF SC n (exflags SC xpid) xpfs dsfs).1 = true
          exact mergeFieldsF_establishes SC dsfs n (exflags SC xpid) xpfs
            hwx2b hwd2b hmaps
      | int m =>
        cases xtp with
        | none => rfl
        | some xp' => rfl
      | str s =>
        cases xtp with
        | none => rfl
        | some xp' => rfl
      | bool b =>
        cases xtp with
        | none => rfl
        | some xp' => rfl
      | ptr t₂ tp₂ =>
        cases xtp with
        | none => rfl
        | some xp' => rfl
      | map t₂ es₂ =>
        cases xtp with
        | none => rfl
        | some xp' => rfl
      | slice t₂ ys₂ =>
        cases xtp with
        | none => rfl
        | some xp' => rfl
      | iface y₂ =>
        cases xtp with
        | none => rfl
        | some xp' => rfl
  | .int m, n, x, _, _, _ => by cases x <;> rfl
  | .str s, n, x, _, _, _ => by cases x <;> rfl
  | .bool b, n, x, _, _, _ => by cases x <;> rfl
  | .map t es?, n, x, _, _, _ => by cases x <;> rfl
  | .slice t ys?, n, x, _, _, _ => by cases x <;> rfl
  | .iface y?, n, x, _, _, _ => by cases x <;> rfl

theorem covN_mono_struct (SC : Nat → List (Bool × Ty)) (i : Nat) (dfs : List Val) :
    ∀ y z : Val, covN SC (.struct i dfs) y = true → mono y z = true →
      covN SC (.struct i dfs) z = true := by
  intro y z hc hm
  cases y with
  | struct j gs =>
    cases z <;> try exact Bool.noConfusion hm
    rename_i k hs
    rw [mono] at hm
    obtain ⟨hjk, hml⟩ := (Bool.and_eq_true _ _).mp hm
    rw [← beq_iff_eq.mp hjk]
    show covL SC (exflags SC j) dfs hs = true
    exact covL_mono SC (exflags SC j) dfs gs hs hc hml
  | int b =>
    cases z <;> try rfl
    exact absurd (mono_tyOf _ _ hm) (by simp [tyOf])
  | str b =>
    cases z <;> try rfl
    exact absurd (mono_tyOf _ _ hm) (by simp [tyOf])
  | bool b =>
    cases z <;> try rfl
    exact absurd (mono_tyOf _ _ hm) (by simp [tyOf])
  | ptr t tp =>
    cases z <;> try rfl
    exact absurd (mono_tyOf _ _ hm) (by simp [tyOf])
  | map t es? =>
    cases z <;> try rfl
    exact absurd (mono_tyOf _ _ hm) (by simp [tyOf])
  | slice t xs? =>
    cases z <;> try rfl
    exact absurd (mono_tyOf _ _ hm) (by simp [tyOf])
  | iface x? =>
    cases z <;> try rfl
    exact absurd (mono_tyOf _ _ hm) (by simp [tyOf])

theorem covN_mono_ptrsome (SC : Nat → List (Bool × Ty)) (st : Ty) (da : Nat)
    (dsid : Nat) (dsfs : List Val) (t : Ty) (b : Nat) (j : Nat) (gfs : List Val) :
    ∀ z : Val,
      covN SC (.ptr st (some (da, .struct dsid dsfs)))
        (.ptr t (some (b, .struct j gfs))) = true →
      mono (.ptr t (some (b, .struct j gfs))) z = true →
      covN SC (.ptr st (some (da, .struct dsid dsfs))) z = true := by
  intro z hc hm
  cases z <;> try exact Bool.noConfusion hm
  rename_i tz tpz
  cases tpz with
  | none => exact Bool.noConfusion hm
  | some pz' =>
    obtain ⟨za, zp⟩ := pz'
    rw [mono] at hm
    obtain ⟨_, hmp⟩ := (Bool.and_eq_true _ _).mp hm
    cases zp <;> try exact Bool.noConfusion hmp
    rename_i k hs
    rw [mono] at hmp
    obtain ⟨hjk, hml⟩ := (Bool.and_eq_true _ _).mp hmp
    rw [← beq_iff_eq.mp hjk]
    show covL SC (exflags SC j) dsfs hs = true
    exact covL_mono SC (exflags SC j) dsfs gfs hs hc hml

theorem foldl_mergeDefaultF_ptrnone (SC : Nat → List (Bool × Ty)) (t : Ty) :
    ∀ (ds : List Val) (m : Nat),
      ds.foldl (fun acc d => mergeDefaultF SC acc.2 acc.1 d) (.ptr t none, m) =
        (.ptr t none, m) := by
  intro ds
  induction ds with
  | nil => intro m; rfl
  | cons d rest ih =>
    intro m
    rw [List.foldl_cons]
    show List.foldl (fun acc d => mergeDefaultF SC acc.2 acc.1 d)
      (mergeDefaultF SC m (.ptr t none) d) rest = (.ptr t none, m)
    rw [mergeDefaultF_ptrnone_inert]
    exact ih m

theorem foldl_mergeDefaultF_establishes (SC : Nat → List (Bool × Ty)) :
    ∀ (ds : List Val) (p : Val × Nat),
      wfV SC p.1 = true → (∀ d ∈ ds, wfV SC d = true ∧ tyOf d = tyOf p.1) →
      ∀ d ∈ ds, covN SC d
        (ds.foldl (fun acc d => mergeDefaultF SC acc.2 acc.1 d) p).1 = true := by
  intro ds
  induction ds with
  | nil => intro p _ _ d hd; simp at hd
  | cons d₀ rest ih =>
    intro p hwp hds d hd
    obtain ⟨hwd0, htyd0⟩ := hds d₀ (List.mem_cons_self _ _)
    obtain ⟨hm0, hw0⟩ := mergeDefaultF_mono_wf SC p.2 p.1 d₀ hwp hwd0 htyd0.symm
    have hrest : ∀ d' ∈ rest, wfV SC d' = true ∧
        tyOf d' = tyOf (mergeDefaultF SC p.2 p.1 d₀).1 := by
      intro d' hd'
      obtain ⟨hw', hty'⟩ := hds d' (List.mem_cons_of_mem _ hd')
      exact ⟨hw', hty'.trans (mono_tyOf _ _ hm0)⟩
    rw [List.foldl_cons]
    show covN SC d
      (rest.foldl (fun acc d => mergeDefaultF SC acc.2 acc.1 d)
        (mergeDefaultF SC p.2 p.1 d₀)).1 = true
    rcases List.mem_cons.mp hd with heq | hmem
    · subst heq
      have hest : covN SC d (mergeDefaultF SC p.2 p.1 d).1 = true :=
        mergeDefaultF_establishes SC d p.2 p.1 hwp hwd0 htyd0.symm
      have hmono2 : mono (mergeDefaultF SC p.2 p.1 d).1
          (rest.foldl (fun acc d => mergeDefaultF SC acc.2 acc.1 d)
            (mergeDefaultF SC p.2 p.1 d)).1 = true :=
        (foldl_mergeDefaultF_mono_wf SC rest (mergeDefaultF SC p.2 p.1 d)
          hw0 hrest).1
      cases d with
      | struct i dfs => exact covN_mono_struct SC i dfs _ _ hest hmono2
      | ptr st stp =>
        cases stp with
        | none => rfl
        | some dp' =>
          obtain ⟨da, dp⟩ := dp'
          cases dp with
          | struct dsid dsfs =>
            have hqt : tyOf (mergeDefaultF SC p.2 p.1
                (Val.ptr st (some (da, Val.struct dsid dsfs)))).1 = Ty.ptr st := by
              rw [← mono_tyOf _ _ hm0, ← htyd0]
              rfl
            cases hq : (mergeDefaultF SC p.2 p.1
                (Val.ptr st (some (da, Val.struct dsid dsfs)))).1 with
            | ptr tq tpq =>
              rw [hq] at hqt
              simp only [tyOf, Ty.ptr.injEq] at hqt
              subst hqt
              cases tpq with
              | none =>
                have hpair : mergeDefaultF SC p.2 p.1
                    (Val.ptr tq (some (da, Val.struct dsid dsfs))) =
                    (Val.ptr tq none, (mergeDefaultF SC p.2 p.1
                      (Val.ptr tq (some (da, Val.struct dsid dsfs)))).2) := by
                  rw [← hq]
                rw [hpair, foldl_mergeDefaultF_ptrnone]
                rfl
              | some qp' =>
                obtain ⟨qa, qp⟩ := qp'
                rw [hq] at hw0 hest hmono2
                rw [wfV] at hw0
                obtain ⟨hw0a, hw0b⟩ := (Bool.and_eq_true _ _).mp hw0
                have hwdp : (tyOf (Val.struct dsid dsfs) == tq) = true := by
                  rw [wfV] at hwd0
                  exact ((Bool.and_eq_true _ _).mp hwd0).1
                have hqpt : tyOf qp = Ty.struct dsid := by
                  rw [beq_iff_eq.mp hw0a, ← beq_iff_eq.mp hwdp]
                  rfl
                cases qp <;> try exact Ty.noConfusion hqpt
                rename_i qpid qpfs
                simp only [tyOf, Ty.struct.injEq] at hqpt
                subst hqpt
                exact covN_mono_ptrsome SC tq da qpid dsfs tq qa qpid qpfs _
                  hest hmono2
            | int m => rw [hq] at hqt; exact Ty.noConfusion hqt
            | str s => rw [hq] at hqt; exact Ty.noConfusion hqt
            | bool b => rw [hq] at hqt; exact Ty.noConfusion hqt
            | struct i fs => rw [hq] at hqt; exact Ty.noConfusion hqt
            | map t es? => rw [hq] at hqt; exact Ty.noConfusion hqt
            | slice t ys? => rw [hq] at hqt; exact Ty.noConfusion hqt
            | iface y? => rw [hq] at hqt; exact Ty.noConfusion hqt
          | int m => rfl
          | str s => rfl
          | bool b => rfl
          | ptr t₂ tp₂ => rfl
          | map t₂ es₂ => rfl
          | slice t₂ ys₂ => rfl
          | iface y₂ => rfl
      | int m => rfl
      | str s => rfl
      | bool b => rfl
      | map t es? => rfl
      | slice t ys? => rfl
      | iface y? => rfl
    · exact ih (mergeDefaultF SC p.2 p.1 d₀) hw0 hrest d hmem

theorem applyTypeDefaultsF_ptrnone_inert (SC : Nat → List (Bool × Ty)) (n : Nat)
    (t : Ty) (tds : List Val) :
    applyTypeDefaultsF SC n (.ptr t none) tds = (.ptr t none, n) := by
  rw [applyTypeDefaultsF]
  exact foldl_mergeDefaultF_ptrnone SC t tds.reverse n

theorem wfL_mem (SC : Nat → List (Bool × Ty)) :
    ∀ vs : List Val, wfL SC vs = true → ∀ v ∈ vs, wfV SC v = true := by
  intro vs
  induction vs with
  | nil => intro _ v hv; simp at hv
  | cons x xs ih =>
    intro h v hv
    rw [wfL] at h
    obtain ⟨h1, h2⟩ := (Bool.and_eq_true _ _).mp h
    rcases List.mem_cons.mp hv with heq | hmem
    · subst heq; exact h1
    · exact ih h2 v hmem

theorem wfSl_mem (SC : Nat → List (Bool × Ty)) (t : Ty) :
    ∀ vs : List Val, wfSl SC t vs = true → ∀ v ∈ vs, wfV SC v = true := by
  intro vs
  induction vs with
  | nil => intro _ v hv; simp at hv
  | cons x xs ih =>
    intro h v hv
    rw [wfSl] at h
    obtain ⟨h1, h2⟩ := (Bool.and_eq_true _ _).mp h
    rcases List.mem_cons.mp hv with heq | hmem
    · subst heq; exact ((Bool.and_eq_true _ _).mp h1).2
    · exact ih h2 v hmem

theorem runChildrenF_sat (SC : Nat → List (Bool × Ty)) (R : Ty → List Val)
    (rec : Val → St → Except DErr (Val × St))
    (hrec : ∀ v st w st', wfV SC v = true → rec v st = .ok (w, st') →
      satV SC R w ∧ nnm w = true) :
    ∀ vs st vs' st', (∀ v ∈ vs, wfV SC v = true) →
      runChildrenF rec vs st = .ok (vs', st') →
      satL SC R vs' ∧ nnmL vs' = true := by
  intro vs
  induction vs with
  | nil =>
    intro st vs' st' _ h
    rw [runChildrenF] at h
    simp only [Except.ok.injEq, Prod.mk.injEq] at h
    rw [← h.1]
    exact ⟨trivial, rfl⟩
  | cons v vs ih =>
    intro st vs' st' hwf h
    rw [runChildrenF] at h
    cases h1 : rec v st with
    | error e => simp only [h1] at h; exact absurd h (by simp)
    | ok r1 =>
      obtain ⟨v', st₁⟩ := r1
      simp only [h1] at h
      cases h2 : runChildrenF rec vs st₁ with
      | error e => simp only [h2] at h; exact absurd h (by simp)
      | ok r2 =>
        obtain ⟨vs'', st₂⟩ := r2
        simp only [h2, Except.ok.injEq, Prod.mk.injEq] at h
        rw [← h.1]
        obtain ⟨hs1, hn1⟩ := hrec v st v' st₁ (hwf v (List.mem_cons_self _ _)) h1
        obtain ⟨hs2, hn2⟩ := ih st₁ vs'' st₂
          (fun u hu => hwf u (List.mem_cons_of_mem _ hu)) h2
        refine ⟨⟨hs1, hs2⟩, ?_⟩
        rw [nnmL]
        exact (Bool.and_eq_true _ _).mpr ⟨hn1, hn2⟩

theorem runEntriesF_sat (SC : Nat → List (Bool × Ty)) (R : Ty → List Val)
    (rec : Val → St → Except DErr (Val × St))
    (hrec : ∀ v st w st', wfV SC v = true → rec v st = .ok (w, st') →
      satV SC R w ∧ nnm w = true) :
    ∀ es st es' st', (∀ p ∈ es, wfV SC p.2 = true) →
      runEntriesF rec es st = .ok (es', st') →
      satEs SC R es' ∧ nnmEs es' = true := by
  intro es
  induction es with
  | nil =>
    intro st es' st' _ h
    rw [runEntriesF] at h
    simp only [Except.ok.injEq, Prod.mk.injEq] at h
    rw [← h.1]
    exact ⟨trivial, rfl⟩
  | cons hd tl ih =>
    intro st es' st' hwf h
    obtain ⟨k, x⟩ := hd
    rw [runEntriesF] at h
    cases h1 : rec x st with
    | error e => simp only [h1] at h; exact absurd h (by simp)
    | ok r1 =>
      obtain ⟨x', st₁⟩ := r1
      simp only [h1] at h
      cases h2 : runEntriesF rec tl st₁ with
      | error e => simp only [h2] at h; exact absurd h (by simp)
      | ok r2 =>
        obtain ⟨tl', st₂⟩ := r2
        simp only [h2, Except.ok.injEq, Prod.mk.injEq] at h
        rw [← h.1]
        obtain ⟨hs1, hn1⟩ := hrec x st x' st₁ (hwf (k, x) (List.mem_cons_self _ _)) h1
        obtain ⟨hs2, hn2⟩ := ih st₁ tl' st₂
          (fun p hp => hwf p (List.mem_cons_of_mem _ hp)) h2
        refine ⟨⟨hs1, hs2⟩, ?_⟩
        rw [nnmEs]
        exact (Bool.and_eq_true _ _).mpr ⟨hn1, hn2⟩

theorem runChildrenF_marks (SC : Nat → List (Bool × Ty))
    (rec : Val → St → Except DErr (Val × St))
    (hrec : ∀ v st w st', wfV SC v = true → rec v st = .ok (w, st') →
      st'.vis = (marks w).reverse ++ st.vis ∧ (marks w).Nodup ∧
      (∀ m ∈ marks w, m ∉ st.vis)) :
    ∀ vs st vs' st', (∀ v ∈ vs, wfV SC v = true) →
      runChildrenF rec vs st = .ok (vs', st') →
      st'.vis = (marksL vs').reverse ++ st.vis ∧ (marksL vs').Nodup ∧
      (∀ m ∈ marksL vs', m ∉ st.vis) := by
  intro vs
  induction vs with
  | nil =>
    intro st vs' st' _ h
    rw [runChildrenF] at h
    simp only [Except.ok.injEq, Prod.mk.injEq] at h
    rw [← h.1, ← h.2]
    exact ⟨rfl, List.nodup_nil, by simp [marksL]⟩
  | cons v vs ih =>
    intro st vs' st' hwf h
    rw [runChildrenF] at h
    cases h1 : rec v st with
    | error e => simp only [h1] at h; exact absurd h (by simp)
    | ok r1 =>
      obtain ⟨v', st₁⟩ := r1
      simp only [h1] at h
      cases h2 : runChildrenF rec vs st₁ with
      | error e => simp only [h2] at h; exact absurd h (by simp)
      | ok r2 =>
        obtain ⟨vs'', st₂⟩ := r2
        simp only [h2, Except.ok.injEq, Prod.mk.injEq] at h
        rw [← h.1, ← h.2]
        obtain ⟨hv1, hn1, hf1⟩ := hrec v st v' st₁ (hwf v (List.mem_cons_self _ _)) h1
        obtain ⟨hv2, hn2, hf2⟩ := ih st₁ vs'' st₂
          (fun u hu => hwf u (List.mem_cons_of_mem _ hu)) h2
        have hdisj : (marks v').Disjoint (marksL vs'') := by
          intro a ha hb
          have := hf2 a hb
          rw [hv1] at this
          exact this (List.mem_append_left _ (List.mem_reverse.mpr ha))
        refine ⟨?_, ?_, ?_⟩
        · rw [hv2, hv1, marksL, List.reverse_append, List.append_assoc]
        · rw [marksL]
          exact List.nodup_append.mpr ⟨hn1, hn2, hdisj⟩
        · intro m hm
          rw [marksL] at hm
          rcases List.mem_append.mp hm with hml | hmr
          · exact hf1 m hml
          · intro hmem
            have := hf2 m hmr
            rw [hv1] at this
            exact this (List.mem_append_right _ hmem)

theorem runEntriesF_marks (SC : Nat → List (Bool × Ty))
    (rec : Val → St → Except DErr (Val × St))
    (hrec : ∀ v st w st', wfV SC v = true → rec v st = .ok (w, st') →
      st'.vis = (marks w).reverse ++ st.vis ∧ (marks w).Nodup ∧
      (∀ m ∈ marks w, m ∉ st.vis)) :
    ∀ es st es' st', (∀ p ∈ es, wfV SC p.2 = true) →
      runEntriesF rec es st = .ok (es', st') →
      st'.vis = (marksEs es').reverse ++ st.vis ∧ (marksEs es').Nodup ∧
      (∀ m ∈ marksEs es', m ∉ st.vis) := by
  intro es
  induction es with
  | nil =>
    intro st es' st' _ h
    rw [runEntriesF] at h
    simp only [Except.ok.injEq, Prod.mk.injEq] at h
    rw [← h.1, ← h.2]
    exact ⟨rfl, List.nodup_nil, by simp [marksEs]⟩
  | cons hd tl ih =>
    intro st es' st' hwf h
    obtain ⟨k, x⟩ := hd
    rw [runEntriesF] at h
    cases h1 : rec x st with
    | error e => simp only [h1] at h; exact absurd h (by simp)
    | ok r1 =>
      obtain ⟨x', st₁⟩ := r1
      simp only [h1] at h
      cases h2 : runEntriesF rec tl st₁ with
      | error e => simp only [h2] at h; exact absurd h (by simp)
      | ok r2 =>
        obtain ⟨tl', st₂⟩ := r2
        simp only [h2, Except.ok.injEq, Prod.mk.injEq] at h
        rw [← h.1, ← h.2]
        obtain ⟨hv1, hn1, hf1⟩ := hrec x st x' st₁ (hwf (k, x) (List.mem_cons_self _ _)) h1
        obtain ⟨hv2, hn2, hf2⟩ := ih st₁ tl' st₂
          (fun p hp => hwf p (List.mem_cons_of_mem _ hp)) h2
        have hdisj : (marks x').Disjoint (marksEs tl') := by
          intro a ha hb
          have := hf2 a hb
          rw [hv1] at this
          exact this (List.mem_append_left _ (List.mem_reverse.mpr ha))
        refine ⟨?_, ?_, ?_⟩
        · rw [hv2, hv1, marksEs, List.reverse_append, List.append_assoc]
        · rw [marksEs]
          exact List.nodup_append.mpr ⟨hn1, hn2, hdisj⟩
        · intro m hm
          rw [marksEs] at hm
          rcases List.mem_append.mp hm with hml | hmr
          · exact hf1 m hml
          · intro hmem
            have := hf2 m hmr
            rw [hv1] at this
            exact this (List.mem_append_right _ hmem)

theorem runRec_sat (SC : Nat → List (Bool × Ty)) (R : Ty → List Val)
    (hreg : regOK SC R) (hnmd : noMapDefaults R) :
    ∀ (fuel : Nat) (v : Val) (st : St) (w : Val) (st' : St),
      wfV SC v = true → runRec SC R fuel v st = .ok (w, st') →
      satV SC R w ∧ nnm w = true := by
  intro fuel
  induction fuel with
  | zero =>
    intro v st w st' _ h
    rw [runRec] at h
    exact absurd h (by simp)
  | succ f ih =>
    intro v st w st' hwv hrun
    rw [runRec] at hrun
    cases hcc : checkCircularReferenceF v st.vis with
    | error e =>
      simp only [hcc] at hrun
      exact absurd hrun (by simp)
    | ok vis' =>
      obtain ⟨hmono, hmwf⟩ := applyTypeDefaultsF_mono_wf SC st.nxt v (R (tyOf v))
        hwv (fun d hd => hreg (tyOf v) d hd)
      have hcovs : ∀ d ∈ R (tyOf v),
          covN SC d (applyTypeDefaultsF SC st.nxt v (R (tyOf v))).1 = true := by
        intro d hd
        rw [applyTypeDefaultsF]
        refine foldl_mergeDefaultF_establishes SC (R (tyOf v)).reverse (v, st.nxt)
          hwv ?_ d (List.mem_reverse.mpr hd)
        intro d' hd'
        exact ⟨(hreg _ _ (List.mem_reverse.mp hd')).1,
          (hreg _ _ (List.mem_reverse.mp hd')).2⟩
      have htyv : tyOf (applyTypeDefaultsF SC st.nxt v (R (tyOf v))).1 = tyOf v :=
        (mono_tyOf _ _ hmono).symm
      cases hM : applyTypeDefaultsF SC st.nxt v (R (tyOf v)) with
      | mk mv mn =>
        simp only [hM] at hmono hmwf hcovs htyv
        cases mv with
        | int m =>
          simp only [hcc, hM] at hrun
          simp only [Except.ok.injEq, Prod.mk.injEq] at hrun
          rw [← hrun.1]
          exact ⟨trivial, rfl⟩
        | str a =>
          simp only [hcc, hM] at hrun
          simp only [Except.ok.injEq, Prod.mk.injEq] at hrun
          rw [← hrun.1]
          exact ⟨trivial, rfl⟩
        | bool b =>
          simp only [hcc, hM] at hrun
          simp only [Except.ok.injEq, Prod.mk.injEq] at hrun
          rw [← hrun.1]
          exact ⟨trivial, rfl⟩
        | struct id fs =>
          simp only [hcc, hM] at hrun
          rw [wfV] at hmwf
          obtain ⟨hsch, hwfl⟩ := (Bool.and_eq_true _ _).mp hmwf
          cases hrc : runChildrenF (runRec SC R f) fs ⟨vis', mn⟩ with
          | error e => simp only [hrc] at hrun; exact absurd hrun (by simp)
          | ok r =>
            obtain ⟨fs', st₂⟩ := r
            simp only [hrc, Except.ok.injEq, Prod.mk.injEq] at hrun
            rw [← hrun.1]
            obtain ⟨hsL, hnL⟩ := runChildrenF_sat SC R (runRec SC R f) ih
              fs ⟨vis', mn⟩ fs' st₂ (wfL_mem SC fs hwfl) hrc
            obtain ⟨hml, _⟩ := runChildrenF_mono SC (runRec SC R f)
              (fun a b c d hw hr => runRec_mono SC R hreg f a b c d hw hr)
              fs ⟨vis', mn⟩ fs' st₂ hwfl hrc
            have hmono2 : mono (Val.struct id fs) (Val.struct id fs') = true := by
              rw [mono]
              simp only [beq_self_eq_true, Bool.true_and]
              exact hml
            refine ⟨⟨?_, hsL⟩, ?_⟩
            · intro d hd
              have hd' : d ∈ R (tyOf v) := by rw [← htyv]; exact hd
              have htyd : tyOf d = Ty.struct id := by
                rw [(hreg _ _ hd').2, ← htyv]
                rfl
              cases d <;> try exact Ty.noConfusion htyd
              rename_i di dfs
              simp only [tyOf, Ty.struct.injEq] at htyd
              subst htyd
              exact covN_mono_struct SC di dfs _ _ (hcovs _ hd') hmono2
            · rw [nnm]
              exact hnL
        | slice t xs? =>
          cases xs? with
          | none =>
            simp only [hcc, hM] at hrun
            simp only [Except.ok.injEq, Prod.mk.injEq] at hrun
            rw [← hrun.1]
            exact ⟨trivial, rfl⟩
          | some xs =>
            simp only [hcc, hM] at hrun
            rw [wfV] at hmwf
            cases hrc : runChildrenF (runRec SC R f) xs ⟨vis', mn⟩ with
            | error e => simp only [hrc] at hrun; exact absurd hrun (by simp)
            | ok r =>
              obtain ⟨xs', st₂⟩ := r
              simp only [hrc, Except.ok.injEq, Prod.mk.injEq] at hrun
              rw [← hrun.1]
              obtain ⟨hsL, hnL⟩ := runChildrenF_sat SC R (runRec SC R f) ih
                xs ⟨vis', mn⟩ xs' st₂ (wfSl_mem SC t xs hmwf) hrc
              refine ⟨hsL, ?_⟩
              rw [nnm]
              exact hnL
        | map t es? =>
          simp only [hcc, hM] at hrun
          have hwes : ∀ p ∈ (es?.getD [] : List (String × Val)), wfV SC p.2 = true := by
            cases es? with
            | none => intro p hp; simp at hp
            | some es =>
              rw [wfV] at hmwf
              obtain ⟨_, h2⟩ := (Bool.and_eq_true _ _).mp hmwf
              intro p hp
              exact (wfEs_mem SC t es h2 p hp).2
          cases hre : runEntriesF (runRec SC R f) (es?.getD []) ⟨vis', mn⟩ with
          | error e => simp only [hre] at hrun; exact absurd hrun (by simp)
          | ok r =>
            obtain ⟨es', st₂⟩ := r
            simp only [hre, Except.ok.injEq, Prod.mk.injEq] at hrun
            rw [← hrun.1]
            obtain ⟨hsE, hnE⟩ := runEntriesF_sat SC R (runRec SC R f) ih
              (es?.getD []) ⟨vis', mn⟩ es' st₂ hwes hre
            rw [hnmd t]
            exact ⟨hsE, hnE⟩
        | ptr t tp =>
          cases tp with
          | none =>
            simp only [hcc, hM] at hrun
            simp only [Except.ok.injEq, Prod.mk.injEq] at hrun
            rw [← hrun.1]
            exact ⟨trivial, rfl⟩
          | some ap =>
            obtain ⟨a, mp⟩ := ap
            simp only [hcc, hM] at hrun
            rw [wfV] at hmwf
            obtain ⟨hp1, hp2⟩ := (Bool.and_eq_true _ _).mp hmwf
            cases hrp : runRec SC R f mp ⟨vis', mn⟩ with
            | error e => simp only [hrp] at hrun; exact absurd hrun (by simp)
            | ok r =>
              obtain ⟨p', st₂⟩ := r
              simp only [hrp, Except.ok.injEq, Prod.mk.injEq] at hrun
              rw [← hrun.1]
              obtain ⟨hsP, hnP⟩ := ih mp ⟨vis', mn⟩ p' st₂ hp2 hrp
              obtain ⟨hmp', _⟩ := runRec_mono SC R hreg f mp ⟨vis', mn⟩ p' st₂ hp2 hrp
              have hmono2 : mono (Val.ptr t (some (a, mp)))
                  (Val.ptr t (some (a, p'))) = true := by
                rw [mono]
                simp only [beq_self_eq_true, Bool.true_and]
                exact hmp'
              refine ⟨⟨?_, hsP⟩, ?_⟩
              · intro d hd
                have hd' : d ∈ R (tyOf v) := by rw [← htyv]; exact hd
                have htyd : tyOf d = Ty.ptr t := by
                  rw [(hreg _ _ hd').2, ← htyv]
                  rfl
                cases d <;> try exact Ty.noConfusion htyd
                rename_i dt dtp
                simp only [tyOf, Ty.ptr.injEq] at htyd
                subst htyd
                cases dtp with
                | none => rfl
                | some dp' =>
                  obtain ⟨da, dp⟩ := dp'
                  cases dp with
                  | struct dsid dsfs =>
                    have hdwf := (hreg _ _ hd').1
                    rw [wfV] at hdwf
                    obtain ⟨hdw1, _⟩ := (Bool.and_eq_true _ _).mp hdwf
                    have hmpt : tyOf mp = Ty.struct dsid := by
                      rw [beq_iff_eq.mp hp1, ← beq_iff_eq.mp hdw1]
                      rfl
                    cases mp <;> try exact Ty.noConfusion hmpt
                    rename_i mpid mpfs
                    simp only [tyOf, Ty.struct.injEq] at hmpt
                    subst hmpt
                    exact covN_mono_ptrsome SC dt da mpid dsfs dt a mpid mpfs _
                      (hcovs _ hd') hmono2
                  | int m => rfl
                  | str s => rfl
                  | bool b => rfl
                  | ptr t₂ tp₂ => rfl
                  | map t₂ es₂ => rfl
                  | slice t₂ ys₂ => rfl
                  | iface y₂ => rfl
              · rw [nnm]
                exact hnP
        | iface x? =>
          cases x? with
          | none =>
            simp only [hcc, hM] at hrun
            simp only [Except.ok.injEq, Prod.mk.injEq] at hrun
            rw [← hrun.1]
            exact ⟨trivial, rfl⟩
          | some x =>
            simp only [hcc, hM] at hrun
            rw [wfV] at hmwf
            cases hrx : runRec SC R f x ⟨vis', mn⟩ with
            | error e => simp only [hrx] at hrun; exact absurd hrun (by simp)
            | ok r =>
              obtain ⟨x', st₂⟩ := r
              simp only [hrx, Except.ok.injEq, Prod.mk.injEq] at hrun
              rw [← hrun.1]
              obtain ⟨hsX, hnX⟩ := ih x ⟨vis', mn⟩ x' st₂ hmwf hrx
              refine ⟨hsX, ?_⟩
              rw [nnm]
              exact hnX

theorem runRec_marks (SC : Nat → List (Bool × Ty)) (R : Ty → List Val)
    (hreg : regOK SC R) (hnmd : noMapDefaults R) :
    ∀ (fuel : Nat) (v : Val) (st : St) (w : Val) (st' : St),
      wfV SC v = true → runRec SC R fuel v st = .ok (w, st') →
      st'.vis = (marks w).reverse ++ st.vis ∧ (marks w).Nodup ∧
      (∀ m ∈ marks w, m ∉ st.vis) := by
  intro fuel
  induction fuel with
  | zero =>
    intro v st w st' _ h
    rw [runRec] at h
    exact absurd h (by simp)
  | succ f ih =>
    intro v st w st' hwv hrun
    rw [runRec] at hrun
    cases hcc : checkCircularReferenceF v st.vis with
    | error e =>
      simp only [hcc] at hrun
      exact absurd hrun (by simp)
    | ok vis' =>
      obtain ⟨hmono, hmwf⟩ := applyTypeDefaultsF_mono_wf SC st.nxt v (R (tyOf v))
        hwv (fun d hd => hreg (tyOf v) d hd)
      have htyv : tyOf (applyTypeDefaultsF SC st.nxt v (R (tyOf v))).1 = tyOf v :=
        (mono_tyOf _ _ hmono).symm
      cases hM : applyTypeDefaultsF SC st.nxt v (R (tyOf v)) with
      | mk mv mn =>
        simp only [hM] at hmono hmwf htyv
        -- characterize vis' for a non-pointer node shape
        have hvisid : ∀ (hnp : ∀ t tp, v ≠ .ptr t tp), vis' = st.vis := by
          intro hnp
          cases v with
          | ptr t tp => exact absurd rfl (hnp t tp)
          | int m => exact (Except.ok.inj (show (Except.ok st.vis : Except DErr (List Nat)) = Except.ok vis' from hcc)).symm
          | str a => exact (Except.ok.inj (show (Except.ok st.vis : Except DErr (List Nat)) = Except.ok vis' from hcc)).symm
          | bool b => exact (Except.ok.inj (show (Except.ok st.vis : Except DErr (List Nat)) = Except.ok vis' from hcc)).symm
          | struct i fsv => exact (Except.ok.inj (show (Except.ok st.vis : Except DErr (List Nat)) = Except.ok vis' from hcc)).symm
          | map t es? => exact (Except.ok.inj (show (Except.ok st.vis : Except DErr (List Nat)) = Except.ok vis' from hcc)).symm
          | slice t xs? => exact (Except.ok.inj (show (Except.ok st.vis : Except DErr (List Nat)) = Except.ok vis' from hcc)).symm
          | iface x? => exact (Except.ok.inj (show (Except.ok st.vis : Except DErr (List Nat)) = Except.ok vis' from hcc)).symm
        cases mv with
        | int m =>
          simp only [hcc, hM] at hrun
          simp only [Except.ok.injEq, Prod.mk.injEq] at hrun
          rw [← hrun.1, ← hrun.2]
          have hv : vis' = st.vis := by
            refine hvisid ?_
            intro t tp hv
            rw [hv] at htyv
            exact Ty.noConfusion htyv
          rw [hv]
          exact ⟨rfl, List.nodup_nil, by simp [marks]⟩
        | str a =>
          simp only [hcc, hM] at hrun
          simp only [Except.ok.injEq, Prod.mk.injEq] at hrun
          rw [← hrun.1, ← hrun.2]
          have hv : vis' = st.vis := by
            refine hvisid ?_
            intro t tp hv
            rw [hv] at htyv
            exact Ty.noConfusion htyv
          rw [hv]
          exact ⟨rfl, List.nodup_nil, by simp [marks]⟩
        | bool b =>
          simp only [hcc, hM] at hrun
          simp only [Except.ok.injEq, Prod.mk.injEq] at hrun
          rw [← hrun.1, ← hrun.2]
          have hv : vis' = st.vis := by
            refine hvisid ?_
            intro t tp hv
            rw [hv] at htyv
            exact Ty.noConfusion htyv
          rw [hv]
          exact ⟨rfl, List.nodup_nil, by simp [marks]⟩
        | struct id fs =>
          simp only [hcc, hM] at hrun
          rw [wfV] at hmwf
          obtain ⟨_, hwfl⟩ := (Bool.and_eq_true _ _).mp hmwf
          have hv : vis' = st.vis := by
            refine hvisid ?_
            intro t tp hv
            rw [hv] at htyv
            exact Ty.noConfusion htyv
          cases hrc : runChildrenF (runRec SC R f) fs ⟨vis', mn⟩ with
          | error e => simp only [hrc] at hrun; exact absurd hrun (by simp)
          | ok r =>
            obtain ⟨fs', st₂⟩ := r
            simp only [hrc, Except.ok.injEq, Prod.mk.injEq] at hrun
            rw [← hrun.1, ← hrun.2]
            obtain ⟨hv2, hn2, hf2⟩ := runChildrenF_marks SC (runRec SC R f) ih
              fs ⟨vis', mn⟩ fs' st₂ (wfL_mem SC fs hwfl) hrc
            rw [hv] at hv2 hf2
            exact ⟨by rw [hv2]; rfl, hn2, hf2⟩
        | slice t xs? =>
          have hv : vis' = st.vis := by
            refine hvisid ?_
            intro t' tp hv
            rw [hv] at htyv
            exact Ty.noConfusion htyv
          cases xs? with
          | none =>
            simp only [hcc, hM] at hrun
            simp only [Except.ok.injEq, Prod.mk.injEq] at hrun
            rw [← hrun.1, ← hrun.2, hv]
            exact ⟨rfl, List.nodup_nil, by simp [marks]⟩
          | some xs =>
            simp only [hcc, hM] at hrun
            rw [wfV] at hmwf
            cases hrc : runChildrenF (runRec SC R f) xs ⟨vis', mn⟩ with
            | error e => simp only [hrc] at hrun; exact absurd hrun (by simp)
            | ok r =>
              obtain ⟨xs', st₂⟩ := r
              simp only [hrc, Except.ok.injEq, Prod.mk.injEq] at hrun
              rw [← hrun.1, ← hrun.2]
              obtain ⟨hv2, hn2, hf2⟩ := runChildrenF_marks SC (runRec SC R f) ih
                xs ⟨vis', mn⟩ xs' st₂ (wfSl_mem SC t xs hmwf) hrc
              rw [hv] at hv2 hf2
              exact ⟨by rw [hv2]; rfl, hn2, hf2⟩
        | map t es? =>
          have hv : vis' = st.vis := by
            refine hvisid ?_
            intro t' tp hv
            rw [hv] at htyv
            exact Ty.noConfusion htyv
          simp only [hcc, hM] at hrun
          have hwes : ∀ p ∈ (es?.getD [] : List (String × Val)), wfV SC p.2 = true := by
            cases es? with
            | none => intro p hp; simp at hp
            | some es =>
              rw [wfV] at hmwf
              obtain ⟨_, h2⟩ := (Bool.and_eq_true _ _).mp hmwf
              intro p hp
              exact (wfEs_mem SC t es h2 p hp).2
          cases hre : runEntriesF (runRec SC R f) (es?.getD []) ⟨vis', mn⟩ with
          | error e => simp only [hre] at hrun; exact absurd hrun (by simp)
          | ok r =>
            obtain ⟨es', st₂⟩ := r
            simp only [hre, Except.ok.injEq, Prod.mk.injEq] at hrun
            rw [← hrun.1, ← hrun.2]
            obtain ⟨hv2, hn2, hf2⟩ := runEntriesF_marks SC (runRec SC R f) ih
              (es?.getD []) ⟨vis', mn⟩ es' st₂ hwes hre
            rw [hv] at hv2 hf2
            rw [hnmd t]
            exact ⟨by rw [hv2]; rfl, hn2, hf2⟩
        | ptr t tp =>
          cases tp with
          | none =>
            simp only [hcc, hM] at hrun
            simp only [Except.ok.injEq, Prod.mk.injEq] at hrun
            rw [← hrun.1, ← hrun.2]
            cases v <;> try exact Ty.noConfusion htyv
            rename_i tv tpv
            cases tpv with
            | some pv' =>
              obtain ⟨va, vp⟩ := pv'
              exact Bool.noConfusion hmono
            | none =>
              rw [checkCircularReferenceF] at hcc
              by_cases h0 : ptrId (none : Option (Nat × Val)) ∈ st.vis
              · rw [if_pos h0] at hcc
                exact absurd hcc (by simp)
              · rw [if_neg h0] at hcc
                simp only [Except.ok.injEq] at hcc
                refine ⟨?_, ?_, ?_⟩
                · show vis' = (marks (Val.ptr t none)).reverse ++ st.vis
                  rw [← hcc]
                  rfl
                · exact List.nodup_singleton 0
                · intro m hm
                  have hm0 : m = 0 := by simpa [marks] using hm
                  rw [hm0]
                  exact h0
          | some ap =>
            obtain ⟨a, mp⟩ := ap
            simp only [hcc, hM] at hrun
            rw [wfV] at hmwf
            obtain ⟨hp1, hp2⟩ := (Bool.and_eq_true _ _).mp hmwf
            cases v <;> try exact Ty.noConfusion htyv
            rename_i tv tpv
            cases tpv with
            | none =>
              rw [applyTypeDefaultsF_ptrnone_inert] at hM
              simp at hM
            | some pv' =>
              obtain ⟨va, vp⟩ := pv'
              have hmono' : mono (Val.ptr tv (some (va, vp)))
                  (Val.ptr t (some (a, mp))) = true := hmono
              rw [mono] at hmono'
              obtain ⟨h12, _⟩ := (Bool.and_eq_true _ _).mp hmono'
              obtain ⟨_, haddr⟩ := (Bool.and_eq_true _ _).mp h12
              rw [checkCircularReferenceF] at hcc
              by_cases h0 : ptrId (some (va, vp)) ∈ st.vis
              · rw [if_pos h0] at hcc
                exact absurd hcc (by simp)
              · rw [if_neg h0] at hcc
                simp only [Except.ok.injEq] at hcc
                cases hrp : runRec SC R f mp ⟨vis', mn⟩ with
                | error e => simp only [hrp] at hrun; exact absurd hrun (by simp)
                | ok r =>
                  obtain ⟨p', st₂⟩ := r
                  simp only [hrp, Except.ok.injEq, Prod.mk.injEq] at hrun
                  rw [← hrun.1, ← hrun.2]
                  obtain ⟨hv2, hn2, hf2⟩ := ih mp ⟨vis', mn⟩ p' st₂ hp2 hrp
                  have hva : va = a := beq_iff_eq.mp haddr
                  subst hva
                  refine ⟨?_, ?_, ?_⟩
                  · show st₂.vis =
                      (marks (Val.ptr t (some (va, p')))).reverse ++ st.vis
                    rw [hv2, ← hcc]
                    show (marks p').reverse ++ (va :: st.vis) =
                      (va :: marks p').reverse ++ st.vis
                    rw [List.reverse_cons, List.append_assoc]
                    rfl
                  · show (va :: marks p').Nodup
                    refine List.nodup_cons.mpr ⟨?_, hn2⟩
                    intro hmem
                    have hcon := hf2 va hmem
                    rw [← hcc] at hcon
                    exact hcon (List.mem_cons_self _ _)
                  · intro m hm
                    rcases List.mem_cons.mp hm with heq | hmem
                    · rw [heq]
                      exact h0
                    · intro hmv
                      have hcon := hf2 m hmem
                      rw [← hcc] at hcon
                      exact hcon (List.mem_cons_of_mem _ hmv)
        | iface x? =>
          have hv : vis' = st.vis := by
            refine hvisid ?_
            intro t' tp hveq
            rw [hveq] at htyv
            exact Ty.noConfusion htyv
          cases x? with
          | none =>
            simp only [hcc, hM] at hrun
            simp only [Except.ok.injEq, Prod.mk.injEq] at hrun
            rw [← hrun.1, ← hrun.2, hv]
            exact ⟨rfl, List.nodup_nil, by simp [marks]⟩
          | some x =>
            simp only [hcc, hM] at hrun
            rw [wfV] at hmwf
            cases hrx : runRec SC R f x ⟨vis', mn⟩ with
            | error e => simp only [hrx] at hrun; exact absurd hrun (by simp)
            | ok r =>
              obtain ⟨x', st₂⟩ := r
              simp only [hrx, Except.ok.injEq, Prod.mk.injEq] at hrun
              rw [← hrun.1, ← hrun.2]
              obtain ⟨hv2, hn2, hf2⟩ := ih x ⟨vis', mn⟩ x' st₂ hmwf hrx
              rw [hv] at hv2 hf2
              exact ⟨by rw [hv2]; rfl, hn2, hf2⟩

theorem applyTypeDefaultsF_slice_inert (SC : Nat → List (Bool × Ty)) (n : Nat)
    (t : Ty) (xs? : Option (List Val)) (tds : List Val) :
    applyTypeDefaultsF SC n (.slice t xs?) tds = (.slice t xs?, n) := by
  rw [applyTypeDefaultsF_foldl]
  generalize tds.reverse = l
  induction l with
  | nil => rfl
  | cons d rest ih => rw [List.foldl_cons, mergeDefaultF_slice_inert, ih]

theorem applyTypeDefaultsF_iface_inert (SC : Nat → List (Bool × Ty)) (n : Nat)
    (x? : Option Val) (tds : List Val) :
    applyTypeDefaultsF SC n (.iface x?) tds = (.iface x?, n) := by
  rw [applyTypeDefaultsF_foldl]
  generalize tds.reverse = l
  induction l with
  | nil => rfl
  | cons d rest ih => rw [List.foldl_cons, mergeDefaultF_iface_inert, ih]

theorem needFuel_pos : ∀ u : Val, 1 ≤ needFuel u
  | .int _ => Nat.le_refl 1
  | .str _ => Nat.le_refl 1
  | .bool _ => Nat.le_refl 1
  | .struct _ fs => Nat.succ_le_succ (Nat.zero_le _)
  | .ptr _ none => Nat.le_refl 1
  | .ptr _ (some _) => Nat.succ_le_succ (Nat.zero_le _)
  | .map _ none => Nat.le_refl 1
  | .map _ (some _) => Nat.succ_le_succ (Nat.zero_le _)
  | .slice _ none => Nat.le_refl 1
  | .slice _ (some _) => Nat.succ_le_succ (Nat.zero_le _)
  | .iface none => Nat.le_refl 1
  | .iface (some _) => Nat.succ_le_succ (Nat.zero_le _)

theorem runChildrenF_stable (SC : Nat → List (Bool × Ty)) (R : Ty → List Val)
    (rec : Val → St → Except DErr (Val × St)) (fb : Nat)
    (hrec : ∀ v stv, satV SC R v → nnm v = true → wfV SC v = true →
      needFuel v ≤ fb → (marks v).Nodup → (∀ m ∈ marks v, m ∉ stv.vis) →
      rec v stv = .ok (v, ⟨(marks v).reverse ++ stv.vis, stv.nxt⟩)) :
    ∀ vs stv, satL SC R vs → nnmL vs = true → (∀ v ∈ vs, wfV SC v = true) →
      needFuelL vs ≤ fb → (marksL vs).Nodup → (∀ m ∈ marksL vs, m ∉ stv.vis) →
      runChildrenF rec vs stv =
        .ok (vs, ⟨(marksL vs).reverse ++ stv.vis, stv.nxt⟩) := by
  intro vs
  induction vs with
  | nil => intro stv _ _ _ _ _ _; rfl
  | cons v vs ih =>
    intro stv hsat hnnm hwf hfl hnd hfr
    obtain ⟨hsat1, hsat2⟩ := hsat
    rw [nnmL] at hnnm
    obtain ⟨hnnm1, hnnm2⟩ := (Bool.and_eq_true _ _).mp hnnm
    rw [marksL] at hnd hfr
    rw [needFuelL] at hfl
    have hnd1 : (marks v).Nodup := (List.nodup_append.mp hnd).1
    have hnd2 : (marksL vs).Nodup := (List.nodup_append.mp hnd).2.1
    have hdisj : (marks v).Disjoint (marksL vs) := (List.nodup_append.mp hnd).2.2
    have h1 : rec v stv = .ok (v, ⟨(marks v).reverse ++ stv.vis, stv.nxt⟩) :=
      hrec v stv hsat1 hnnm1 (hwf v (List.mem_cons_self _ _))
        (Nat.le_trans (Nat.le_add_right _ _) hfl) hnd1
        (fun m hm => hfr m (List.mem_append_left _ hm))
    have h2 : runChildrenF rec vs ⟨(marks v).reverse ++ stv.vis, stv.nxt⟩ =
        .ok (vs, ⟨(marksL vs).reverse ++ ((marks v).reverse ++ stv.vis), stv.nxt⟩) := by
      refine ih ⟨(marks v).reverse ++ stv.vis, stv.nxt⟩ hsat2 hnnm2
        (fun u hu => hwf u (List.mem_cons_of_mem _ hu))
        (Nat.le_trans (Nat.le_add_left _ _) hfl) hnd2 ?_
      intro m hm
      intro hmem
      rcases List.mem_append.mp hmem with hl | hr
      · exact hdisj (List.mem_reverse.mp hl) hm
      · exact hfr m (List.mem_append_right _ hm) hr
    rw [runChildrenF]
    simp only [h1, h2]
    have hlist : (marksL vs).reverse ++ ((marks v).reverse ++ stv.vis) =
        (marks v ++ marksL vs).reverse ++ stv.vis := by
      rw [List.reverse_append, List.append_assoc]
    rw [hlist]
    rfl

theorem runEntriesF_stable (SC : Nat → List (Bool × Ty)) (R : Ty → List Val)
    (rec : Val → St → Except DErr (Val × St)) (fb : Nat)
    (hrec : ∀ v stv, satV SC R v → nnm v = true → wfV SC v = true →
      needFuel v ≤ fb → (marks v).Nodup → (∀ m ∈ marks v, m ∉ stv.vis) →
      rec v stv = .ok (v, ⟨(marks v).reverse ++ stv.vis, stv.nxt⟩)) :
    ∀ es stv, satEs SC R es → nnmEs es = true → (∀ p ∈ es, wfV SC p.2 = true) →
      needFuelEs es ≤ fb → (marksEs es).Nodup → (∀ m ∈ marksEs es, m ∉ stv.vis) →
      runEntriesF rec es stv =
        .ok (es, ⟨(marksEs es).reverse ++ stv.vis, stv.nxt⟩) := by
  intro es
  induction es with
  | nil => intro stv _ _ _ _ _ _; rfl
  | cons hd tl ih =>
    intro stv hsat hnnm hwf hfl hnd hfr
    obtain ⟨k, x⟩ := hd
    obtain ⟨hsat1, hsat2⟩ := hsat
    rw [nnmEs] at hnnm
    obtain ⟨hnnm1, hnnm2⟩ := (Bool.and_eq_true _ _).mp hnnm
    rw [marksEs] at hnd hfr
    rw [needFuelEs] at hfl
    have hnd1 : (marks x).Nodup := (List.nodup_append.mp hnd).1
    have hnd2 : (marksEs tl).Nodup := (List.nodup_append.mp hnd).2.1
    have hdisj : (marks x).Disjoint (marksEs tl) := (List.nodup_append.mp hnd).2.2
    have h1 : rec x stv = .ok (x, ⟨(marks x).reverse ++ stv.vis, stv.nxt⟩) :=
      hrec x stv hsat1 hnnm1 (hwf (k, x) (List.mem_cons_self _ _))
        (Nat.le_trans (Nat.le_add_right _ _) hfl) hnd1
        (fun m hm => hfr m (List.mem_append_left _ hm))
    have h2 : runEntriesF rec tl ⟨(marks x).reverse ++ stv.vis, stv.nxt⟩ =
        .ok (tl, ⟨(marksEs tl).reverse ++ ((marks x).reverse ++ stv.vis), stv.nxt⟩) := by
      refine ih ⟨(marks x).reverse ++ stv.vis, stv.nxt⟩ hsat2 hnnm2
        (fun p hp => hwf p (List.mem_cons_of_mem _ hp))
        (Nat.le_trans (Nat.le_add_left _ _) hfl) hnd2 ?_
      intro m hm
      intro hmem
      rcases List.mem_append.mp hmem with hl | hr
      · exact hdisj (List.mem_reverse.mp hl) hm
      · exact hfr m (List.mem_append_right _ hm) hr
    rw [runEntriesF]
    simp only [h1, h2]
    have hlist : (marksEs tl).reverse ++ ((marks x).reverse ++ stv.vis) =
        (marks x ++ marksEs tl).reverse ++ stv.vis := by
      rw [List.reverse_append, List.append_assoc]
    rw [hlist]
    rfl

theorem runRec_stable (SC : Nat → List (Bool × Ty)) (R : Ty → List Val)
    (hreg : regOK SC R) (hnmd : noMapDefaults R) :
    ∀ (fuel : Nat) (u : Val) (stv : St),
      satV SC R u → nnm u = true → wfV SC u = true →
      needFuel u ≤ fuel → (marks u).Nodup → (∀ m ∈ marks u, m ∉ stv.vis) →
      runRec SC R fuel u stv = .ok (u, ⟨(marks u).reverse ++ stv.vis, stv.nxt⟩) := by
  intro fuel
  induction fuel with
  | zero =>
    intro u stv _ _ _ hfl _ _
    exact absurd (Nat.le_trans (needFuel_pos u) hfl) (by decide)
  | succ f ih =>
    intro u stv hsat hnnm hwf hfl hnd hfr
    cases u with
    | int m =>
      rw [runRec]
      have hcc : checkCircularReferenceF (Val.int m) stv.vis = .ok stv.vis := rfl
      have hM := applyTypeDefaultsF_scalar_inert SC stv.nxt (.int m) rfl
        (R (tyOf (Val.int m)))
      simp only [hcc, hM]
      rfl
    | str a =>
      rw [runRec]
      have hcc : checkCircularReferenceF (Val.str a) stv.vis = .ok stv.vis := rfl
      have hM := applyTypeDefaultsF_scalar_inert SC stv.nxt (.str a) rfl
        (R (tyOf (Val.str a)))
      simp only [hcc, hM]
      rfl
    | bool b =>
      rw [runRec]
      have hcc : checkCircularReferenceF (Val.bool b) stv.vis = .ok stv.vis := rfl
      have hM := applyTypeDefaultsF_scalar_inert SC stv.nxt (.bool b) rfl
        (R (tyOf (Val.bool b)))
      simp only [hcc, hM]
      rfl
    | struct id fs =>
      obtain ⟨hcov, hsatL⟩ := hsat
      rw [wfV] at hwf
      obtain ⟨hsch, hwfl⟩ := (Bool.and_eq_true _ _).mp hwf
      rw [nnm] at hnnm
      rw [marks] at hnd hfr
      rw [needFuel] at hfl
      have hcc : checkCircularReferenceF (Val.struct id fs) stv.vis = .ok stv.vis := rfl
      have hM : applyTypeDefaultsF SC stv.nxt (Val.struct id fs)
          (R (tyOf (Val.struct id fs))) = (Val.struct id fs, stv.nxt) := by
        refine applyTypeDefaultsF_covered SC _ _ ?_ ?_ ?_ stv.nxt
        · rw [wfV]
          exact (Bool.and_eq_true _ _).mpr ⟨hsch, hwfl⟩
        · rw [nnm]
          exact hnnm
        · intro d hd
          exact ⟨(hreg _ _ hd).1, (hreg _ _ hd).2, hcov d hd⟩
      have hch : runChildrenF (runRec SC R f) fs ⟨stv.vis, stv.nxt⟩ =
          .ok (fs, ⟨(marksL fs).reverse ++ stv.vis, stv.nxt⟩) := by
        refine runChildrenF_stable SC R (runRec SC R f) f
          (fun v s h1 h2 h3 h4 h5 h6 => ih v s h1 h2 h3 h4 h5 h6)
          fs ⟨stv.vis, stv.nxt⟩ hsatL hnnm (wfL_mem SC fs hwfl) (by omega) hnd hfr
      rw [runRec]
      simp only [hcc, hM, hch]
      rfl
    | slice t xs? =>
      cases xs? with
      | none =>
        rw [runRec]
        have hcc : checkCircularReferenceF (Val.slice t none) stv.vis =
          .ok stv.vis := rfl
        have hM := applyTypeDefaultsF_slice_inert SC stv.nxt t none
          (R (tyOf (Val.slice t none)))
        simp only [hcc, hM]
        rfl
      | some xs =>
        have hsatL : satL SC R xs := hsat
        rw [wfV] at hwf
        rw [nnm] at hnnm
        rw [marks] at hnd hfr
        rw [needFuel] at hfl
        have hcc : checkCircularReferenceF (Val.slice t (some xs)) stv.vis =
          .ok stv.vis := rfl
        have hM := applyTypeDefaultsF_slice_inert SC stv.nxt t (some xs)
          (R (tyOf (Val.slice t (some xs))))
        have hch : runChildrenF (runRec SC R f) xs ⟨stv.vis, stv.nxt⟩ =
            .ok (xs, ⟨(marksL xs).reverse ++ stv.vis, stv.nxt⟩) := by
          refine runChildrenF_stable SC R (runRec SC R f) f
            (fun v s h1 h2 h3 h4 h5 h6 => ih v s h1 h2 h3 h4 h5 h6)
            xs ⟨stv.vis, stv.nxt⟩ hsatL hnnm (wfSl_mem SC t xs hwf) (by omega) hnd hfr
        rw [runRec]
        simp only [hcc, hM, hch]
        rfl
    | map t es? =>
      cases es? with
      | none =>
        rw [nnm] at hnnm
        exact Bool.noConfusion hnnm
      | some es =>
        have hsatE : satEs SC R es := hsat
        rw [wfV] at hwf
        obtain ⟨hndk, hwes⟩ := (Bool.and_eq_true _ _).mp hwf
        rw [nnm] at hnnm
        rw [marks] at hnd hfr
        rw [needFuel] at hfl
        have hcc : checkCircularReferenceF (Val.map t (some es)) stv.vis =
          .ok stv.vis := rfl
        have hM := applyTypeDefaultsF_map_inert SC stv.nxt t (some es)
          (R (tyOf (Val.map t (some es))))
        have hre : runEntriesF (runRec SC R f) es ⟨stv.vis, stv.nxt⟩ =
            .ok (es, ⟨(marksEs es).reverse ++ stv.vis, stv.nxt⟩) := by
          refine runEntriesF_stable SC R (runRec SC R f) f
            (fun v s h1 h2 h3 h4 h5 h6 => ih v s h1 h2 h3 h4 h5 h6)
            es ⟨stv.vis, stv.nxt⟩ hsatE hnnm
            (fun p hp => (wfEs_mem SC t es hwes p hp).2) (by omega) hnd hfr
        rw [runRec]
        simp only [Option.getD_some, hcc, hM, hre]
        rw [hnmd t]
        rfl
    | ptr t tp =>
      cases tp with
      | none =>
        rw [marks] at hnd hfr
        have h0 : (0 : Nat) ∉ stv.vis := hfr 0 (List.mem_cons_self _ _)
        have h0x : ptrId (none : Option (Nat × Val)) ∉ stv.vis := h0
        have hcc : checkCircularReferenceF (Val.ptr t none) stv.vis =
            .ok (0 :: stv.vis) := by
          rw [checkCircularReferenceF]
          exact if_neg h0x
        have hM := applyTypeDefaultsF_ptrnone_inert SC stv.nxt t
          (R (tyOf (Val.ptr t none)))
        rw [runRec]
        simp only [hcc, hM]
        rfl
      | some ap =>
        obtain ⟨a, p⟩ := ap
        obtain ⟨hcov, hsatP⟩ := hsat
        rw [wfV] at hwf
        obtain ⟨hpt, hwp⟩ := (Bool.and_eq_true _ _).mp hwf
        rw [nnm] at hnnm
        rw [marks] at hnd hfr
        rw [needFuel] at hfl
        have ha : a ∉ stv.vis := hfr a (List.mem_cons_self _ _)
        have hax : ptrId (some (a, p)) ∉ stv.vis := ha
        have hcc : checkCircularReferenceF (Val.ptr t (some (a, p))) stv.vis =
            .ok (a :: stv.vis) := by
          rw [checkCircularReferenceF]
          exact if_neg hax
        have hM : applyTypeDefaultsF SC stv.nxt (Val.ptr t (some (a, p)))
            (R (tyOf (Val.ptr t (some (a, p))))) =
            (Val.ptr t (some (a, p)), stv.nxt) := by
          refine applyTypeDefaultsF_covered SC _ _ ?_ ?_ ?_ stv.nxt
          · rw [wfV]
            exact (Bool.and_eq_true _ _).mpr ⟨hpt, hwp⟩
          · rw [nnm]
            exact hnnm
          · intro d hd
            exact ⟨(hreg _ _ hd).1, (hreg _ _ hd).2, hcov d hd⟩
        have hp' : runRec SC R f p ⟨a :: stv.vis, stv.nxt⟩ =
            .ok (p, ⟨(marks p).reverse ++ (a :: stv.vis), stv.nxt⟩) := by
          refine ih p ⟨a :: stv.vis, stv.nxt⟩ hsatP hnnm hwp (by omega)
            (List.nodup_cons.mp hnd).2 ?_
          intro m hm hmem
          rcases List.mem_cons.mp hmem with heq | hmem'
          · exact (List.nodup_cons.mp hnd).1 (heq ▸ hm)
          · exact hfr m (List.mem_cons_of_mem _ hm) hmem'
        rw [runRec]
        simp only [hcc, hM, hp']
        have hlist : (marks p).reverse ++ (a :: stv.vis) =
            (a :: marks p).reverse ++ stv.vis := by
          rw [List.reverse_cons, List.append_assoc]
          rfl
        rw [hlist]
        rfl
    | iface x? =>
      cases x? with
      | none =>
        rw [runRec]
        have hcc : checkCircularReferenceF (Val.iface none) stv.vis =
          .ok stv.vis := rfl
        have hM := applyTypeDefaultsF_iface_inert SC stv.nxt none
          (R (tyOf (Val.iface none)))
        simp only [hcc, hM]
        rfl
      | some x =>
        have hsatX : satV SC R x := hsat
        rw [wfV] at hwf
        rw [nnm] at hnnm
        rw [marks] at hnd hfr
        rw [needFuel] at hfl
        have hcc : checkCircularReferenceF (Val.iface (some x)) stv.vis =
          .ok stv.vis := rfl
        have hM := applyTypeDefaultsF_iface_inert SC stv.nxt (some x)
          (R (tyOf (Val.iface (some x))))
        have hx : runRec SC R f x ⟨stv.vis, stv.nxt⟩ =
            .ok (x, ⟨(marks x).reverse ++ stv.vis, stv.nxt⟩) :=
          ih x ⟨stv.vis, stv.nxt⟩ hsatX hnnm hwf (by omega) hnd hfr
        rw [runRec]
        simp only [hcc, hM, hx]
        rfl

/-- C3 (amended): the claim as stated fails (see the counterexample: a
registered default for a map type re-merges its entries into the map on
every application, so a second pass can keep changing the value), but for
every registry that registers no defaults for map types the process is
idempotent: if the first application of `applyDefaults` succeeds with
result `w`, then applying the same registry to `w` again succeeds — given
enough fuel for the traversal — and returns `w` itself unchanged. -/
theorem claim_C3_amended_idempotent_without_map_defaults
    (SC : Nat → List (Bool × Ty)) (R : Ty → List Val)
    (fuel₁ fuel₂ n₀ n₁ : Nat) (cfg w : Val) (st : St)
    (hreg : regOK SC R) (hnmd : noMapDefaults R)
    (hwf : wfV SC cfg = true)
    (hrun : applyDefaultsF SC R fuel₁ n₀ cfg = .ok (w, st))
    (hfuel : needFuel w ≤ fuel₂) :
    ∃ st₂, applyDefaultsF SC R fuel₂ n₁ w = .ok (w, st₂) := by
  cases cfg with
  | ptr t tp =>
    cases tp with
    | none =>
      exact absurd (show (Except.error DErr.nilConfig : Except DErr (Val × St)) =
        .ok (w, st) from hrun) (by simp)
    | some ip =>
      obtain ⟨a, inner⟩ := ip
      simp only [applyDefaultsF] at hrun
      cases hr : runRec SC R fuel₁ inner ⟨[], n₀⟩ with
      | error e =>
        simp only [hr] at hrun
        exact absurd hrun (by simp)
      | ok r =>
        obtain ⟨w', st₂'⟩ := r
        simp only [hr, Except.ok.injEq, Prod.mk.injEq] at hrun
        rw [← hrun.1] at hfuel ⊢
        rw [wfV] at hwf
        obtain ⟨h1, h2⟩ := (Bool.and_eq_true _ _).mp hwf
        obtain ⟨hsat, hnnm⟩ := runRec_sat SC R hreg hnmd fuel₁ inner
          ⟨[], n₀⟩ w' st₂' h2 hr
        obtain ⟨hm, hw'⟩ := runRec_mono SC R hreg fuel₁ inner
          ⟨[], n₀⟩ w' st₂' h2 hr
        obtain ⟨_, hnd, _⟩ := runRec_marks SC R hreg hnmd fuel₁ inner
          ⟨[], n₀⟩ w' st₂' h2 hr
        rw [needFuel] at hfuel
        have hstable : runRec SC R fuel₂ w' ⟨[], n₁⟩ =
            .ok (w', ⟨(marks w').reverse ++ [], n₁⟩) :=
          runRec_stable SC R hreg hnmd fuel₂ w' ⟨[], n₁⟩ hsat hnnm hw'
            (by omega) hnd (fun m _ => List.not_mem_nil m)
        refine ⟨⟨(marks w').reverse ++ [], n₁⟩, ?_⟩
        simp only [applyDefaultsF, hstable]
  | int m =>
    exact absurd (show (Except.error DErr.notPointer : Except DErr (Val × St)) =
      .ok (w, st) from hrun) (by simp)
  | str a =>
    exact absurd (show (Except.error DErr.notPointer : Except DErr (Val × St)) =
      .ok (w, st) from hrun) (by simp)
  | bool b =>
    exact absurd (show (Except.error DErr.notPointer : Except DErr (Val × St)) =
      .ok (w, st) from hrun) (by simp)
  | struct id fs =>
    exact absurd (show (Except.error DErr.notPointer : Except DErr (Val × St)) =
      .ok (w, st) from hrun) (by simp)
  | map t es? =>
    exact absurd (show (Except.error DErr.notPointer : Except DErr (Val × St)) =
      .ok (w, st) from hrun) (by simp)
  | slice t xs? =>
    exact absurd (show (Except.error DErr.notPointer : Except DErr (Val × St)) =
      .ok (w, st) from hrun) (by simp)
  | iface x? =>
    exact absurd (show (Except.error DErr.notPointer : Except DErr (Val × St)) =
      .ok (w, st) from hrun) (by simp)

/-- C3 (amended) witnessed: the filled config produced by the first merge
(Name "d", Timeout 3) passes through a second `applyDefaults` run with the
same registry completely unchanged. -/
theorem claim_C3_amended_witness :
    ∃ st₂, applyDefaultsF
      (fun id => if id = 1 then [(true, Ty.str), (true, Ty.int)] else [])
      (fun t => match t with
        | Ty.struct 1 => [Val.struct 1 [.str "d", .int 3]]
        | _ => [])
      5 77
      (.ptr (.struct 1) (some (1, .struct 1 [.str "d", .int 3]))) =
      .ok (.ptr (.struct 1) (some (1, .struct 1 [.str "d", .int 3])), st₂) :=
  claim_C3_amended_idempotent_without_map_defaults
    (fun id => if id = 1 then [(true, Ty.str), (true, Ty.int)] else [])
    (fun t => match t with
      | Ty.struct 1 => [Val.struct 1 [.str "d", .int 3]]
      | _ => [])
    4 5 50 77
    (.ptr (.struct 1) (some (1, .struct 1 [.str "", .int 0])))
    (.ptr (.struct 1) (some (1, .struct 1 [.str "d", .int 3])))
    ⟨[], 50⟩
    (by
      intro t d hd
      cases t with
      | int => exact absurd hd (List.not_mem_nil d)
      | str => exact absurd hd (List.not_mem_nil d)
      | bool => exact absurd hd (List.not_mem_nil d)
      | ptr t' => exact absurd hd (List.not_mem_nil d)
      | map t' => exact absurd hd (List.not_mem_nil d)
      | slice t' => exact absurd hd (List.not_mem_nil d)
      | iface => exact absurd hd (List.not_mem_nil d)
      | struct id =>
        match id, hd with
        | 0, hd => exact absurd hd (List.not_mem_nil d)
        | 1, hd =>
          rw [List.mem_singleton] at hd
          subst hd
          exact ⟨by decide, rfl⟩
        | n + 2, hd => exact absurd hd (List.not_mem_nil d))
    (fun t => rfl)
    (by decide)
    rfl
    (by decide)
